import Mathlib

/-!
Shallow embedding of the structured chunking core (`chunker_core.py`):
heading parsing, heading-based splitting with paragraph fallback, fenced
code-block protection, short-chunk merging, overlap injection and
breadcrumb-path resolution, together with proofs about the embedding.

Python strings are modelled as `List Char`; Python `dict`-shaped records are
modelled as structures with optional fields.  Python's `str.split`,
`str.replace`, `str.strip` and the two regexes used by the source
(`^(#{1,6})\s+(.+)$` and the lazy fenced-block pattern) are translated by hand
into executable functions below.
-/

abbrev Str := List Char

/-- The ASCII whitespace characters recognised by Python's `str.strip()` and
`\s` (the source never feeds non-ASCII whitespace into these). -/
def isPySpace (c : Char) : Bool :=
  c == ' ' || c == '\t' || c == '\n' || c == '\r' || c == '\x0b' || c == '\x0c'

/-- Python `str.strip()`. -/
def pyStrip (s : Str) : Str :=
  ((s.dropWhile isPySpace).reverse.dropWhile isPySpace).reverse

/-- Split `s` at the first occurrence of `pat`: `some (a, r)` with
`s = a ++ pat ++ r` and `a` shortest, `none` if `pat` does not occur. -/
def firstSplit (pat : Str) : Str → Option (Str × Str)
  | [] => if pat.isPrefixOf ([] : Str) then some ([], []) else none
  | c :: rest =>
    if pat.isPrefixOf (c :: rest) then some ([], (c :: rest).drop pat.length)
    else (firstSplit pat rest).map (fun pr => (c :: pr.1, pr.2))

/-- Fuelled worker for `splitOnStr`. -/
def splitOnF (sep : Str) : Nat → Str → List Str
  | 0, s => [s]
  | f + 1, s =>
    match firstSplit sep s with
    | none => [s]
    | some (a, r) => a :: splitOnF sep f r

/-- Python `s.split(sep)` for a non-empty separator (`"".split(sep) == ['']`). -/
def splitOnStr (sep s : Str) : List Str := splitOnF sep (s.length + 1) s

/-- `sep.join(parts)`. -/
def joinSep (sep : Str) : List Str → Str
  | [] => []
  | [p] => p
  | p :: ps => p ++ sep ++ joinSep sep ps

/-- Python `s.replace(pat, rep, 1)`. -/
def replaceFirst (s pat rep : Str) : Str :=
  match firstSplit pat s with
  | none => s
  | some (a, r) => a ++ rep ++ r

/-- Fuelled worker for `replaceAll`. -/
def replaceAllF (pat rep : Str) : Nat → Str → Str
  | 0, s => s
  | f + 1, s =>
    match firstSplit pat s with
    | none => s
    | some (a, r) => a ++ rep ++ replaceAllF pat rep f r

/-- Python `s.replace(pat, rep)`: left-to-right, non-overlapping. -/
def replaceAll (s pat rep : Str) : Str := replaceAllF pat rep (s.length + 1) s

/-- `"\n\n"`, the paragraph separator. -/
def sepPP : Str := ['\n', '\n']

/-- `text.split('\n')`. -/
def splitLines (s : Str) : List Str := splitOnStr ['\n'] s

/-- The decimal digit characters (`digitChar d` for `d ≤ 9`). -/
def digitChar : Nat → Char
  | 0 => '0' | 1 => '1' | 2 => '2' | 3 => '3' | 4 => '4'
  | 5 => '5' | 6 => '6' | 7 => '7' | 8 => '8' | _ => '9'

/-- Decimal digits of a natural number, as produced by Python `str(n)`
 (fuelled worker). -/
def natCharsF : Nat → Nat → Str
  | 0, _ => []
  | f + 1, n =>
    if n < 10 then [digitChar n]
    else natCharsF f (n / 10) ++ [digitChar (n % 10)]

/-- Python `str(n)` for a natural number. -/
def natChars (n : Nat) : Str := natCharsF (n + 1) n

/-- The placeholder `f"__CODE_BLOCK_{i}__"`. -/
def ph (i : Nat) : Str := "__CODE_BLOCK_".data ++ natChars i ++ "__".data

/-- `"```"`, the fence delimiter. -/
def fence : Str := ['`', '`', '`']

/-- Fuelled worker for `scanFences`. -/
def scanFencesF : Nat → Str → List (Str × Str) × Str
  | 0, s => ([], s)
  | f + 1, s =>
    match firstSplit fence s with
    | none => ([], s)
    | some (a, r) =>
      match firstSplit fence r with
      | none => ([], s)
      | some (m, r2) =>
        let rest := scanFencesF f r2
        ((a, fence ++ m ++ fence) :: rest.1, rest.2)

/-- The matches of the lazy regex `` ```[\s\S]*?``` `` over `s` (as used by
`re.finditer` in `_protect_code_blocks`), returned as a decomposition:
`segments = [(pre_0, block_0), (pre_1, block_1), ...]` plus the trailing
text, with `s = pre_0 ++ block_0 ++ pre_1 ++ block_1 ++ ... ++ tail`. -/
def scanFences (s : Str) : List (Str × Str) × Str := scanFencesF (s.length + 1) s

/-- The heading triples `(line_index, level, title)`. -/
abbrev Heading := Nat × Nat × Str

/-- The `heading_info` dict. -/
structure HeadingInfo where
  has_heading : Bool
  heading : Str
  level : Nat
deriving DecidableEq, Inhabited

/-- A chunk candidate: `{'content': ..., 'heading_info': ...}`; the
`heading_info` key is optional (`chunk_data.get('heading_info', {})`). -/
structure Candidate where
  content : Str
  heading_info : Option HeadingInfo
deriving DecidableEq, Inhabited

/-- The metadata dict of a final chunk; `heading`, `heading_level`,
`breadcrumb` and `parent_header` are only present for chunks with a
(genuine or inherited) heading. -/
structure Metadata where
  format : Str
  source_file : Str
  chunk_id : Nat
  inherited_heading : Bool
  heading : Option Str
  heading_level : Option Nat
  breadcrumb : Option Str
  parent_header : Option Str
deriving DecidableEq, Inhabited

/-- A final chunk record. -/
structure Chunk where
  content : Str
  metadata : Metadata
deriving DecidableEq, Inhabited

/-- Chunker configuration (`chunk_size`, `chunk_overlap`). -/
structure Cfg where
  chunk_size : Int
  chunk_overlap : Nat
deriving DecidableEq, Inhabited

/-- Translation of the Python regex match `re.match(r'^(#{1,6})\s+(.+)$', t)`
with the subsequent `.strip()` of group 2, for `t` an already-stripped line;
returns `(level, title)`.  The greedy `#{1,6}` with backtracking succeeds
exactly when the maximal leading run of `#` has length 1..6 and is followed
by whitespace; `\s+` then takes the maximal whitespace run (giving one
character back to `(.+)` only when nothing would remain, in which case the
stripped group 2 is empty). -/
def matchATX (t : Str) : Option (Nat × Str) :=
  let h := (t.takeWhile (· == '#')).length
  if 1 ≤ h ∧ h ≤ 6 then
    let rest := t.drop h
    let run := rest.takeWhile isPySpace
    if run.isEmpty then none
    else if (rest.drop run.length).isEmpty then
      if 2 ≤ run.length then some (h, []) else none
    else some (h, pyStrip (rest.drop run.length))
  else none

/-- `HeadingExtractor.parse_headings`. -/
def parse_headings (text : Str) : List Heading :=
  (splitLines text).enum.foldl
    (fun acc il =>
      let t := pyStrip il.2
      if t.isEmpty then acc
      else
        match matchATX t with
        | some lt => acc ++ [(il.1, lt.1, lt.2)]
        | none => acc)
    []

/-- `HeadingExtractor.extract_heading_from_chunk`. -/
def extract_heading_from_chunk (c : Str) : HeadingInfo :=
  match ((splitLines c).take 5).findSome? (fun line => matchATX (pyStrip line)) with
  | some lt => ⟨true, lt.2, lt.1⟩
  | none => ⟨false, [], 0⟩

/-- `StructuredChunker._protect_code_blocks`: replace each fence match by a
fresh placeholder (first remaining occurrence, as `str.replace(..., 1)`),
and return the protected text with the placeholder → block map. -/
def protect_code_blocks (text : Str) : Str × List (Str × Str) :=
  let ms := ((scanFences text).1).map (·.2)
  (ms.enum.foldl (fun acc ib => replaceFirst acc ib.2 (ph ib.1)) text,
   ms.enum.map (fun ib => (ph ib.1, ib.2)))

/-- `StructuredChunker._restore_code_blocks`. -/
def restore_code_blocks (t : Str) (bm : List (Str × Str)) : Str :=
  bm.foldl (fun acc pb => replaceAll acc pb.1 pb.2) t

/-- Make a candidate out of an accumulated buffer: content is the blank-line
join, `heading_info` is extracted from that content. -/
def mkCand (buf : List Str) : Candidate :=
  let c := joinSep sepPP buf
  ⟨c, some (extract_heading_from_chunk c)⟩

/-- `StructuredChunker._split_by_paragraph`. -/
def split_by_paragraph (cfg : Cfg) (text : Str) : List Candidate :=
  let pb := protect_code_blocks text
  let paragraphs := splitOnStr sepPP pb.1
  let st := paragraphs.foldl
    (fun (st : List Candidate × List Str × Nat) para =>
      let paraR := restore_code_blocks para pb.2
      let paraSize := paraR.length
      if cfg.chunk_size < (st.2.2 : Int) + paraSize ∧ st.2.1 ≠ [] then
        (st.1 ++ [mkCand st.2.1], [paraR], paraSize)
      else
        (st.1, st.2.1 ++ [paraR], st.2.2 + paraSize))
    ([], [], 0)
  if st.2.1 ≠ [] then st.1 ++ [mkCand st.2.1] else st.1

/-- The `end_line` computed for heading `i` at level `level`:
the start line of the next heading after `i` with level `<= level`,
else the number of lines. -/
def sectionEnd (headings : List Heading) (i : Nat) (level : Nat) (numLines : Nat) : Nat :=
  match (headings.drop (i + 1)).find? (fun h => h.2.1 ≤ level) with
  | some h => h.1
  | none => numLines

/-- The section text of a heading: `'\n'.join(lines[start:end]).strip()`. -/
def sectionText (lines : List Str) (startLine endLine : Nat) : Str :=
  pyStrip (joinSep ['\n'] ((lines.drop startLine).take (endLine - startLine)))

/-- `StructuredChunker._split_by_headings`. -/
def split_by_headings (cfg : Cfg) (text : Str) (headings : List Heading) : List Candidate :=
  let lines := splitLines text
  let st := headings.enum.foldl
    (fun (st : List Candidate × List Str × Nat) ih =>
      let sect := sectionText lines ih.2.1 (sectionEnd headings ih.1 ih.2.2.1 lines.length)
      let size := sect.length
      if (size : Int) ≤ cfg.chunk_size then
        if (st.2.2 : Int) + size ≤ cfg.chunk_size then
          (st.1, st.2.1 ++ [sect], st.2.2 + size)
        else
          ((if st.2.1 ≠ [] then st.1 ++ [mkCand st.2.1] else st.1), [sect], size)
      else
        ((if st.2.1 ≠ [] then st.1 ++ [mkCand st.2.1] else st.1) ++
          split_by_paragraph cfg sect, [], 0))
    ([], [], 0)
  if st.2.1 ≠ [] then st.1 ++ [mkCand st.2.1] else st.1

/-- `StructuredChunker._merge_short_chunks`. -/
def merge_short_chunks (cfg : Cfg) : List Candidate → List Candidate
  | [] => []
  | c0 :: rest =>
    let st := rest.foldl
      (fun (st : List Candidate × Candidate) nxt =>
        if (st.2.content.length : Int) + nxt.content.length ≤ cfg.chunk_size then
          (st.1, ⟨st.2.content ++ sepPP ++ nxt.content, st.2.heading_info⟩)
        else (st.1 ++ [st.2], nxt))
      ([], c0)
    st.1 ++ [st.2]

/-- Python `l[-k:]`: the last `k` elements for `k > 0`, all of `l` for
`k = 0`. -/
def pySliceLast (k : Nat) (l : List Str) : List Str :=
  if k = 0 then l else l.drop (l.length - k)

/-- `prev_lines[-k:] if len(prev_lines) > k else prev_lines`, joined by `'\n'`
(the overlap tail taken from the previous chunk). -/
def tailLines (k : Nat) (s : Str) : Str :=
  let ls := splitLines s
  joinSep ['\n'] (if k < ls.length then pySliceLast k ls else ls)

/-- `next_lines[:k] if len(next_lines) > k else next_lines`, joined by `'\n'`
(the overlap head taken from the next chunk). -/
def headLines (k : Nat) (s : Str) : Str :=
  let ls := splitLines s
  joinSep ['\n'] (if k < ls.length then ls.take k else ls)

/-- `StructuredChunker._apply_overlap`: all neighbour reads are from the
pre-overlap list `cs`. -/
def apply_overlap (cfg : Cfg) (cs : List Candidate) : List Candidate :=
  if cs.length ≤ 1 then cs
  else
    cs.enum.map (fun ic =>
      let c := ic.2
      let c1 :=
        if 0 < ic.1 then
          tailLines cfg.chunk_overlap (cs.getD (ic.1 - 1) default).content ++ sepPP ++ c.content
        else c.content
      let c2 :=
        if ic.1 < cs.length - 1 then
          c1 ++ sepPP ++ headLines cfg.chunk_overlap (cs.getD (ic.1 + 1) default).content
        else c1
      ⟨c2, c.heading_info⟩)

/-- `StructuredChunker._build_heading_path` (its `content` and `text_lines`
parameters are unused by the source body and are omitted here). -/
def build_heading_path (hi : HeadingInfo) (all : List Heading) : List (Nat × Str) :=
  if !hi.has_heading then []
  else
    match all.find? (fun h => h.2.2 == hi.heading && h.2.1 == hi.level) with
    | some f =>
      let idx := f.1
      let lvl := f.2.1
      let parents := all.filter (fun p =>
        decide (p.1 < idx) && decide (p.2.1 < lvl) &&
        !(all.any (fun c =>
          decide (p.1 < c.1) && decide (c.1 < idx) &&
          decide (p.2.1 < c.2.1) && decide (c.2.1 < lvl))))
      parents.map (fun p => (p.2.1, p.2.2)) ++ [(lvl, hi.heading)]
    | none => [(hi.level, hi.heading)]

/-- `Path(file_path).name`: the final path component. -/
def pathName (p : Str) : Str :=
  (((splitOnStr ['/'] p).filter (fun c => !c.isEmpty)).getLast?).getD []

/-- `Path(file_path).suffix`: the extension of the final component,
including the dot (`''` when there is none). -/
def pathSuffix (p : Str) : Str :=
  let name := pathName p
  match (name.reverse).findIdx? (· == '.') with
  | some ri =>
    let i := name.length - 1 - ri
    if 0 < i ∧ i < name.length - 1 then name.drop i else []
  | none => []

/-- `Path(file_path).suffix[1:] if Path(file_path).suffix else 'txt'`. -/
def formatOf (p : Str) : Str :=
  let s := pathSuffix p
  if s.isEmpty then "txt".data else s.drop 1

/-- One step of the breadcrumb-injection loop in `chunk_by_headings`
(lines 91–143 of the source): state is `(previous_heading_path, chunks)`. -/
def resolveStep (headings : List Heading) (file_name file_path : Str)
    (st : Option (List (Nat × Str)) × List Chunk) (ic : Nat × Candidate) :
    Option (List (Nat × Str)) × List Chunk :=
  let prev := st.1
  let content0 := ic.2.content
  let hi0 :=
    match ic.2.heading_info with
    | some hi => hi
    | none => extract_heading_from_chunk content0
  let curPath := build_heading_path hi0 headings
  let prevTruthy := match prev with | none => false | some l => !l.isEmpty
  let inherit := !hi0.has_heading && prevTruthy
  let hi1 : HeadingInfo :=
    if inherit then
      let p := prev.getD []
      let lastE := p.getLast?.getD (0, [])
      ⟨true, lastE.2, lastE.1⟩
    else hi0
  let content1 :=
    if inherit then
      let p := prev.getD []
      let breadcrumb := joinSep " > ".data (p.map (·.2))
      if ("[Context:".data).isPrefixOf (pyStrip content0) then content0
      else "[Context: ".data ++ file_name ++ " > ".data ++ breadcrumb ++ "]".data
        ++ sepPP ++ content0
    else content0
  let md : Metadata :=
    { format := formatOf file_path
      source_file := file_path
      chunk_id := ic.1
      inherited_heading := !hi1.has_heading && prev.isSome
      heading := if hi1.has_heading then some hi1.heading else none
      heading_level := if hi1.has_heading then some hi1.level else none
      breadcrumb :=
        if hi1.has_heading && !curPath.isEmpty then
          some (joinSep " > ".data (curPath.map (·.2)))
        else none
      parent_header :=
        if hi1.has_heading && !curPath.isEmpty then
          some (joinSep " | ".data (curPath.map (·.2)))
        else none }
  let prev' := if hi1.has_heading && !curPath.isEmpty then some curPath else prev
  (prev', st.2 ++ [⟨content1, md⟩])

/-- `StructuredChunker.chunk_by_headings`: the full pipeline. -/
def chunk_by_headings (cfg : Cfg) (text : Str) (headings : List Heading)
    (file_name file_path : Str) : List Chunk :=
  let cands0 :=
    if headings.isEmpty then split_by_paragraph cfg text
    else split_by_headings cfg text headings
  let cands1 := merge_short_chunks cfg cands0
  let cands2 :=
    if 0 < cfg.chunk_overlap ∧ 1 < cands1.length then apply_overlap cfg cands1
    else cands1
  (cands2.enum.foldl (resolveStep headings file_name file_path) (none, [])).2

/-! ### Lemmas about the string primitives -/

theorem firstSplit_sound {pat : Str} :
    ∀ {s a r : Str}, firstSplit pat s = some (a, r) → s = a ++ pat ++ r := by
  intro s
  induction s with
  | nil =>
    intro a r h
    simp only [firstSplit] at h
    split at h
    · rename_i hp
      have : pat = [] := List.prefix_nil.mp (List.isPrefixOf_iff_prefix.mp hp)
      cases h
      simp [this]
    · cases h
  | cons c rest ih =>
    intro a r h
    simp only [firstSplit] at h
    split at h
    · rename_i hp
      cases h
      obtain ⟨t, ht⟩ := List.isPrefixOf_iff_prefix.mp hp
      have hdrop : (c :: rest).drop pat.length = t := by
        rw [← ht, List.drop_left]
      rw [hdrop, List.nil_append, ht]
    · cases hfs : firstSplit pat rest with
      | none => rw [hfs] at h; cases h
      | some pr =>
        rw [hfs] at h
        cases h
        have := ih hfs
        simp [this]

theorem firstSplit_minimal {pat : Str} :
    ∀ {s a r : Str}, firstSplit pat s = some (a, r) →
      ∀ a' r', s = a' ++ pat ++ r' → a.length ≤ a'.length := by
  intro s
  induction s with
  | nil =>
    intro a r h a' r' hs
    simp only [firstSplit] at h
    split at h
    · cases h; simp
    · cases h
  | cons c rest ih =>
    intro a r h a' r' hs
    simp only [firstSplit] at h
    split at h
    · cases h; simp
    · rename_i hp
      cases hfs : firstSplit pat rest with
      | none => rw [hfs] at h; cases h
      | some pr =>
        rw [hfs] at h
        cases h
        cases a' with
        | nil =>
          exfalso
          apply hp
          apply List.isPrefixOf_iff_prefix.mpr
          exact ⟨r', by simpa using hs.symm⟩
        | cons c2 a'' =>
          simp only [List.cons_append, List.cons.injEq] at hs
          have := ih hfs a'' r' hs.2
          simpa using Nat.succ_le_succ this

theorem firstSplit_none_iff {pat s : Str} :
    firstSplit pat s = none ↔ ¬ pat <:+: s := by
  constructor
  · intro h hinf
    obtain ⟨u, v, huv⟩ := hinf
    induction s generalizing u with
    | nil =>
      simp only [firstSplit] at h
      split at h
      · cases h
      · rename_i hp
        apply hp
        apply List.isPrefixOf_iff_prefix.mpr
        cases u <;> simp_all
    | cons c rest ih =>
      simp only [firstSplit] at h
      split at h
      · cases h
      · rename_i hp
        cases u with
        | nil =>
          apply hp
          apply List.isPrefixOf_iff_prefix.mpr
          exact ⟨v, by simpa using huv⟩
        | cons c2 u' =>
          cases hfs : firstSplit pat rest with
          | none =>
            simp only [List.cons_append, List.cons.injEq] at huv
            exact ih hfs u' huv.2
          | some pr => rw [hfs] at h; cases h
  · intro hni
    cases hfs : firstSplit pat s with
    | none => rfl
    | some pr =>
      obtain ⟨a, r⟩ := pr
      exact absurd ⟨a, r, (firstSplit_sound hfs).symm⟩ hni

theorem firstSplit_eq_of_min {pat s a r : Str} (hs : s = a ++ pat ++ r)
    (hmin : ∀ a' r', s = a' ++ pat ++ r' → a.length ≤ a'.length) :
    firstSplit pat s = some (a, r) := by
  cases h : firstSplit pat s with
  | none =>
    exact absurd ⟨a, r, hs.symm⟩ (firstSplit_none_iff.mp h)
  | some pr =>
    obtain ⟨a₀, r₀⟩ := pr
    have h1 := firstSplit_sound h
    have h2 := firstSplit_minimal h a r hs
    have h3 := hmin a₀ r₀ h1
    have hlen : a₀.length = a.length := le_antisymm h2 h3
    have heq : a₀ ++ (pat ++ r₀) = a ++ (pat ++ r) := by
      rw [← List.append_assoc, ← List.append_assoc, ← h1, ← hs]
    obtain ⟨ha, hr⟩ := List.append_inj heq hlen
    have hr2 : r₀ = r := by
      have := List.append_inj_right hr rfl
      exact this
    rw [ha, hr2]

theorem firstSplit_infix {pat s a r : Str} (h : firstSplit pat s = some (a, r)) :
    pat <:+: s :=
  ⟨a, r, (firstSplit_sound h).symm⟩

/-- The prefix returned by `firstSplit` contains no occurrence of the pattern. -/
theorem firstSplit_no_occ_in_pre {pat s a r : Str} (hpat0 : pat ≠ [])
    (h : firstSplit pat s = some (a, r)) :
    ¬ pat <:+: a := by
  intro ⟨u, v, huv⟩
  have hs := firstSplit_sound h
  have hdec : s = u ++ pat ++ (v ++ pat ++ r) := by
    rw [hs, ← huv]; simp [List.append_assoc]
  have := firstSplit_minimal h u (v ++ pat ++ r) hdec
  have hlen : a.length = u.length + pat.length + v.length := by
    rw [← huv]; simp [List.length_append]; omega
  have hpat : 0 < pat.length := List.length_pos.mpr hpat0
  omega

/-- The prefix returned by `firstSplit` does not end with the first character
of the pattern when the pattern repeats that character at least twice at its
start... (specialised below for the fence). -/
theorem firstSplit_pre_getLast {c : Char} {s a r : Str}
    (hrep : [c] ++ [c, c, c] = [c, c, c] ++ [c])
    (h : firstSplit [c, c, c] s = some (a, r)) :
    a.getLast? ≠ some c := by
  intro hlast
  obtain ⟨u, hu⟩ : ∃ u, a = u ++ [c] := by
    cases ha : a.getLast? with
    | none => rw [ha] at hlast; cases hlast
    | some d =>
      rw [ha] at hlast
      cases hlast
      exact ⟨a.dropLast, (List.dropLast_append_getLast? _ ha).symm⟩
  have hs := firstSplit_sound h
  have hdec : s = u ++ [c, c, c] ++ ([c] ++ r) := by
    rw [hs, hu]
    simp only [List.append_assoc]
    rw [← List.append_assoc [c] [c,c,c] r, hrep]
    simp [List.append_assoc]
  have := firstSplit_minimal h u ([c] ++ r) hdec
  rw [hu] at this
  simp at this

theorem splitOnF_congr {sep : Str} (hsep : sep ≠ []) :
    ∀ f f' s, s.length < f → s.length < f' → splitOnF sep f s = splitOnF sep f' s := by
  intro f
  induction f with
  | zero => intro f' s h; omega
  | succ f ih =>
    intro f' s hf hf'
    cases f' with
    | zero => omega
    | succ f' =>
      simp only [splitOnF]
      cases hfs : firstSplit sep s with
      | none => rfl
      | some pr =>
        obtain ⟨a, r⟩ := pr
        have hs := firstSplit_sound hfs
        have hr : r.length < s.length := by
          have : 0 < sep.length := List.length_pos.mpr hsep
          rw [hs]; simp [List.length_append]; omega
        simp only []
        rw [ih f' r (by omega) (by omega)]

theorem splitOn_atom {sep s : Str} (h : firstSplit sep s = none) :
    splitOnStr sep s = [s] := by
  simp [splitOnStr, splitOnF, h]

theorem splitOn_step {sep s a r : Str} (hsep : sep ≠ []) (h : firstSplit sep s = some (a, r)) :
    splitOnStr sep s = a :: splitOnStr sep r := by
  have hs := firstSplit_sound h
  have hr : r.length < s.length := by
    have : 0 < sep.length := List.length_pos.mpr hsep
    rw [hs]; simp [List.length_append]; omega
  have h1 : splitOnF sep (s.length + 1) s = a :: splitOnF sep s.length r := by
    simp [splitOnF, h]
  simp only [splitOnStr]
  rw [h1, splitOnF_congr hsep s.length (r.length + 1) r (by omega) (by omega)]

theorem splitOn_ne_nil (sep s : Str) : splitOnStr sep s ≠ [] := by
  simp only [splitOnStr, splitOnF]
  cases firstSplit sep s <;> simp

theorem joinSep_cons {sep p : Str} {ps : List Str} (h : ps ≠ []) :
    joinSep sep (p :: ps) = p ++ sep ++ joinSep sep ps := by
  cases ps with
  | nil => exact absurd rfl h
  | cons q qs => rfl

theorem joinSep_splitOn {sep : Str} (hsep : sep ≠ []) (s : Str) :
    joinSep sep (splitOnStr sep s) = s := by
  suffices h : ∀ n s, s.length ≤ n → joinSep sep (splitOnStr sep s) = s from
    h s.length s le_rfl
  intro n
  induction n with
  | zero =>
    intro s hs
    have : s = [] := List.length_eq_zero.mp (Nat.le_zero.mp hs)
    subst this
    have : firstSplit sep [] = none := by
      simp only [firstSplit]
      rw [if_neg]
      intro hp
      exact hsep (List.prefix_nil.mp (List.isPrefixOf_iff_prefix.mp hp))
    rw [splitOn_atom this]; rfl
  | succ n ih =>
    intro s hs
    cases hfs : firstSplit sep s with
    | none => rw [splitOn_atom hfs]; rfl
    | some pr =>
      obtain ⟨a, r⟩ := pr
      have hdec := firstSplit_sound hfs
      have hr : r.length < s.length := by
        have : 0 < sep.length := List.length_pos.mpr hsep
        rw [hdec]; simp [List.length_append]; omega
      rw [splitOn_step hsep hfs, joinSep_cons (splitOn_ne_nil sep r),
        ih r (by omega), ← hdec]

theorem replaceAllF_congr {pat rep : Str} (hpat : pat ≠ []) :
    ∀ f f' s, s.length < f → s.length < f' → replaceAllF pat rep f s = replaceAllF pat rep f' s := by
  intro f
  induction f with
  | zero => intro f' s h; omega
  | succ f ih =>
    intro f' s hf hf'
    cases f' with
    | zero => omega
    | succ f' =>
      simp only [replaceAllF]
      cases hfs : firstSplit pat s with
      | none => rfl
      | some pr =>
        obtain ⟨a, r⟩ := pr
        have hs := firstSplit_sound hfs
        have hr : r.length < s.length := by
          have : 0 < pat.length := List.length_pos.mpr hpat
          rw [hs]; simp [List.length_append]; omega
        simp only []
        rw [ih f' r (by omega) (by omega)]

theorem replaceAll_atom {pat rep s : Str} (h : firstSplit pat s = none) :
    replaceAll s pat rep = s := by
  simp [replaceAll, replaceAllF, h]

theorem replaceAll_not_occ {pat rep s : Str} (h : ¬ pat <:+: s) :
    replaceAll s pat rep = s :=
  replaceAll_atom (firstSplit_none_iff.mpr h)

theorem replaceAll_step {pat rep s a r : Str} (hpat : pat ≠ [])
    (h : firstSplit pat s = some (a, r)) :
    replaceAll s pat rep = a ++ rep ++ replaceAll r pat rep := by
  have hs := firstSplit_sound h
  have hr : r.length < s.length := by
    have : 0 < pat.length := List.length_pos.mpr hpat
    rw [hs]; simp [List.length_append]; omega
  have h1 : replaceAllF pat rep (s.length + 1) s = a ++ rep ++ replaceAllF pat rep s.length r := by
    simp [replaceAllF, h]
  simp only [replaceAll]
  rw [h1, replaceAllF_congr hpat s.length (r.length + 1) r (by omega) (by omega)]

theorem scanFencesF_congr :
    ∀ f f' s, s.length < f → s.length < f' → scanFencesF f s = scanFencesF f' s := by
  intro f
  induction f with
  | zero => intro f' s h; omega
  | succ f ih =>
    intro f' s hf hf'
    cases f' with
    | zero => omega
    | succ f' =>
      simp only [scanFencesF]
      cases h1 : firstSplit fence s with
      | none => rfl
      | some pr =>
        obtain ⟨a, r⟩ := pr
        cases h2 : firstSplit fence r with
        | none => simp only [h2]
        | some pr2 =>
          obtain ⟨m, r2⟩ := pr2
          have hs := firstSplit_sound h1
          have hr := firstSplit_sound h2
          have hr2 : r2.length < s.length := by
            rw [hs, hr]
            simp [List.length_append, fence]
            omega
          simp only [h2]
          rw [ih f' r2 (by omega) (by omega)]

theorem scanFences_atom1 {s : Str} (h : firstSplit fence s = none) :
    scanFences s = ([], s) := by
  simp [scanFences, scanFencesF, h]

theorem scanFences_atom2 {s a r : Str} (h1 : firstSplit fence s = some (a, r))
    (h2 : firstSplit fence r = none) :
    scanFences s = ([], s) := by
  simp [scanFences, scanFencesF, h1, h2]

theorem scanFences_step {s a m r2 : Str} (h1 : firstSplit fence s = some (a, m ++ fence ++ r2))
    (h2 : firstSplit fence (m ++ fence ++ r2) = some (m, r2)) :
    scanFences s = ((a, fence ++ m ++ fence) :: (scanFences r2).1, (scanFences r2).2) := by
  have hs := firstSplit_sound h1
  have hr2 : r2.length < s.length := by
    rw [hs]
    simp [List.length_append, fence]
    omega
  have h2' : firstSplit fence (m ++ (fence ++ r2)) = some (m, r2) := by
    rw [← List.append_assoc]; exact h2
  have h3 : scanFencesF (s.length + 1) s
      = ((a, fence ++ m ++ fence) :: (scanFencesF s.length r2).1,
          (scanFencesF s.length r2).2) := by
    simp [scanFencesF, h1, h2']
  simp only [scanFences]
  rw [h3, scanFencesF_congr s.length (r2.length + 1) r2 (by omega) (by omega)]

/-- Reassemble a fence decomposition. -/
def segsJoin : List (Str × Str) → Str → Str
  | [], tail => tail
  | pb :: segs, tail => pb.1 ++ pb.2 ++ segsJoin segs tail

theorem scanFences_decomp (s : Str) :
    segsJoin (scanFences s).1 (scanFences s).2 = s := by
  suffices h : ∀ n s, s.length ≤ n → segsJoin (scanFences s).1 (scanFences s).2 = s from
    h s.length s le_rfl
  intro n
  induction n with
  | zero =>
    intro s hs
    have : s = [] := List.length_eq_zero.mp (Nat.le_zero.mp hs)
    subst this
    have h : firstSplit fence ([] : Str) = none := by
      rw [firstSplit_none_iff]
      intro ⟨u, v, huv⟩
      simp [fence] at huv
    rw [scanFences_atom1 h]; rfl
  | succ n ih =>
    intro s hs
    cases h1 : firstSplit fence s with
    | none => rw [scanFences_atom1 h1]; rfl
    | some pr =>
      obtain ⟨a, r⟩ := pr
      cases h2 : firstSplit fence r with
      | none => rw [scanFences_atom2 h1 h2]; rfl
      | some pr2 =>
        obtain ⟨m, r2⟩ := pr2
        have hr := firstSplit_sound h2
        subst hr
        have hs1 := firstSplit_sound h1
        have hr2 : r2.length < s.length := by
          rw [hs1]; simp [List.length_append, fence]; omega
        rw [scanFences_step h1 h2]
        simp only [segsJoin]
        rw [ih r2 (by omega)]
        rw [hs1]
        simp [List.append_assoc]

/-- Structural invariants of the fence scan: each matched block is a
delimited fence pair, no `pre` segment contains the delimiter, and no
non-empty `pre` segment ends with a backtick. -/
theorem scanFences_inv (s : Str) :
    ∀ pb ∈ (scanFences s).1,
      (∃ m, pb.2 = fence ++ m ++ fence) ∧ (¬ fence <:+: pb.1) ∧
        pb.1.getLast? ≠ some '`' := by
  suffices h : ∀ n s, s.length ≤ n → ∀ pb ∈ (scanFences s).1,
      (∃ m, pb.2 = fence ++ m ++ fence) ∧ (¬ fence <:+: pb.1) ∧
        pb.1.getLast? ≠ some '`' from h s.length s le_rfl
  intro n
  induction n with
  | zero =>
    intro s hs pb hpb
    have : s = [] := List.length_eq_zero.mp (Nat.le_zero.mp hs)
    subst this
    have h : firstSplit fence ([] : Str) = none := by
      rw [firstSplit_none_iff]
      intro ⟨u, v, huv⟩
      simp [fence] at huv
    rw [scanFences_atom1 h] at hpb
    simp at hpb
  | succ n ih =>
    intro s hs pb hpb
    cases h1 : firstSplit fence s with
    | none => rw [scanFences_atom1 h1] at hpb; simp at hpb
    | some pr =>
      obtain ⟨a, r⟩ := pr
      cases h2 : firstSplit fence r with
      | none => rw [scanFences_atom2 h1 h2] at hpb; simp at hpb
      | some pr2 =>
        obtain ⟨m, r2⟩ := pr2
        have hr := firstSplit_sound h2
        subst hr
        have hs1 := firstSplit_sound h1
        have hr2 : r2.length < s.length := by
          rw [hs1]; simp [List.length_append, fence]; omega
        rw [scanFences_step h1 h2] at hpb
        simp only [List.mem_cons] at hpb
        cases hpb with
        | inl he =>
          subst he
          refine ⟨⟨m, rfl⟩, firstSplit_no_occ_in_pre (by simp [fence]) h1, ?_⟩
          exact firstSplit_pre_getLast (by simp [fence]) h1
        | inr hmem => exact ih r2 (by omega) pb hmem

/-! ### Stripping and heading-pattern lemmas -/

theorem dropWhile_dropWhile (p : Char → Bool) (l : Str) :
    (l.dropWhile p).dropWhile p = l.dropWhile p := by
  cases h : l.dropWhile p with
  | nil => rfl
  | cons c cs =>
    have hh := List.head?_dropWhile_not p l
    rw [h] at hh
    simp only [List.head?_cons] at hh
    simp [List.dropWhile_cons, hh]

theorem dropWhile_head_false {p : Char → Bool} {l : Str} {c : Char} {cs : Str}
    (h : l.dropWhile p = c :: cs) : p c = false := by
  have hh := List.head?_dropWhile_not p l
  rw [h] at hh
  simpa using hh

theorem pyStrip_eq_nil_iff {s : Str} : pyStrip s = [] ↔ s.dropWhile isPySpace = [] := by
  constructor
  · intro h
    by_contra hne
    cases hu : s.dropWhile isPySpace with
    | nil => exact hne hu
    | cons c cs =>
      have hc : isPySpace c = false := dropWhile_head_false hu
      simp only [pyStrip, hu] at h
      have : ∀ d ∈ (c :: cs).reverse, isPySpace d = true := by
        have h2 : (c :: cs).reverse.dropWhile isPySpace = [] := by
          have := congrArg List.reverse h
          simpa using this
        intro d hd
        exact List.dropWhile_eq_nil_iff.mp h2 d hd
      have := this c (by simp)
      rw [hc] at this
      cases this
  · intro h
    simp [pyStrip, h]

theorem pyStrip_getLast_not_space (s : Str) :
    (pyStrip s).getLast?.any isPySpace = false := by
  simp only [pyStrip]
  rw [List.getLast?_reverse]
  have hh := List.head?_dropWhile_not isPySpace (s.dropWhile isPySpace).reverse
  cases h : ((s.dropWhile isPySpace).reverse.dropWhile isPySpace).head? with
  | none => simp [Option.any]
  | some c =>
    rw [h] at hh
    simp only at hh
    simp [Option.any, hh]

theorem pyStrip_dropWhile (s : Str) : pyStrip (s.dropWhile isPySpace) = pyStrip s := by
  simp [pyStrip, dropWhile_dropWhile]

theorem takeWhile_eq_replicate_hash (t : Str) :
    t.takeWhile (· == '#') = List.replicate (t.takeWhile (· == '#')).length '#' := by
  rw [List.eq_replicate]
  exact ⟨rfl, fun b hb => by simpa using List.mem_takeWhile_imp hb⟩

theorem take_run_eq (t : Str) :
    t.take (t.takeWhile (· == '#')).length = t.takeWhile (· == '#') :=
  (List.prefix_iff_eq_take.mp (List.takeWhile_prefix _)).symm

theorem prefix_all_le_takeWhile {p : Char → Bool} :
    ∀ (l₁ l : Str), l₁ <+: l → (∀ c ∈ l₁, p c = true) → l₁.length ≤ (l.takeWhile p).length := by
  intro l₁
  induction l₁ with
  | nil => intro l _ _; simp
  | cons c cs ih =>
    intro l hpre hall
    obtain ⟨t, ht⟩ := hpre
    cases l with
    | nil => simp at ht
    | cons d ds =>
      have hcd : c = d := by
        have := congrArg List.head? ht
        simpa using this
      have hds : cs <+: ds := by
        refine ⟨t, ?_⟩
        have := congrArg List.tail ht
        simpa using this
      have hpc : p d = true := hcd ▸ hall c (by simp)
      rw [List.takeWhile_cons, if_pos hpc]
      have := ih ds hds (fun x hx => hall x (by simp [hx]))
      simpa using Nat.succ_le_succ this

theorem take_eq_replicate_iff {t : Str} {k : Nat} :
    t.take k = List.replicate k '#' ↔ k ≤ (t.takeWhile (· == '#')).length := by
  constructor
  · intro h
    have hk : k ≤ t.length := by
      have := congrArg List.length h
      simp at this
      omega
    have hpre : List.replicate k '#' <+: t := h ▸ List.take_prefix k t
    have := prefix_all_le_takeWhile (p := (· == '#')) (List.replicate k '#') t hpre
      (fun c hc => by rw [List.eq_of_mem_replicate hc]; rfl)
    simpa using this
  · intro h
    have : t.take k = (t.take (t.takeWhile (· == '#')).length).take k := by
      rw [List.take_take, Nat.min_eq_left h]
    rw [this, take_run_eq, takeWhile_eq_replicate_hash, List.take_replicate,
      Nat.min_eq_left h]

theorem get?_in_run {t : Str} {k : Nat} (hk : k < (t.takeWhile (· == '#')).length) :
    t[k]? = some '#' := by
  have h1 : (t.take (t.takeWhile (· == '#')).length)[k]? = t[k]? := by
    rw [List.getElem?_take, if_pos hk]
  rw [← h1, take_run_eq, takeWhile_eq_replicate_hash, List.getElem?_replicate, if_pos hk]

theorem drop_takeWhile_length (p : Char → Bool) (l : Str) :
    l.drop (l.takeWhile p).length = l.dropWhile p := by
  calc l.drop (l.takeWhile p).length
      = (l.takeWhile p ++ l.dropWhile p).drop (l.takeWhile p).length := by
        rw [List.takeWhile_append_dropWhile]
    _ = l.dropWhile p := List.drop_left _ _

/-- The spec's heading-line test: a trimmed line is a heading iff it consists
of 1–6 `#` characters followed by at least one whitespace character and
non-empty title text; the level is the count of `#` characters and the title
is the trimmed remainder. -/
def specATX (t : Str) : Option (Nat × Str) :=
  (List.range 6).findSome? (fun k =>
    let lvl := k + 1
    let rest := t.drop lvl
    if t.take lvl = List.replicate lvl '#' ∧ rest.head?.any isPySpace = true ∧
        pyStrip rest ≠ []
    then some (lvl, pyStrip rest) else none)

theorem findSome?_range_eq_some {β : Type} {f : Nat → Option β} {b : β} {k : Nat} :
    ∀ {n : Nat}, k < n → f k = some b → (∀ j, j < k → f j = none) →
      (List.range n).findSome? f = some b := by
  intro n
  induction n with
  | zero => intro h; omega
  | succ n ih =>
    intro hk hfk hnone
    rw [List.range_succ, List.findSome?_append]
    rcases Nat.lt_or_ge k n with h | h
    · rw [ih h hfk hnone]; rfl
    · have hkn : k = n := by omega
      subst hkn
      have hn : (List.range k).findSome? f = none := by
        rw [List.findSome?_eq_none]
        intro x hx
        exact hnone x (List.mem_range.mp hx)
      rw [hn]
      simp [List.findSome?, hfk]

theorem matchATX_spec {t : Str} (ht : t.getLast?.any isPySpace = false) :
    (if t.isEmpty then none else matchATX t) = specATX t := by
  by_cases hcond : 1 ≤ (t.takeWhile (· == '#')).length ∧
      (t.takeWhile (· == '#')).length ≤ 6 ∧
      ((t.drop (t.takeWhile (· == '#')).length).head?.any isPySpace = true) ∧
      pyStrip (t.drop (t.takeWhile (· == '#')).length) ≠ []
  · obtain ⟨h1, h6, hws, hne⟩ := hcond
    have htne : t ≠ [] := by
      intro h
      subst h
      simp at h1
    obtain ⟨c, hc⟩ : ∃ c, (t.drop (t.takeWhile (· == '#')).length).head? = some c := by
      cases h : (t.drop (t.takeWhile (· == '#')).length).head? with
      | none => rw [h] at hws; simp [Option.any] at hws
      | some c => exact ⟨c, rfl⟩
    have hcws : isPySpace c = true := by
      rw [hc] at hws; simpa [Option.any] using hws
    obtain ⟨rest', hrest⟩ : ∃ rest',
        t.drop (t.takeWhile (· == '#')).length = c :: rest' := by
      cases h : t.drop (t.takeWhile (· == '#')).length with
      | nil => rw [h] at hc; simp at hc
      | cons d ds =>
        rw [h] at hc
        simp at hc
        exact ⟨ds, by rw [hc]⟩
    have hrun_ne : (t.drop (t.takeWhile (· == '#')).length).takeWhile isPySpace ≠ [] := by
      rw [hrest, List.takeWhile_cons, if_pos hcws]
      simp
    have hdw_ne : (t.drop (t.takeWhile (· == '#')).length).dropWhile isPySpace ≠ [] := by
      intro h
      exact hne (pyStrip_eq_nil_iff.mpr h)
    have hlhs : matchATX t = some ((t.takeWhile (· == '#')).length,
        pyStrip (t.drop (t.takeWhile (· == '#')).length)) := by
      simp only [matchATX]
      rw [if_pos ⟨h1, h6⟩]
      rw [if_neg (by simpa [List.isEmpty_iff] using hrun_ne)]
      rw [drop_takeWhile_length]
      rw [if_neg (by simpa [List.isEmpty_iff] using hdw_ne)]
      rw [pyStrip_dropWhile]
    have hrhs : specATX t = some ((t.takeWhile (· == '#')).length,
        pyStrip (t.drop (t.takeWhile (· == '#')).length)) := by
      simp only [specATX]
      apply findSome?_range_eq_some (k := (t.takeWhile (· == '#')).length - 1)
      · omega
      · have hklvl : (t.takeWhile (· == '#')).length - 1 + 1
            = (t.takeWhile (· == '#')).length := by omega
        simp only [hklvl]
        rw [if_pos]
        exact ⟨take_eq_replicate_iff.mpr le_rfl, hws, hne⟩
      · intro j hj
        rw [if_neg]
        intro ⟨hrep, hws', _⟩
        have hlt : j + 1 < (t.takeWhile (· == '#')).length := by omega
        rw [List.head?_drop, get?_in_run hlt] at hws'
        simp [Option.any, isPySpace] at hws'
    rw [hlhs, hrhs, if_neg (by simpa [List.isEmpty_iff] using htne)]
  · have hrhs : specATX t = none := by
      simp only [specATX]
      rw [List.findSome?_eq_none]
      intro k hk
      rw [if_neg]
      intro ⟨hrep, hws, hne⟩
      have hk6 : k < 6 := List.mem_range.mp hk
      have hle : k + 1 ≤ (t.takeWhile (· == '#')).length := take_eq_replicate_iff.mp hrep
      rcases Nat.lt_or_ge (k + 1) (t.takeWhile (· == '#')).length with hlt | hge
      · rw [List.head?_drop, get?_in_run hlt] at hws
        simp [Option.any, isPySpace] at hws
      · have heq : k + 1 = (t.takeWhile (· == '#')).length := by omega
        exact hcond ⟨by omega, by omega, heq ▸ hws, heq ▸ hne⟩
    rw [hrhs]
    by_cases hte : t.isEmpty
    · rw [if_pos hte]
    · rw [if_neg hte]
      simp only [matchATX]
      by_cases h16 : 1 ≤ (t.takeWhile (· == '#')).length ∧ (t.takeWhile (· == '#')).length ≤ 6
      · rw [if_pos h16]
        by_cases hrun : ((t.drop (t.takeWhile (· == '#')).length).takeWhile isPySpace).isEmpty
        · rw [if_pos hrun]
        · rw [if_neg hrun]
          -- head is whitespace, so (since `hcond` failed) the title is empty:
          -- the remainder is all whitespace, contradicting that `t` is stripped
          exfalso
          have hws : (t.drop (t.takeWhile (· == '#')).length).head?.any isPySpace = true := by
            cases hd : t.drop (t.takeWhile (· == '#')).length with
            | nil => rw [hd] at hrun; simp at hrun
            | cons c cs =>
              rw [hd] at hrun
              rw [List.takeWhile_cons] at hrun
              by_cases hpc : isPySpace c
              · simp [hd, Option.any, hpc]
              · rw [if_neg hpc] at hrun; simp at hrun
          have hnil : pyStrip (t.drop (t.takeWhile (· == '#')).length) = [] := by
            by_contra hne
            exact hcond ⟨h16.1, h16.2, hws, hne⟩
          have hall : ∀ d ∈ t.drop (t.takeWhile (· == '#')).length, isPySpace d = true :=
            List.dropWhile_eq_nil_iff.mp (pyStrip_eq_nil_iff.mp hnil)
          obtain ⟨c, hc⟩ : ∃ c, (t.drop (t.takeWhile (· == '#')).length).head? = some c := by
            cases hd : t.drop (t.takeWhile (· == '#')).length with
            | nil => rw [hd] at hrun; simp at hrun
            | cons c cs => exact ⟨c, by simp [hd]⟩
          have hdropne : t.drop (t.takeWhile (· == '#')).length ≠ [] := by
            intro h; rw [h] at hc; simp at hc
          have hlast : t.getLast? = (t.drop (t.takeWhile (· == '#')).length).getLast? := by
            conv_lhs => rw [← List.take_append_drop (t.takeWhile (· == '#')).length t]
            rw [List.getLast?_append]
            cases hgl : (t.drop (t.takeWhile (· == '#')).length).getLast? with
            | none => exact absurd (List.getLast?_eq_none_iff.mp hgl) hdropne
            | some d => rfl
          have hlast2 : ∃ d, t.getLast? = some d ∧ d ∈ t.drop (t.takeWhile (· == '#')).length := by
            rw [hlast]
            cases hgl : (t.drop (t.takeWhile (· == '#')).length).getLast? with
            | none => exact absurd (List.getLast?_eq_none_iff.mp hgl) hdropne
            | some d =>
              refine ⟨d, rfl, ?_⟩
              rw [List.getLast?_eq_getLast _ hdropne] at hgl
              have hmem := List.getLast_mem hdropne
              have hde : (t.drop (t.takeWhile (· == '#')).length).getLast hdropne = d := by
                exact Option.some_injective _ hgl
              rw [hde] at hmem
              exact hmem
          obtain ⟨d, hd1, hd2⟩ := hlast2
          rw [hd1] at ht
          have := hall d hd2
          simp [Option.any, this] at ht
      · rw [if_neg h16]

theorem foldl_opt_filterMap {α β : Type} (f : α → Option β) :
    ∀ (l : List α) (init : List β),
      l.foldl (fun acc x => match f x with | some y => acc ++ [y] | none => acc) init
        = init ++ l.filterMap f := by
  intro l
  induction l with
  | nil => intro init; simp
  | cons a l ih =>
    intro init
    simp only [List.foldl_cons, List.filterMap_cons]
    cases h : f a with
    | none => exact ih init
    | some b => rw [ih]; simp

/-- C6: `parse_headings` returns, in document order, exactly the
`(line_index, level, title)` triples of the lines whose trimmed form is a
1–6 `#` run followed by whitespace and non-empty title text, with the level
the `#` count and the title the trimmed remainder (blank lines can never
match, and the function is total, so it never raises and returns `[]` for
heading-less text). -/
theorem parse_headings_correct (text : Str) :
    parse_headings text =
      (splitLines text).enum.filterMap
        (fun il => (specATX (pyStrip il.2)).map (fun lt => (il.1, lt.1, lt.2))) := by
  have h2 : (splitLines text).enum.filterMap
      (fun il => (specATX (pyStrip il.2)).map (fun lt => (il.1, lt.1, lt.2)))
      = (splitLines text).enum.filterMap
        (fun il => ((if (pyStrip il.2).isEmpty then none else matchATX (pyStrip il.2)).map
          (fun lt => (il.1, lt.1, lt.2)))) := by
    apply List.filterMap_congr
    intro il _
    rw [matchATX_spec (pyStrip_getLast_not_space il.2)]
  rw [h2, ← List.nil_append (List.filterMap _ (splitLines text).enum), ← foldl_opt_filterMap]
  unfold parse_headings
  apply List.foldl_ext
  intro acc il _
  by_cases hb : (pyStrip il.2).isEmpty
  · rw [if_pos hb]
    simp [hb]
  · rw [if_neg hb]
    simp only [if_neg hb]
    cases matchATX (pyStrip il.2) <;> simp

/-! ### The section span (C5) -/

theorem find?_eq_some_spec {α : Type} {p : α → Bool} :
    ∀ {l : List α} {x : α}, l.find? p = some x →
      ∃ k : Nat, l[k]? = some x ∧ p x = true ∧
        ∀ j : Nat, j < k → ∃ y, l[j]? = some y ∧ p y = false := by
  intro l
  induction l with
  | nil => intro x h; simp at h
  | cons a l ih =>
    intro x h
    rw [List.find?_cons] at h
    cases hpa : p a with
    | true =>
      rw [hpa] at h
      simp only at h
      cases h
      exact ⟨0, by simp, hpa, fun j hj => by omega⟩
    | false =>
      rw [hpa] at h
      simp only at h
      obtain ⟨k, h1, h2, h3⟩ := ih h
      refine ⟨k + 1, by simpa using h1, h2, ?_⟩
      intro j hj
      cases j with
      | zero => exact ⟨a, by simp, hpa⟩
      | succ j' =>
        obtain ⟨y, hy1, hy2⟩ := h3 j' (by omega)
        exact ⟨y, by simpa using hy1, hy2⟩

/-- C5: for each heading `i` at `(start_line, level, title)`, the computed
`end_line` is exactly the start line of the next heading after `i` (in list
order) whose level is `<= level`, or the number of lines when no such heading
exists; consequently, under the document-order hypotheses, every
descendant's section span is contained in its ancestor's span. -/
theorem section_span_correct (headings : List Heading) (lines : List Str)
    (hsorted0 : headings.Pairwise (fun h1 h2 => h1.1 < h2.1))
    (hbound : ∀ h ∈ headings, h.1 ≤ lines.length)
    (i : Nat) (hi : i < headings.length) :
    ((∃ j, i < j ∧ j < headings.length ∧
        (headings.getD j default).2.1 ≤ (headings.getD i default).2.1 ∧
        sectionEnd headings i (headings.getD i default).2.1 lines.length
          = (headings.getD j default).1 ∧
        (∀ j', i < j' → j' < j →
          (headings.getD i default).2.1 < (headings.getD j' default).2.1))
      ∨ ((∀ j, i < j → j < headings.length →
            (headings.getD i default).2.1 < (headings.getD j default).2.1) ∧
          sectionEnd headings i (headings.getD i default).2.1 lines.length = lines.length))
    ∧ (∀ j, i < j → j < headings.length →
        (∀ m, i < m → m ≤ j →
          (headings.getD i default).2.1 < (headings.getD m default).2.1) →
        (headings.getD i default).1 ≤ (headings.getD j default).1 ∧
          sectionEnd headings j (headings.getD j default).2.1 lines.length ≤
            sectionEnd headings i (headings.getD i default).2.1 lines.length) := by
  have hsorted : ∀ a b, a < b → b < headings.length →
      (headings.getD a default).1 < (headings.getD b default).1 := by
    intro a b hab hbl
    have hal : a < headings.length := by omega
    have := List.pairwise_iff_getElem.mp hsorted0 a b hal hbl hab
    rw [List.getD_eq_getElem?_getD, List.getD_eq_getElem?_getD,
      List.getElem?_eq_getElem hal, List.getElem?_eq_getElem hbl]
    simpa using this
  have hchar : ∀ i0, i0 < headings.length →
      ((∃ j, i0 < j ∧ j < headings.length ∧
        (headings.getD j default).2.1 ≤ (headings.getD i0 default).2.1 ∧
        sectionEnd headings i0 (headings.getD i0 default).2.1 lines.length
          = (headings.getD j default).1 ∧
        (∀ j', i0 < j' → j' < j →
          (headings.getD i0 default).2.1 < (headings.getD j' default).2.1))
      ∨ ((∀ j, i0 < j → j < headings.length →
            (headings.getD i0 default).2.1 < (headings.getD j default).2.1) ∧
          sectionEnd headings i0 (headings.getD i0 default).2.1 lines.length
            = lines.length)) := by
    intro i0 _
    unfold sectionEnd
    cases hf : (headings.drop (i0 + 1)).find? (fun h => h.2.1 ≤ (headings.getD i0 default).2.1) with
    | none =>
      right
      refine ⟨?_, rfl⟩
      intro j hij hjl
      have hmem : headings.getD j default ∈ headings.drop (i0 + 1) := by
        have h1 : (headings.drop (i0 + 1))[j - (i0 + 1)]? = headings[j]? := by
          rw [List.getElem?_drop]
          congr 1
          omega
        rw [List.getElem?_eq_getElem hjl] at h1
        obtain ⟨hlt, heq⟩ := List.getElem?_eq_some.mp h1
        rw [List.getD_eq_getElem?_getD, List.getElem?_eq_getElem hjl]
        simp only [Option.getD_some]
        exact heq ▸ List.getElem_mem hlt
      have := List.find?_eq_none.mp hf _ hmem
      simpa using this
    | some x =>
      left
      obtain ⟨k, h1, h2, h3⟩ := find?_eq_some_spec hf
      rw [List.getElem?_drop] at h1
      have hjl : i0 + 1 + k < headings.length := by
        obtain ⟨hlt, _⟩ := List.getElem?_eq_some.mp h1
        exact hlt
      refine ⟨i0 + 1 + k, by omega, hjl, ?_, ?_, ?_⟩
      · have : headings.getD (i0 + 1 + k) default = x := by
          rw [List.getD_eq_getElem?_getD, h1]; rfl
        rw [this]
        simpa using h2
      · have : headings.getD (i0 + 1 + k) default = x := by
          rw [List.getD_eq_getElem?_getD, h1]; rfl
        rw [this]
      · intro j' hij' hj'
        obtain ⟨y, hy1, hy2⟩ := h3 (j' - (i0 + 1)) (by omega)
        rw [List.getElem?_drop] at hy1
        have hidx : i0 + 1 + (j' - (i0 + 1)) = j' := by omega
        rw [hidx] at hy1
        have : headings.getD j' default = y := by
          rw [List.getD_eq_getElem?_getD, hy1]; rfl
        rw [this]
        simpa using hy2
  refine ⟨hchar i hi, ?_⟩
  intro j hij hjl hdesc
  have hlvl : (headings.getD i default).2.1 < (headings.getD j default).2.1 :=
    hdesc j hij le_rfl
  constructor
  · exact le_of_lt (hsorted i j hij hjl)
  · rcases hchar i hi with ⟨ki, hki1, hki2, hki3, hki4, hki5⟩ | ⟨hnone, hei⟩
    · -- heading `i` has a stopper `ki`; it lies beyond `j` and also stops `j`
      have hkij : j < ki := by
        by_contra hle
        have : (headings.getD i default).2.1 < (headings.getD ki default).2.1 :=
          hdesc ki hki1 (by omega)
        omega
      rcases hchar j hjl with ⟨kj, hkj1, hkj2, hkj3, hkj4, hkj5⟩ | ⟨hnone2, _⟩
      · have hkjki : kj ≤ ki := by
          by_contra hgt
          have := hkj5 ki (by omega) (by omega)
          omega
        rw [hki4, hkj4]
        rcases Nat.lt_or_ge kj ki with hlt | hge
        · exact le_of_lt (hsorted kj ki hlt hki2)
        · have : kj = ki := by omega
          rw [this]
      · exfalso
        have := hnone2 ki (by omega) hki2
        omega
    · rw [hei]
      rcases hchar j hjl with ⟨kj, hkj1, hkj2, hkj3, hkj4, hkj5⟩ | ⟨_, hej⟩
      · rw [hkj4]
        apply hbound
        rw [List.getD_eq_getElem?_getD, List.getElem?_eq_getElem hkj2]
        simp only [Option.getD_some]
        exact List.getElem_mem hkj2
      · rw [hej]

/-- Witness for C5 at a concrete document. -/
theorem section_span_correct_witness :
    ([((0:Nat), (1:Nat), "A".data), (2, 2, "B".data), (4, 1, "C".data)].Pairwise
        (fun h1 h2 : Heading => h1.1 < h2.1)) ∧
    (∀ h ∈ [((0:Nat), (1:Nat), "A".data), (2, 2, "B".data), (4, 1, "C".data)],
        h.1 ≤ (splitLines "# A\nx\n## B\ny\n# C\nz".data).length) ∧
    (0 < [((0:Nat), (1:Nat), "A".data), (2, 2, "B".data), (4, 1, "C".data)].length) ∧
    (((∃ j, 0 < j ∧
        j < [((0:Nat), (1:Nat), "A".data), (2, 2, "B".data), (4, 1, "C".data)].length ∧
        ([((0:Nat), (1:Nat), "A".data), (2, 2, "B".data), (4, 1, "C".data)].getD j default).2.1
          ≤ ([((0:Nat), (1:Nat), "A".data), (2, 2, "B".data), (4, 1, "C".data)].getD 0 default).2.1 ∧
        sectionEnd [((0:Nat), (1:Nat), "A".data), (2, 2, "B".data), (4, 1, "C".data)] 0
            ([((0:Nat), (1:Nat), "A".data), (2, 2, "B".data), (4, 1, "C".data)].getD 0 default).2.1
            (splitLines "# A\nx\n## B\ny\n# C\nz".data).length
          = ([((0:Nat), (1:Nat), "A".data), (2, 2, "B".data), (4, 1, "C".data)].getD j default).1 ∧
        (∀ j', 0 < j' → j' < j →
          ([((0:Nat), (1:Nat), "A".data), (2, 2, "B".data), (4, 1, "C".data)].getD 0 default).2.1
            < ([((0:Nat), (1:Nat), "A".data), (2, 2, "B".data), (4, 1, "C".data)].getD j' default).2.1))
      ∨ ((∀ j, 0 < j →
            j < [((0:Nat), (1:Nat), "A".data), (2, 2, "B".data), (4, 1, "C".data)].length →
            ([((0:Nat), (1:Nat), "A".data), (2, 2, "B".data), (4, 1, "C".data)].getD 0 default).2.1
              < ([((0:Nat), (1:Nat), "A".data), (2, 2, "B".data), (4, 1, "C".data)].getD j default).2.1) ∧
          sectionEnd [((0:Nat), (1:Nat), "A".data), (2, 2, "B".data), (4, 1, "C".data)] 0
              ([((0:Nat), (1:Nat), "A".data), (2, 2, "B".data), (4, 1, "C".data)].getD 0 default).2.1
              (splitLines "# A\nx\n## B\ny\n# C\nz".data).length
            = (splitLines "# A\nx\n## B\ny\n# C\nz".data).length))
    ∧ (∀ j, 0 < j →
        j < [((0:Nat), (1:Nat), "A".data), (2, 2, "B".data), (4, 1, "C".data)].length →
        (∀ m, 0 < m → m ≤ j →
          ([((0:Nat), (1:Nat), "A".data), (2, 2, "B".data), (4, 1, "C".data)].getD 0 default).2.1
            < ([((0:Nat), (1:Nat), "A".data), (2, 2, "B".data), (4, 1, "C".data)].getD m default).2.1) →
        ([((0:Nat), (1:Nat), "A".data), (2, 2, "B".data), (4, 1, "C".data)].getD 0 default).1
            ≤ ([((0:Nat), (1:Nat), "A".data), (2, 2, "B".data), (4, 1, "C".data)].getD j default).1 ∧
          sectionEnd [((0:Nat), (1:Nat), "A".data), (2, 2, "B".data), (4, 1, "C".data)] j
              ([((0:Nat), (1:Nat), "A".data), (2, 2, "B".data), (4, 1, "C".data)].getD j default).2.1
              (splitLines "# A\nx\n## B\ny\n# C\nz".data).length
            ≤ sectionEnd [((0:Nat), (1:Nat), "A".data), (2, 2, "B".data), (4, 1, "C".data)] 0
              ([((0:Nat), (1:Nat), "A".data), (2, 2, "B".data), (4, 1, "C".data)].getD 0 default).2.1
              (splitLines "# A\nx\n## B\ny\n# C\nz".data).length)) := by
  refine ⟨by decide, by decide, by decide, ?_⟩
  exact section_span_correct
    [((0:Nat), (1:Nat), "A".data), (2, 2, "B".data), (4, 1, "C".data)]
    (splitLines "# A\nx\n## B\ny\n# C\nz".data)
    (by decide) (by decide) 0 (by decide)

/-! ### Prefix independence of the heading splitter (C10) -/

/-- C10: when every heading starts at line `k` or later (in particular when
the first heading of an in-order heading list lies at line `k > 0`), the
chunks produced by `_split_by_headings` do not depend on the content of the
lines before `k`: the splitter starts every section at a heading line and
never emits the document prefix. -/
theorem split_by_headings_ignores_prefix (cfg : Cfg) (t1 t2 : Str) (hs : List Heading)
    (k : Nat) (_hk : 0 < k)
    (hfirst : ∀ h ∈ hs, k ≤ h.1)
    (hlen : (splitLines t1).length = (splitLines t2).length)
    (hagree : (splitLines t1).drop k = (splitLines t2).drop k) :
    split_by_headings cfg t1 hs = split_by_headings cfg t2 hs := by
  have hsect : ∀ (i : Nat) (h : Heading), h ∈ hs →
      sectionText (splitLines t1) h.1 (sectionEnd hs i h.2.1 (splitLines t1).length)
        = sectionText (splitLines t2) h.1 (sectionEnd hs i h.2.1 (splitLines t2).length) := by
    intro i h hmem
    rw [← hlen]
    unfold sectionText
    have hge := hfirst h hmem
    have hdropeq : (splitLines t1).drop h.1 = (splitLines t2).drop h.1 := by
      have h1 : (splitLines t1).drop h.1 = ((splitLines t1).drop k).drop (h.1 - k) := by
        rw [List.drop_drop]
        congr 1
        omega
      have h2 : (splitLines t2).drop h.1 = ((splitLines t2).drop k).drop (h.1 - k) := by
        rw [List.drop_drop]
        congr 1
        omega
      rw [h1, h2, hagree]
    rw [hdropeq]
  simp only [split_by_headings]
  have hfold : hs.enum.foldl
      (fun (st : List Candidate × List Str × Nat) ih =>
        let sect := sectionText (splitLines t1) ih.2.1
          (sectionEnd hs ih.1 ih.2.2.1 (splitLines t1).length)
        let size := sect.length
        if (size : Int) ≤ cfg.chunk_size then
          if (st.2.2 : Int) + size ≤ cfg.chunk_size then
            (st.1, st.2.1 ++ [sect], st.2.2 + size)
          else
            ((if st.2.1 ≠ [] then st.1 ++ [mkCand st.2.1] else st.1), [sect], size)
        else
          ((if st.2.1 ≠ [] then st.1 ++ [mkCand st.2.1] else st.1) ++
            split_by_paragraph cfg sect, [], 0))
      ([], [], 0)
    = hs.enum.foldl
      (fun (st : List Candidate × List Str × Nat) ih =>
        let sect := sectionText (splitLines t2) ih.2.1
          (sectionEnd hs ih.1 ih.2.2.1 (splitLines t2).length)
        let size := sect.length
        if (size : Int) ≤ cfg.chunk_size then
          if (st.2.2 : Int) + size ≤ cfg.chunk_size then
            (st.1, st.2.1 ++ [sect], st.2.2 + size)
          else
            ((if st.2.1 ≠ [] then st.1 ++ [mkCand st.2.1] else st.1), [sect], size)
        else
          ((if st.2.1 ≠ [] then st.1 ++ [mkCand st.2.1] else st.1) ++
            split_by_paragraph cfg sect, [], 0))
      ([], [], 0) := by
    apply List.foldl_ext
    intro st ih hmem
    have hm2 : ih.2 ∈ hs := by
      obtain ⟨i, h⟩ := ih
      have := List.mem_enum hmem
      rw [this.2]
      exact List.getElem_mem this.1
    have := hsect ih.1 ih.2 hm2
    simp only [this]
  rw [hfold]

/-- Witness for C10: replacing the pre-heading prefix line leaves the
splitter's output unchanged. -/
theorem split_by_headings_ignores_prefix_witness :
    (0 < 1) ∧ (∀ h ∈ [((1:Nat), (1:Nat), "A".data)], 1 ≤ h.1) ∧
    ((splitLines "intro\n# A\nbody".data).length
      = (splitLines "XXXXX\n# A\nbody".data).length) ∧
    ((splitLines "intro\n# A\nbody".data).drop 1
      = (splitLines "XXXXX\n# A\nbody".data).drop 1) ∧
    split_by_headings ⟨1000, 0⟩ "intro\n# A\nbody".data [(1, 1, "A".data)]
      = split_by_headings ⟨1000, 0⟩ "XXXXX\n# A\nbody".data [(1, 1, "A".data)] := by
  refine ⟨by decide, by decide, by decide, by decide, ?_⟩
  exact split_by_headings_ignores_prefix ⟨1000, 0⟩ _ _ _ 1 (by decide) (by decide)
    (by decide) (by decide)

/-! ### The short-chunk merge pass (C7) -/

/-- The spec's description of `merge_short_chunks`: one left-to-right greedy
pass; the accumulator starts at the first candidate; each subsequent
candidate whose content length plus the accumulator's fits `chunk_size` is
concatenated into the accumulator joined by a blank line (the accumulator's
`heading_info` — the first chunk's heading in the merged run — retained);
otherwise the accumulator is flushed and the candidate starts a new one. -/
def merge_spec (cfg : Cfg) : Candidate → List Candidate → List Candidate
  | acc, [] => [acc]
  | acc, nxt :: rest =>
    if (acc.content.length : Int) + nxt.content.length ≤ cfg.chunk_size then
      merge_spec cfg ⟨acc.content ++ sepPP ++ nxt.content, acc.heading_info⟩ rest
    else acc :: merge_spec cfg nxt rest

theorem merge_fold (cfg : Cfg) :
    ∀ (rest : List Candidate) (acc : Candidate) (out : List Candidate),
      (rest.foldl
        (fun (st : List Candidate × Candidate) nxt =>
          if (st.2.content.length : Int) + nxt.content.length ≤ cfg.chunk_size then
            (st.1, ⟨st.2.content ++ sepPP ++ nxt.content, st.2.heading_info⟩)
          else (st.1 ++ [st.2], nxt))
        (out, acc)).1 ++
      [(rest.foldl
        (fun (st : List Candidate × Candidate) nxt =>
          if (st.2.content.length : Int) + nxt.content.length ≤ cfg.chunk_size then
            (st.1, ⟨st.2.content ++ sepPP ++ nxt.content, st.2.heading_info⟩)
          else (st.1 ++ [st.2], nxt))
        (out, acc)).2] = out ++ merge_spec cfg acc rest := by
  intro rest
  induction rest with
  | nil => intro acc out; simp [merge_spec]
  | cons nxt rest ih =>
    intro acc out
    simp only [List.foldl_cons, merge_spec]
    by_cases hc : (acc.content.length : Int) + nxt.content.length ≤ cfg.chunk_size
    · simp only [if_pos hc]
      exact ih _ out
    · simp only [if_neg hc]
      rw [ih nxt (out ++ [acc])]
      simp

theorem merge_spec_length (cfg : Cfg) :
    ∀ (rest : List Candidate) (acc : Candidate),
      (merge_spec cfg acc rest).length ≤ rest.length + 1 := by
  intro rest
  induction rest with
  | nil => intro acc; simp [merge_spec]
  | cons nxt rest ih =>
    intro acc
    simp only [merge_spec]
    by_cases hc : (acc.content.length : Int) + nxt.content.length ≤ cfg.chunk_size
    · rw [if_pos hc]
      have := ih ⟨acc.content ++ sepPP ++ nxt.content, acc.heading_info⟩
      simp only [List.length_cons]
      omega
    · rw [if_neg hc]
      have := ih nxt
      simp only [List.length_cons]
      omega

/-- C7: `merge_short_chunks` performs exactly the spec's single greedy
left-to-right pass starting from the first candidate, and never returns more
chunks than it was given (order is preserved since the output is the greedy
pass itself). -/
theorem merge_short_chunks_correct (cfg : Cfg) (cs : List Candidate) (hne : cs ≠ []) :
    merge_short_chunks cfg cs = merge_spec cfg (cs.headD default) cs.tail ∧
      (merge_short_chunks cfg cs).length ≤ cs.length := by
  cases cs with
  | nil => exact absurd rfl hne
  | cons c0 rest =>
    have h1 := merge_fold cfg rest c0 []
    rw [List.nil_append] at h1
    constructor
    · simpa [merge_short_chunks] using h1
    · have h2 : merge_short_chunks cfg (c0 :: rest) = merge_spec cfg c0 rest := by
        simpa [merge_short_chunks] using h1
      rw [h2]
      have := merge_spec_length cfg rest c0
      simpa using this

/-- Witness for C7 at a concrete candidate list. -/
theorem merge_short_chunks_correct_witness :
    (([⟨"aa".data, none⟩, ⟨"bb".data, none⟩, ⟨"ccccccccccc".data, none⟩]
        : List Candidate) ≠ []) ∧
    (merge_short_chunks ⟨10, 0⟩
        [⟨"aa".data, none⟩, ⟨"bb".data, none⟩, ⟨"ccccccccccc".data, none⟩]
      = merge_spec ⟨10, 0⟩
        (([⟨"aa".data, none⟩, ⟨"bb".data, none⟩, ⟨"ccccccccccc".data, none⟩]
          : List Candidate).headD default)
        ([⟨"aa".data, none⟩, ⟨"bb".data, none⟩, ⟨"ccccccccccc".data, none⟩]
          : List Candidate).tail ∧
      (merge_short_chunks ⟨10, 0⟩
        [⟨"aa".data, none⟩, ⟨"bb".data, none⟩, ⟨"ccccccccccc".data, none⟩]).length
        ≤ ([⟨"aa".data, none⟩, ⟨"bb".data, none⟩, ⟨"ccccccccccc".data, none⟩]
          : List Candidate).length) := by
  refine ⟨by decide, ?_⟩
  exact merge_short_chunks_correct ⟨10, 0⟩ _ (by decide)

/-! ### Overlap injection (C8) -/

/-- The spec's "last `k` lines (or all lines if fewer)". -/
def lastN {α : Type} (k : Nat) (l : List α) : List α := l.drop (l.length - k)

theorem tailLines_eq_lastN {k : Nat} (hk : 0 < k) (s : Str) :
    tailLines k s = joinSep ['\n'] (lastN k (splitLines s)) := by
  simp only [tailLines, lastN, pySliceLast]
  rcases Nat.lt_or_ge k (splitLines s).length with h | h
  · rw [if_pos h, if_neg (by omega)]
  · rw [if_neg (by omega)]
    have : (splitLines s).length - k = 0 := by omega
    rw [this, List.drop_zero]

theorem headLines_eq_take {k : Nat} (s : Str) :
    headLines k s = joinSep ['\n'] ((splitLines s).take k) := by
  simp only [headLines]
  rcases Nat.lt_or_ge k (splitLines s).length with h | h
  · rw [if_pos h]
  · rw [if_neg (by omega), List.take_of_length_le h]

/-- C8: with `chunk_overlap > 0` and at least two candidates, overlap
injection reads only the pre-overlap candidate list: chunk `i > 0` is
prepended with the last `chunk_overlap` lines (all lines if fewer) of
candidate `i-1`'s original content and chunk `i < last` is appended with the
first `chunk_overlap` lines of candidate `i+1`'s original content, each
joined by a blank line; the first candidate only receives a trailing
addition and the last only a leading one. -/
theorem apply_overlap_correct (cfg : Cfg) (cs : List Candidate)
    (hlen : 1 < cs.length) (hov : 0 < cfg.chunk_overlap) (i : Nat) (hi : i < cs.length) :
    (apply_overlap cfg cs).length = cs.length ∧
    (apply_overlap cfg cs).getD i default =
      ⟨(if 0 < i then
          joinSep ['\n'] (lastN cfg.chunk_overlap (splitLines (cs.getD (i-1) default).content))
            ++ sepPP
        else []) ++ (cs.getD i default).content ++
        (if i < cs.length - 1 then
          sepPP ++ joinSep ['\n']
            ((splitLines (cs.getD (i+1) default).content).take cfg.chunk_overlap)
        else []),
        (cs.getD i default).heading_info⟩ := by
  have hno : ¬ cs.length ≤ 1 := by omega
  constructor
  · rw [apply_overlap, if_neg hno]
    simp [List.enum_length]
  · rw [apply_overlap, if_neg hno]
    rw [List.getD_eq_getElem?_getD, List.getElem?_map, List.getElem?_enum,
      List.getElem?_eq_getElem hi]
    simp only [Option.map_some', Option.getD_some]
    by_cases h0 : 0 < i
    · by_cases hl : i < cs.length - 1
      · simp only [if_pos h0, if_pos hl]
        rw [tailLines_eq_lastN hov, headLines_eq_take]
        simp [List.getD_eq_getElem?_getD, List.getElem?_eq_getElem hi, List.append_assoc]
      · simp only [if_pos h0, if_neg hl]
        rw [tailLines_eq_lastN hov]
        simp [List.getD_eq_getElem?_getD, List.getElem?_eq_getElem hi, List.append_assoc]
    · by_cases hl : i < cs.length - 1
      · simp only [if_neg h0, if_pos hl]
        rw [headLines_eq_take]
        simp [List.getD_eq_getElem?_getD, List.getElem?_eq_getElem hi, List.append_assoc]
      · simp only [if_neg h0, if_neg hl]
        simp [List.getD_eq_getElem?_getD, List.getElem?_eq_getElem hi]

/-- Witness for C8: overlap 2 over three chunks, at the middle chunk. -/
theorem apply_overlap_correct_witness :
    (1 < ([⟨"a1\na2\na3".data, none⟩, ⟨"b1\nb2".data, none⟩, ⟨"c1\nc2\nc3".data, none⟩]
        : List Candidate).length) ∧
    (0 < (⟨1000, 2⟩ : Cfg).chunk_overlap) ∧
    (1 < ([⟨"a1\na2\na3".data, none⟩, ⟨"b1\nb2".data, none⟩, ⟨"c1\nc2\nc3".data, none⟩]
        : List Candidate).length) ∧
    ((apply_overlap ⟨1000, 2⟩
        [⟨"a1\na2\na3".data, none⟩, ⟨"b1\nb2".data, none⟩, ⟨"c1\nc2\nc3".data, none⟩]).length
      = ([⟨"a1\na2\na3".data, none⟩, ⟨"b1\nb2".data, none⟩, ⟨"c1\nc2\nc3".data, none⟩]
        : List Candidate).length ∧
    (apply_overlap ⟨1000, 2⟩
        [⟨"a1\na2\na3".data, none⟩, ⟨"b1\nb2".data, none⟩,
          ⟨"c1\nc2\nc3".data, none⟩]).getD 1 default =
      ⟨(if 0 < 1 then
          joinSep ['\n'] (lastN (⟨1000, 2⟩ : Cfg).chunk_overlap
            (splitLines (([⟨"a1\na2\na3".data, none⟩, ⟨"b1\nb2".data, none⟩,
              ⟨"c1\nc2\nc3".data, none⟩] : List Candidate).getD (1-1) default).content))
            ++ sepPP
        else []) ++
        (([⟨"a1\na2\na3".data, none⟩, ⟨"b1\nb2".data, none⟩,
            ⟨"c1\nc2\nc3".data, none⟩] : List Candidate).getD 1 default).content ++
        (if 1 < ([⟨"a1\na2\na3".data, none⟩, ⟨"b1\nb2".data, none⟩,
            ⟨"c1\nc2\nc3".data, none⟩] : List Candidate).length - 1 then
          sepPP ++ joinSep ['\n']
            ((splitLines (([⟨"a1\na2\na3".data, none⟩, ⟨"b1\nb2".data, none⟩,
              ⟨"c1\nc2\nc3".data, none⟩] : List Candidate).getD (1+1) default).content).take
              (⟨1000, 2⟩ : Cfg).chunk_overlap)
        else []),
        (([⟨"a1\na2\na3".data, none⟩, ⟨"b1\nb2".data, none⟩,
          ⟨"c1\nc2\nc3".data, none⟩] : List Candidate).getD 1 default).heading_info⟩) := by
  refine ⟨by decide, by decide, by decide, ?_⟩
  exact apply_overlap_correct ⟨1000, 2⟩ _ (by decide) (by decide) 1 (by decide)

/-! ### Degenerate input: empty text (C3) -/

/-- C3 counterexample: on empty text (with the consistent empty heading
list) `chunk_by_headings` does NOT return an empty chunk list — it returns
one chunk. -/
theorem chunk_by_headings_empty_text_not_nil :
    chunk_by_headings ⟨1000, 0⟩ [] [] "f".data "doc.md".data ≠ []
      ∧ (chunk_by_headings ⟨1000, 0⟩ [] [] "f".data "doc.md".data).length = 1 := by
  constructor
  · decide
  · decide

/-- C3 amended: for every configuration, file name and file path, empty text
with the empty heading list yields exactly one chunk, whose content is empty
and whose metadata carries no heading and `inherited_heading = false`. -/
theorem chunk_by_headings_empty_text (cs : Int) (co : Nat) (fn p : Str) :
    chunk_by_headings ⟨cs, co⟩ [] [] fn p
      = [⟨[], ⟨formatOf p, p, 0, false, none, none, none, none⟩⟩] := by
  have hpara : split_by_paragraph ⟨cs, co⟩ [] = [⟨[], some ⟨false, [], 0⟩⟩] := by
    have hprot : protect_code_blocks [] = ([], []) := by decide
    have hsplit : splitOnStr sepPP [] = [[]] := by decide
    have hmk : mkCand [[]] = ⟨[], some ⟨false, [], 0⟩⟩ := by decide
    simp only [split_by_paragraph, hprot, hsplit, List.foldl_cons, List.foldl_nil,
      restore_code_blocks, List.length_nil]
    simp [hmk]
  simp only [chunk_by_headings, List.isEmpty_nil, if_pos, hpara]
  have hmerge : merge_short_chunks ⟨cs, co⟩ [⟨[], some ⟨false, [], 0⟩⟩]
      = [⟨[], some ⟨false, [], 0⟩⟩] := by
    simp [merge_short_chunks]
  rw [hmerge]
  have hguard : ¬ (0 < co ∧ 1 < ([⟨[], some ⟨false, [], 0⟩⟩] : List Candidate).length) := by
    simp
  rw [if_neg hguard]
  simp [resolveStep, build_heading_path]

/-! ### The `inherited_heading` flag (C4) -/

/-- C4 (code bug): on this input the second chunk carries no genuine heading
and inherits the previous heading path — its content is prefixed with the
`[Context: ...]` marker and its metadata heading is the inherited `T` — yet
its `inherited_heading` flag is `false`.  The source computes the flag at
line 124 from `heading_info` after lines 105–111 have already overwritten
`has_heading` to `True` for inherited chunks, so the conjunction
`not has_heading and previous_path is not None` is always false. -/
theorem inherited_heading_flag_always_false :
    chunk_by_headings ⟨10, 0⟩ "# T\naaaa\n\nbbbbbbbbbb".data [(0, 1, "T".data)]
        "f".data "d.md".data
      = [⟨"# T\naaaa".data,
          ⟨"md".data, "d.md".data, 0, false, some "T".data, some 1,
            some "T".data, some "T".data⟩⟩,
         ⟨"[Context: f > T]\n\nbbbbbbbbbb".data,
          ⟨"md".data, "d.md".data, 1, false, some "T".data, some 1, none, none⟩⟩] := by
  decide

/-! ### Decimal digits and placeholder structure -/

theorem digitChar_isDigit (n : Nat) : (digitChar n).isDigit = true := by
  match n with
  | 0 | 1 | 2 | 3 | 4 | 5 | 6 | 7 | 8 => decide
  | n + 9 => rfl

theorem digitChar_toNat {n : Nat} (h : n < 10) : (digitChar n).toNat = 48 + n := by
  interval_cases n <;> rfl

/-- Decimal value of a digit string. -/
def digitsVal (s : Str) : Nat := s.foldl (fun a c => 10 * a + (c.toNat - 48)) 0

theorem digitsVal_append_digit (s : Str) (c : Char) :
    digitsVal (s ++ [c]) = 10 * digitsVal s + (c.toNat - 48) := by
  simp [digitsVal, List.foldl_append]

theorem natCharsF_spec :
    ∀ f n, n < f →
      natCharsF f n ≠ [] ∧ (∀ c ∈ natCharsF f n, c.isDigit = true) ∧
        digitsVal (natCharsF f n) = n := by
  intro f
  induction f with
  | zero => intro n h; omega
  | succ f ih =>
    intro n hn
    by_cases h10 : n < 10
    · refine ⟨by simp [natCharsF, h10], ?_, ?_⟩
      · intro c hc
        simp [natCharsF, h10] at hc
        rw [hc]
        exact digitChar_isDigit n
      · simp [natCharsF, h10, digitsVal, digitChar_toNat h10]
    · have hdiv : n / 10 < f := by omega
      obtain ⟨h1, h2, h3⟩ := ih (n / 10) hdiv
      refine ⟨by simp [natCharsF, h10], ?_, ?_⟩
      · intro c hc
        simp only [natCharsF, if_neg h10, List.mem_append, List.mem_singleton] at hc
        rcases hc with hc | hc
        · exact h2 c hc
        · rw [hc]; exact digitChar_isDigit (n % 10)
      · simp only [natCharsF, if_neg h10]
        rw [digitsVal_append_digit, h3, digitChar_toNat (by omega)]
        omega

theorem natChars_ne_nil (n : Nat) : natChars n ≠ [] :=
  (natCharsF_spec (n + 1) n (by omega)).1

theorem natChars_digits (n : Nat) : ∀ c ∈ natChars n, c.isDigit = true :=
  (natCharsF_spec (n + 1) n (by omega)).2.1

theorem natChars_inj {m n : Nat} (h : natChars m = natChars n) : m = n := by
  have hm : digitsVal (natChars m) = m := (natCharsF_spec (m + 1) m (by omega)).2.2
  have hn : digitsVal (natChars n) = n := (natCharsF_spec (n + 1) n (by omega)).2.2
  rw [← hm, ← hn, h]

theorem digit_ne_of_not_digit {c d : Char} (hc : c.isDigit = true) (hd : d.isDigit = false) :
    c ≠ d := by
  intro h
  rw [h, hd] at hc
  cases hc

/-- `"CODE_BLOCK"` as a character list. -/
def cb : Str := "CODE_BLOCK".data

/-- `s` has no occurrence of `"CODE_BLOCK"`. -/
def CBFree (s : Str) : Prop := ¬ cb <:+: s

theorem CBFree.of_infix {s t : Str} (h : CBFree t) (hst : s <:+: t) : CBFree s :=
  fun hc => h (hc.trans hst)

theorem ph_eq (i : Nat) :
    ph i = ['_', '_'] ++ cb ++ ['_'] ++ (natChars i ++ ['_', '_']) := by
  simp [ph, cb]

theorem ph_length (i : Nat) : (ph i).length = 15 + (natChars i).length := by
  rw [ph_eq]
  simp [cb]
  omega

theorem ph_ne_nil (i : Nat) : ph i ≠ [] := by
  intro h
  have := congrArg List.length h
  rw [ph_length] at this
  simp at this

theorem cb_infix_ph (i : Nat) : cb <:+: ph i := by
  rw [ph_eq]
  exact ⟨['_', '_'], ['_'] ++ (natChars i ++ ['_', '_']), by simp⟩

theorem mem_ph_cases {c : Char} {i : Nat} (h : c ∈ ph i) :
    c = '_' ∨ c ∈ cb ∨ c.isDigit = true := by
  rw [ph_eq] at h
  simp only [List.mem_append] at h
  rcases h with ((h | h) | h) | h | h
  · simp at h; exact Or.inl h
  · exact Or.inr (Or.inl h)
  · simp at h; exact Or.inl h
  · exact Or.inr (Or.inr (natChars_digits i c h))
  · simp at h; exact Or.inl h

theorem backtick_not_mem_ph (i : Nat) : '`' ∉ ph i := by
  intro h
  rcases mem_ph_cases h with h1 | h1 | h1
  · cases h1
  · exact absurd h1 (by decide)
  · exact absurd h1 (by decide)

theorem newline_not_mem_ph (i : Nat) : '\n' ∉ ph i := by
  intro h
  rcases mem_ph_cases h with h1 | h1 | h1
  · cases h1
  · exact absurd h1 (by decide)
  · exact absurd h1 (by decide)

/-! ### Positional string lemmas -/

theorem prefix_getElem? {s y : Str} (h : s <+: y) {k : Nat} (hk : k < s.length) :
    y[k]? = s[k]? := by
  obtain ⟨t, ht⟩ := h
  rw [← ht, List.getElem?_append, if_pos hk]

theorem suffix_getElem? {s w : Str} (h : s <:+ w) {k : Nat} (hk : k < s.length) :
    w[w.length - s.length + k]? = s[k]? := by
  obtain ⟨u, hu⟩ := h
  subst hu
  have hlen : (u ++ s).length - s.length + k = u.length + k := by
    simp [List.length_append]
  rw [hlen, List.getElem?_append_right (Nat.le_add_right _ _)]
  congr 1
  omega

theorem infix_append_cases {s a b : Str} (h : s <:+: a ++ b) :
    s <:+: a ∨ s <:+: b ∨
      ∃ t, 0 < t ∧ t < s.length ∧ s.take t <:+ a ∧ s.drop t <+: b := by
  obtain ⟨u, v, huv⟩ := h
  rcases le_or_lt (u.length + s.length) a.length with h1 | h1
  · left
    have ha : ((u ++ s) ++ v).take a.length = a := by rw [huv, List.take_left]
    rw [List.take_append_eq_append_take, List.take_append_eq_append_take] at ha
    rw [List.take_of_length_le (by omega), List.take_of_length_le (by omega)] at ha
    exact ⟨u, v.take (a.length - (u ++ s).length), ha⟩
  · rcases le_or_lt a.length u.length with h2 | h2
    · right; left
      have hb : ((u ++ s) ++ v).drop a.length = b := by rw [huv, List.drop_left]
      rw [List.drop_append_eq_append_drop, List.drop_append_eq_append_drop] at hb
      have hz1 : a.length - u.length = 0 := by omega
      have hz2 : a.length - (u ++ s).length = 0 := by simp; omega
      rw [hz1, hz2, List.drop_zero, List.drop_zero] at hb
      exact ⟨u.drop a.length, v, hb⟩
    · right; right
      refine ⟨a.length - u.length, by omega, by omega, ?_, ?_⟩
      · have ha : ((u ++ s) ++ v).take a.length = a := by rw [huv, List.take_left]
        rw [List.take_append_eq_append_take, List.take_append_eq_append_take] at ha
        rw [List.take_of_length_le (by omega)] at ha
        have hz : a.length - (u ++ s).length = 0 := by simp; omega
        rw [hz, List.take_zero, List.append_nil] at ha
        exact ⟨u, ha⟩
      · have hb : ((u ++ s) ++ v).drop a.length = b := by rw [huv, List.drop_left]
        rw [List.drop_append_eq_append_drop, List.drop_append_eq_append_drop] at hb
        have hz1 : u.length ≤ a.length := by omega
        have hz2 : a.length - (u ++ s).length = 0 := by simp; omega
        rw [List.drop_eq_nil_of_le hz1, hz2, List.drop_zero, List.nil_append] at hb
        exact ⟨v, hb⟩

theorem ph_split13 (i : Nat) :
    ph i = "__CODE_BLOCK_".data ++ (natChars i ++ "__".data) := by
  simp [ph]

theorem ph_split_last (i : Nat) :
    ph i = ("__CODE_BLOCK_".data ++ natChars i) ++ "__".data := by
  simp [ph]

theorem ph_underscore_pos {i p : Nat} (hp : (ph i)[p]? = some '_') :
    p = 0 ∨ p = 1 ∨ p = 6 ∨ p = 12 ∨
      p = 13 + (natChars i).length ∨ p = 14 + (natChars i).length := by
  rw [ph_split13, List.getElem?_append] at hp
  by_cases h13 : p < ("__CODE_BLOCK_".data).length
  · rw [if_pos h13] at hp
    have h13' : p < 13 := by simpa using h13
    interval_cases p <;> first | omega | exact absurd hp (by decide)
  · rw [if_neg h13] at hp
    rw [List.getElem?_append] at hp
    by_cases hd : p - ("__CODE_BLOCK_".data).length < (natChars i).length
    · rw [if_pos hd] at hp
      have hmem : '_' ∈ natChars i := by
        obtain ⟨hlt, heq⟩ := List.getElem?_eq_some.mp hp
        exact heq ▸ List.getElem_mem hlt
      have := natChars_digits i '_' hmem
      exact absurd this (by decide)
    · rw [if_neg hd] at hp
      obtain ⟨hlt, _⟩ := List.getElem?_eq_some.mp hp
      have hA : ("__CODE_BLOCK_".data).length = 13 := rfl
      have hB : ("__".data).length = 2 := rfl
      rw [hB] at hlt
      rw [hA] at hlt hd h13
      omega

theorem ph_getElem_low {i t : Nat} (h : t < 13) :
    (ph i)[t]? = ("__CODE_BLOCK_".data)[t]? := by
  rw [ph_split13, List.getElem?_append, if_pos (by simpa using h)]

theorem ph_getLast? (i : Nat) : (ph i).getLast? = some '_' := by
  rw [ph_split_last, List.getLast?_append]
  rfl

theorem ph_getElem_last1 (i : Nat) : (ph i)[(ph i).length - 1]? = some '_' := by
  rw [← List.getLast?_eq_getElem?]
  exact ph_getLast? i

theorem ph_getElem_last2 (i : Nat) : (ph i)[(ph i).length - 2]? = some '_' := by
  rw [ph_split_last]
  have h13 : ("__CODE_BLOCK_".data).length = 13 := rfl
  have hB : ("__".data).length = 2 := rfl
  have h1 : (("__CODE_BLOCK_".data ++ natChars i) ++ "__".data).length - 2
      = ("__CODE_BLOCK_".data ++ natChars i).length := by
    simp only [List.length_append, h13, hB]
    omega
  rw [h1, List.getElem?_append_right le_rfl, Nat.sub_self]
  rfl

theorem ph_getElem_zero (i : Nat) : (ph i)[0]? = some '_' := by
  rw [ph_getElem_low (by omega)]
  rfl

theorem ph_getElem_one (i : Nat) : (ph i)[1]? = some '_' := by
  rw [ph_getElem_low (by omega)]
  rfl

theorem natChars_len_pos (i : Nat) : 0 < (natChars i).length :=
  List.length_pos.mpr (natChars_ne_nil i)

/-- A placeholder that is a prefix of another placeholder followed by
anything has the same index. -/
theorem ph_prefix_ext {i j : Nat} {X : Str} (h : ph i <+: ph j ++ X) : i = j := by
  obtain ⟨t, ht⟩ := h
  rw [ph_split13 i, ph_split13 j] at ht
  have h2 : natChars i ++ ("__".data ++ t) = natChars j ++ ("__".data ++ X) := by
    apply @List.append_cancel_left _ ("__CODE_BLOCK_".data) _ _
    simpa [List.append_assoc] using ht
  rcases Nat.lt_trichotomy (natChars i).length (natChars j).length with hlt | heq | hgt
  · exfalso
    have hL : (natChars i ++ ("__".data ++ t))[(natChars i).length]? = some '_' := by
      rw [List.getElem?_append_right le_rfl, Nat.sub_self]
      rfl
    have hR : (natChars j ++ ("__".data ++ X))[(natChars i).length]? =
        (natChars j)[(natChars i).length]? := by
      rw [List.getElem?_append, if_pos hlt]
    rw [h2, hR] at hL
    have hmem : '_' ∈ natChars j := by
      obtain ⟨hl, he⟩ := List.getElem?_eq_some.mp hL
      exact he ▸ List.getElem_mem hl
    exact absurd (natChars_digits j '_' hmem) (by decide)
  · have := List.append_inj h2 heq
    exact natChars_inj this.1
  · exfalso
    have hL : (natChars i ++ ("__".data ++ t))[(natChars j).length]? =
        (natChars i)[(natChars j).length]? := by
      rw [List.getElem?_append, if_pos hgt]
    have hR : (natChars j ++ ("__".data ++ X))[(natChars j).length]? = some '_' := by
      rw [List.getElem?_append_right le_rfl, Nat.sub_self]
      rfl
    rw [h2, hR] at hL
    have hmem : '_' ∈ natChars i := by
      obtain ⟨hl, he⟩ := List.getElem?_eq_some.mp hL.symm
      exact he ▸ List.getElem_mem hl
    exact absurd (natChars_digits i '_' hmem) (by decide)

/-- A placeholder occurring inside a placeholder has the same index. -/
theorem ph_infix_ph {i j : Nat} (h : ph i <:+: ph j) : i = j := by
  obtain ⟨u, v, huv⟩ := h
  have h0 : (ph j)[u.length]? = some '_' := by
    rw [← huv, @List.getElem?_append _ (u ++ ph i) v _,
      if_pos (by simp only [List.length_append, ph_length]; omega),
      List.getElem?_append_right le_rfl, Nat.sub_self]
    exact ph_getElem_zero i
  have h1 : (ph j)[u.length + 1]? = some '_' := by
    rw [← huv, @List.getElem?_append _ (u ++ ph i) v _,
      if_pos (by simp only [List.length_append, ph_length]; omega),
      List.getElem?_append_right (by omega)]
    have : u.length + 1 - u.length = 1 := by omega
    rw [this]
    exact ph_getElem_one i
  have hu0 := ph_underscore_pos h0
  have hu1 := ph_underscore_pos h1
  have hlen0 := congrArg List.length huv
  simp only [List.length_append, ph_length] at hlen0
  have hdi := natChars_len_pos i
  have hdj := natChars_len_pos j
  have hu : u.length = 0 := by omega
  have hueq : u = [] := List.length_eq_zero.mp hu
  subst hueq
  apply ph_prefix_ext (X := ([] : Str))
  refine ⟨v, ?_⟩
  simpa using huv

/-- The rendered form of a (possibly substituted) placeholder region:
`phMix [(i₀, r₀), (i₁, r₁), ...] = ph i₀ ++ r₀ ++ ph i₁ ++ r₁ ++ ...`. -/
def phMix : List (Nat × Str) → Str
  | [] => []
  | ir :: L => ph ir.1 ++ (ir.2 ++ phMix L)

theorem prefix_split {s a b : Str} (h : s <+: a ++ b) (hle : a.length ≤ s.length) :
    s.take a.length = a ∧ s.drop a.length <+: b := by
  obtain ⟨t, ht⟩ := h
  constructor
  · have h1 : (s ++ t).take a.length = (a ++ b).take a.length := by rw [ht]
    rw [List.take_append_eq_append_take, List.take_append_eq_append_take,
      Nat.sub_self, List.take_zero, List.append_nil, List.take_of_length_le le_rfl,
      (by omega : a.length - s.length = 0), List.take_zero, List.append_nil] at h1
    exact h1
  · have h1 : (s ++ t).drop a.length = (a ++ b).drop a.length := by rw [ht]
    rw [List.drop_append_eq_append_drop, List.drop_append_eq_append_drop,
      Nat.sub_self, List.drop_zero, List.drop_of_length_le le_rfl, List.nil_append,
      (by omega : a.length - s.length = 0), List.drop_zero] at h1
    exact ⟨t, h1⟩

theorem ph_take12 (i : Nat) : (ph i).take 12 = ['_', '_'] ++ cb := by
  rw [ph_split13, List.take_append_eq_append_take]
  have h1 : ("__CODE_BLOCK_".data).take 12 = ['_', '_'] ++ cb := by decide
  have h2 : 12 - ("__CODE_BLOCK_".data).length = 0 := by decide
  rw [h1, h2, List.take_zero, List.append_nil]

/-- Case (c) of the crossing analysis: a placeholder tail `drop t` with
`0 < t < 12` is never a prefix of a string starting with a placeholder. -/
theorem drop_ph_not_pre {i j : Nat} {X : Str} {t : Nat} (h1 : 0 < t) (h2 : t < 12) :
    ¬ (ph i).drop t <+: ph j ++ X := by
  intro hpre
  have hdi := natChars_len_pos i
  have hdj := natChars_len_pos j
  have hlen : 2 ≤ ((ph i).drop t).length := by
    rw [List.length_drop, ph_length]
    omega
  have e0 := prefix_getElem? hpre (k := 0) (by omega)
  have e1 := prefix_getElem? hpre (k := 1) (by omega)
  rw [List.getElem?_drop] at e0 e1
  have f0 : (ph j ++ X)[0]? = some '_' := by
    rw [List.getElem?_append, if_pos (by rw [ph_length]; omega)]
    exact ph_getElem_zero j
  have f1 : (ph j ++ X)[1]? = some '_' := by
    rw [List.getElem?_append, if_pos (by rw [ph_length]; omega)]
    exact ph_getElem_one j
  have g0 : (ph i)[t + 0]? = some '_' := by rw [← e0, f0]
  have g1 : (ph i)[t + 1]? = some '_' := by rw [← e1, f1]
  have hu0 := ph_underscore_pos g0
  have hu1 := ph_underscore_pos g1
  omega

/-- Case (b3) of the crossing analysis, first half: a non-trivial placeholder
head `take t` that is a suffix of a placeholder has `t ≤ 2`. -/
theorem take_ph_suffix_small {i j t : Nat} (h1 : 0 < t) (h2 : t < (ph i).length)
    (hs : (ph i).take t <:+ ph j) : t ≤ 2 := by
  by_contra hgt
  have hdi := natChars_len_pos i
  have hlen_take : ((ph i).take t).length = t := by
    rw [List.length_take]
    omega
  have htj : t ≤ (ph j).length := by
    have := hs.length_le
    omega
  have hlast := suffix_getElem? hs (k := t - 1) (by omega)
  have hlast2 := suffix_getElem? hs (k := t - 2) (by omega)
  rw [hlen_take] at hlast hlast2
  have hi1 : (ph j).length - t + (t - 1) = (ph j).length - 1 := by omega
  have hi2 : (ph j).length - t + (t - 2) = (ph j).length - 2 := by omega
  rw [hi1, ph_getElem_last1 j] at hlast
  rw [hi2, ph_getElem_last2 j] at hlast2
  have hr1 : ((ph i).take t)[t - 1]? = (ph i)[t - 1]? := by
    rw [List.getElem?_take, if_pos (by omega)]
  have hr2 : ((ph i).take t)[t - 2]? = (ph i)[t - 2]? := by
    rw [List.getElem?_take, if_pos (by omega)]
  rw [hr1] at hlast
  rw [hr2] at hlast2
  have hu1 := ph_underscore_pos hlast.symm
  have hu2 := ph_underscore_pos hlast2.symm
  rw [ph_length] at h2
  omega

/-- Case (b3), second half: a placeholder tail `drop t` with `t ∈ {1, 2}` is
never a prefix of a `CODE_BLOCK`-free string followed by a placeholder
region. -/
theorem drop_ph_not_pre_mix {i t : Nat} (ht : t = 1 ∨ t = 2) :
    ∀ (L : List (Nat × Str)) (r : Str), CBFree r →
      ¬ (ph i).drop t <+: r ++ phMix L := by
  intro L r hr hpre
  have hdi := natChars_len_pos i
  have hslen : ((ph i).drop t).length = 15 + (natChars i).length - t := by
    rw [List.length_drop, ph_length]
  rcases le_or_lt (12 - t) r.length with hge | hlt
  · -- the `CODE_BLOCK` inside the placeholder tail lands inside `r`
    apply hr
    have htk : ((ph i).drop t).take (12 - t) <+: r := by
      rw [← @List.isPrefix_append_of_length _ _ _ (phMix L)
        (by rw [List.length_take]; omega)]
      exact (List.take_prefix _ _).trans hpre
    have hcb : cb <:+: ((ph i).drop t).take (12 - t) := by
      rw [List.take_drop, (by omega : t + (12 - t) = 12), ph_take12]
      rcases ht with h | h
      · subst h
        exact ⟨['_'], [], by simp⟩
      · subst h
        exact ⟨[], [], by simp⟩
    exact hcb.trans htk.isInfix
  · -- `r` is shorter than the tail; the following placeholder would force
    -- two adjacent underscores inside the digits region
    have hrle : r.length ≤ ((ph i).drop t).length := by omega
    obtain ⟨-, hdrop⟩ := prefix_split hpre hrle
    cases L with
    | nil =>
      simp only [phMix, List.prefix_nil] at hdrop
      have := congrArg List.length hdrop
      rw [List.length_drop, List.length_drop, ph_length] at this
      simp at this
      omega
    | cons jr L' =>
      simp only [phMix] at hdrop
      have hlen2 : 2 ≤ (((ph i).drop t).drop r.length).length := by
        rw [List.length_drop, List.length_drop, ph_length]
        omega
      have e0 := prefix_getElem? hdrop (k := 0) (by omega)
      have e1 := prefix_getElem? hdrop (k := 1) (by omega)
      rw [List.getElem?_drop, List.getElem?_drop] at e0 e1
      have f0 : (ph jr.1 ++ (jr.2 ++ phMix L'))[0]? = some '_' := by
        rw [List.getElem?_append, if_pos (by rw [ph_length]; have := natChars_len_pos jr.1; omega)]
        exact ph_getElem_zero jr.1
      have f1 : (ph jr.1 ++ (jr.2 ++ phMix L'))[1]? = some '_' := by
        rw [List.getElem?_append, if_pos (by rw [ph_length]; have := natChars_len_pos jr.1; omega)]
        exact ph_getElem_one jr.1
      have g0 : (ph i)[t + (r.length + 0)]? = some '_' := by rw [← e0, f0]
      have g1 : (ph i)[t + (r.length + 1)]? = some '_' := by rw [← e1, f1]
      have hu0 := ph_underscore_pos g0
      have hu1 := ph_underscore_pos g1
      omega

theorem cb_infix_of_take12le {i t : Nat} (h : 12 ≤ t) : cb <:+: (ph i).take t := by
  have hpre : (ph i).take 12 <+: (ph i).take t := by
    rw [List.take_isPrefix_take]
    exact Or.inl h
  have : cb <:+: (ph i).take 12 := by
    rw [ph_take12]
    exact ⟨['_', '_'], [], by simp⟩
  exact this.trans hpre.isInfix

/-- The master occurrence lemma: a placeholder `ph i` whose index does not
appear in a placeholder region over `CODE_BLOCK`-free pieces does not occur
in the rendered region. -/
theorem ph_not_infix_mix {i : Nat} :
    ∀ (L : List (Nat × Str)), (∀ jr ∈ L, CBFree jr.2) → (∀ jr ∈ L, jr.1 ≠ i) →
      ∀ (raw : Str), CBFree raw → ¬ ph i <:+: raw ++ phMix L := by
  intro L
  induction L with
  | nil =>
    intro _ _ raw hraw h
    simp only [phMix, List.append_nil] at h
    exact hraw ((cb_infix_ph i).trans h)
  | cons jr L ih =>
    intro hCB hne raw hraw h
    simp only [phMix] at h
    rcases infix_append_cases h with hc | hc | ⟨t, ht1, ht2, ht3, ht4⟩
    · exact hraw ((cb_infix_ph i).trans hc)
    · rcases infix_append_cases hc with hd | hd | ⟨t, ht1, ht2, ht3, ht4⟩
      · exact hne jr (by simp) (ph_infix_ph hd).symm
      · exact ih (fun x hx => hCB x (by simp [hx])) (fun x hx => hne x (by simp [hx]))
          jr.2 (hCB jr (by simp)) hd
      · have hsmall := take_ph_suffix_small ht1 ht2 ht3
        exact drop_ph_not_pre_mix (by omega) L jr.2 (hCB jr (by simp)) ht4
    · rcases le_or_lt 12 t with h12 | h12
      · exact hraw ((cb_infix_of_take12le h12).trans ht3.isInfix)
      · exact drop_ph_not_pre ht1 h12 ht4

/-- In a `CODE_BLOCK`-free prefix followed by `ph i`, the first occurrence
of `ph i` is the canonical one. -/
theorem firstSplit_ph_canonical {i : Nat} {raw tail : Str} (hraw : CBFree raw) :
    firstSplit (ph i) (raw ++ (ph i ++ tail)) = some (raw, tail) := by
  have hW : raw ++ (ph i ++ tail) = raw ++ ph i ++ tail := by
    rw [List.append_assoc]
  apply firstSplit_eq_of_min
  · exact hW
  · intro a' r' hdec
    by_contra hlt
    push_neg at hlt
    rcases le_or_lt (a'.length + (ph i).length) raw.length with hcase | hcase
    · -- the earlier occurrence would lie entirely inside `raw`
      have hpre1 : a' ++ ph i <+: raw ++ (ph i ++ tail) := by
        rw [hdec]
        exact ⟨r', by simp [List.append_assoc]⟩
      have hpre2 : raw <+: raw ++ (ph i ++ tail) := ⟨ph i ++ tail, rfl⟩
      have hin : a' ++ ph i <+: raw :=
        List.prefix_of_prefix_length_le hpre1 hpre2 (by rw [List.length_append]; omega)
      obtain ⟨z, hz⟩ := hin
      exact hraw ((cb_infix_ph i).trans ⟨a', z, by simpa [List.append_assoc] using hz⟩)
    · -- the earlier occurrence crosses into the canonical placeholder
      set t := raw.length - a'.length with htdef
      have ht1 : 0 < t := by omega
      have ht2 : t < (ph i).length := by omega
      have htake : raw = a' ++ (ph i).take t := by
        have h1 : (raw ++ (ph i ++ tail)).take raw.length = raw := List.take_left raw _
        rw [hdec, List.append_assoc, List.take_append_eq_append_take,
          List.take_of_length_le (by omega), List.take_append_eq_append_take,
          (by omega : raw.length - a'.length - (ph i).length = 0), List.take_zero,
          List.append_nil] at h1
        exact h1.symm
      have hdrop : (ph i).drop t <+: ph i ++ tail := by
        have h1 : (raw ++ (ph i ++ tail)).drop raw.length = ph i ++ tail :=
          List.drop_left raw _
        rw [hdec, List.append_assoc, List.drop_append_eq_append_drop,
          List.drop_of_length_le (by omega), List.nil_append,
          List.drop_append_eq_append_drop,
          (by omega : raw.length - a'.length - (ph i).length = 0), List.drop_zero] at h1
        exact ⟨r', h1⟩
      rcases le_or_lt 12 t with h12 | h12
      · apply hraw
        have hx : (ph i).take t <:+: raw := ⟨a', [], by simp [htake]⟩
        exact (cb_infix_of_take12le (i := i) h12).trans hx
      · exact drop_ph_not_pre ht1 h12 hdrop

theorem replaceAll_ph_mix {i : Nat} {b raw r : Str} {L : List (Nat × Str)}
    (hraw : CBFree raw) (hr : CBFree r) (hL : ∀ jr ∈ L, CBFree jr.2)
    (hne : ∀ jr ∈ L, jr.1 ≠ i) :
    replaceAll (raw ++ phMix ((i, r) :: L)) (ph i) b = raw ++ (b ++ (r ++ phMix L)) := by
  have hstep : firstSplit (ph i) (raw ++ phMix ((i, r) :: L))
      = some (raw, r ++ phMix L) := by
    simp only [phMix]
    exact firstSplit_ph_canonical hraw
  rw [replaceAll_step (ph_ne_nil i) hstep,
    replaceAll_not_occ (ph_not_infix_mix L hL hne r hr)]
  simp [List.append_assoc]

theorem backtick_not_mem_cb : '`' ∉ cb := by decide

theorem cbFree_append_block {x b y : Str} (hx : CBFree x) (hb : CBFree b) (hy : CBFree y)
    (hb1 : b[0]? = some '`') (hb2 : b.getLast? = some '`') :
    CBFree (x ++ (b ++ y)) := by
  intro h
  rcases infix_append_cases h with hc | hc | ⟨t, ht1, ht2, ht3, ht4⟩
  · exact hx hc
  · rcases infix_append_cases hc with hd | hd | ⟨t, ht1, ht2, ht3, ht4⟩
    · exact hb hd
    · exact hy hd
    · have hcb10 : cb.length = 10 := rfl
      have htlen : (cb.take t).length = t := by
        rw [List.length_take]
        omega
      have hne : cb.take t ≠ [] := by
        intro hh
        have := congrArg List.length hh
        rw [htlen] at this
        simp at this
        omega
      have hgl : (cb.take t).getLast? = b.getLast? := by
        obtain ⟨u, hu⟩ := ht3
        rw [← hu, List.getLast?_append]
        cases hq : (cb.take t).getLast? with
        | none => exact absurd (List.getLast?_eq_none_iff.mp hq) hne
        | some c => rfl
      rw [hb2, List.getLast?_eq_getElem?, htlen, List.getElem?_take,
        if_pos (by omega)] at hgl
      have hmem : '`' ∈ cb := by
        obtain ⟨hl, he⟩ := List.getElem?_eq_some.mp hgl
        exact he ▸ List.getElem_mem hl
      exact backtick_not_mem_cb hmem
  · have hlen : 0 < (cb.drop t).length := by
      rw [List.length_drop]
      omega
    have e0 := prefix_getElem? ht4 (k := 0) hlen
    rw [List.getElem?_drop] at e0
    have hbne : b ≠ [] := by
      intro hh
      rw [hh] at hb1
      cases hb1
    have f0 : (b ++ y)[0]? = some '`' := by
      rw [List.getElem?_append, if_pos (List.length_pos.mpr hbne)]
      exact hb1
    rw [f0] at e0
    have hmem : '`' ∈ cb := by
      obtain ⟨hl, he⟩ := List.getElem?_eq_some.mp e0.symm
      exact he ▸ List.getElem_mem hl
    exact backtick_not_mem_cb hmem

/-- Restoring the placeholders of a rendered region (in increasing index
order, over `CODE_BLOCK`-free pieces) reinstates the blocks in place. -/
theorem restore_fold_mix (blk : Nat → Str) :
    ∀ (J : List Nat), J.Nodup →
      (∀ k ∈ J, CBFree (blk k) ∧ (blk k)[0]? = some '`' ∧ (blk k).getLast? = some '`') →
      ∀ (L : List (Nat × Str)), (L.map Prod.fst).Sublist J →
        (∀ jr ∈ L, CBFree jr.2) →
        ∀ (raw : Str), CBFree raw →
          (J.map (fun k => (ph k, blk k))).foldl
              (fun acc pb => replaceAll acc pb.1 pb.2) (raw ++ phMix L)
            = raw ++ (L.map (fun jr => blk jr.1 ++ jr.2)).join := by
  intro J
  induction J with
  | nil =>
    intro _ _ L hsub hL raw hraw
    have hmap : L.map Prod.fst = [] := List.sublist_nil.mp hsub
    have : L = [] := List.map_eq_nil.mp hmap
    subst this
    simp [phMix]
  | cons k J ih =>
    intro hnodup hblk L hsub hL raw hraw
    rw [List.map_cons, List.foldl_cons]
    rcases List.sublist_cons_iff.mp hsub with hcase | ⟨rest, hLmap, hrest⟩
    · have hkni : ∀ jr ∈ L, jr.1 ≠ k := by
        intro jr hjr heq
        have hkJ : k ∉ J := (List.nodup_cons.mp hnodup).1
        have h1 : jr.1 ∈ L.map Prod.fst := List.mem_map_of_mem _ hjr
        have h2 : jr.1 ∈ J := hcase.subset h1
        rw [heq] at h2
        exact hkJ h2
      rw [replaceAll_not_occ (ph_not_infix_mix L hL hkni raw hraw)]
      exact ih (List.nodup_cons.mp hnodup).2 (fun x hx => hblk x (by simp [hx]))
        L hcase hL raw hraw
    · cases L with
      | nil => simp at hLmap
      | cons jr L' =>
        obtain ⟨j0, r0⟩ := jr
        simp only [List.map_cons, List.cons.injEq] at hLmap
        obtain ⟨hk1, hk2⟩ := hLmap
        subst hk1
        have hkJ : j0 ∉ J := (List.nodup_cons.mp hnodup).1
        have hni : ∀ x ∈ L', x.1 ≠ j0 := by
          intro x hx heq
          have h1 : x.1 ∈ L'.map Prod.fst := List.mem_map_of_mem _ hx
          rw [hk2] at h1
          have h2 := hrest.subset h1
          rw [heq] at h2
          exact hkJ h2
        have hr0 : CBFree r0 := hL (j0, r0) (by simp)
        rw [replaceAll_ph_mix hraw hr0 (fun x hx => hL x (by simp [hx])) hni]
        have hbprops := hblk j0 (by simp)
        have hraw' : CBFree (raw ++ (blk j0 ++ r0)) :=
          cbFree_append_block hraw hbprops.1 hr0 hbprops.2.1 hbprops.2.2
        have hrec := ih (List.nodup_cons.mp hnodup).2 (fun x hx => hblk x (by simp [hx])) L'
          (hk2 ▸ hrest) (fun x hx => hL x (by simp [hx])) (raw ++ (blk j0 ++ r0)) hraw'
        rw [show raw ++ (blk j0 ++ (r0 ++ phMix L')) = (raw ++ (blk j0 ++ r0)) ++ phMix L' by
          simp [List.append_assoc]]
        rw [hrec]
        simp [List.append_assoc]

/-- No occurrence of a triple-backtick fence. -/
def FenceFree (s : Str) : Prop := ¬ fence <:+: s

/-- Appending backtick-free text preserves fence-freeness. -/
theorem fenceFree_append_bt {X Y : Str} (hX : FenceFree X) (hY : '`' ∉ Y) :
    FenceFree (X ++ Y) := by
  intro h
  rcases infix_append_cases h with hc | hc | ⟨t, ht1, ht2, ht3, ht4⟩
  · exact hX hc
  · exact hY (hc.subset (by simp [fence]))
  · have ht2' : t < 3 := by simpa [fence] using ht2
    have hne : fence.drop t ≠ [] := by
      have : (fence.drop t).length = 3 - t := by simp [fence]
      intro h0
      rw [h0] at this
      simp at this
      omega
    obtain ⟨c, hc⟩ := List.exists_mem_of_ne_nil _ hne
    have hcf : c ∈ fence := List.drop_subset t fence hc
    have hcb : c = '`' := by
      simpa [fence] using hcf
    exact hY (hcb ▸ ht4.subset hc)

/-- Appending a fence-free string after a string not ending in a backtick
preserves fence-freeness. -/
theorem fenceFree_append_last {X Y : Str} (hX : FenceFree X) (hY : FenceFree Y)
    (hlast : X.getLast? ≠ some '`') : FenceFree (X ++ Y) := by
  intro h
  rcases infix_append_cases h with hc | hc | ⟨t, ht1, ht2, ht3, ht4⟩
  · exact hX hc
  · exact hY hc
  · have ht2' : t < 3 := by simpa [fence] using ht2
    apply hlast
    obtain ⟨u, hu⟩ := ht3
    rw [← hu, List.getLast?_append]
    have hgl : (fence.take t).getLast? = some '`' := by
      interval_cases t <;> rfl
    rw [hgl]
    rfl

/-- In a string whose part before a code block is fence-free and does not end
in a backtick, the first occurrence of that block is the visible one. -/
theorem firstSplit_block {P m S : Str} (hff : FenceFree P)
    (hlast : P.getLast? ≠ some '`') :
    firstSplit (fence ++ m ++ fence) (P ++ ((fence ++ m ++ fence) ++ S))
      = some (P, S) := by
  apply firstSplit_eq_of_min
  · simp [List.append_assoc]
  · intro a' r' hdec
    by_contra hlt
    push_neg at hlt
    have hpre1 : a' ++ fence <+: P ++ ((fence ++ m ++ fence) ++ S) := by
      rw [hdec]
      exact ⟨m ++ fence ++ r', by simp [List.append_assoc]⟩
    have hpre2 : P <+: P ++ ((fence ++ m ++ fence) ++ S) := List.prefix_append _ _
    rcases le_or_lt (a'.length + 3) P.length with hle | hgt
    · have h1 : a' ++ fence <+: P := by
        apply List.prefix_of_prefix_length_le hpre1 hpre2
        simp [fence]
        omega
      have hfi : fence <:+: a' ++ fence := ⟨a', [], by simp⟩
      exact hff (List.IsInfix.trans hfi h1.isInfix)
    · apply hlast
      have hPne : P ≠ [] := by
        intro h0
        subst h0
        simp at hlt
      have hPpos : 0 < P.length := List.length_pos.mpr hPne
      rw [List.getLast?_eq_getElem?]
      have h1 : (P ++ ((fence ++ m ++ fence) ++ S))[P.length - 1]? = P[P.length - 1]? :=
        prefix_getElem? hpre2 (by omega)
      have h2 : (P ++ ((fence ++ m ++ fence) ++ S))[P.length - 1]?
          = (a' ++ fence)[P.length - 1]? := by
        apply prefix_getElem? hpre1
        simp [fence]
        omega
      have h3 : (a' ++ fence)[P.length - 1]? = fence[P.length - 1 - a'.length]? := by
        rw [List.getElem?_append, if_neg (by omega)]
      have h4 : fence[P.length - 1 - a'.length]? = some '`' := by
        have hall : ∀ i : Nat, i < 3 → fence[i]? = some '`' := by decide
        exact hall _ (by omega)
      rw [← h1, h2, h3, h4]

/-- `str.replace(block, rep, 1)` on such a string replaces the visible block. -/
theorem replaceFirst_block {P m S rep : Str} (hff : FenceFree P)
    (hlast : P.getLast? ≠ some '`') :
    replaceFirst (P ++ ((fence ++ m ++ fence) ++ S)) (fence ++ m ++ fence) rep
      = P ++ (rep ++ S) := by
  simp only [replaceFirst, firstSplit_block hff hlast]
  simp [List.append_assoc]

/-- The protected text: each block replaced by its placeholder, numbered from
`k`. -/
def phJoin : Nat → List (Str × Str) → Str → Str
  | _, [], tail => tail
  | k, pb :: segs, tail => pb.1 ++ ph k ++ phJoin (k + 1) segs tail

theorem getLast?_append_ne {X Y : Str} {c : Char} (hX : X.getLast? ≠ some c)
    (hY : Y.getLast? ≠ some c) : (X ++ Y).getLast? ≠ some c := by
  rw [List.getLast?_append]
  cases h : Y.getLast? with
  | none => simpa using hX
  | some d =>
    show some d ≠ some c
    exact h ▸ hY

/-- The protection loop rewrites the scanner decomposition segment by segment
into the placeholder form. -/
theorem protect_fold :
    ∀ (segs : List (Str × Str)) (k : Nat) (P tail : Str),
      (∀ pb ∈ segs, (∃ m, pb.2 = fence ++ m ++ fence) ∧ ¬ fence <:+: pb.1 ∧
        pb.1.getLast? ≠ some '`') →
      FenceFree P → P.getLast? ≠ some '`' →
      (List.enumFrom k (segs.map (·.2))).foldl
          (fun acc ib => replaceFirst acc ib.2 (ph ib.1)) (P ++ segsJoin segs tail)
        = P ++ phJoin k segs tail := by
  intro segs
  induction segs with
  | nil =>
    intro k P tail _ _ _
    simp [segsJoin, phJoin, List.enumFrom]
  | cons pb segs ih =>
    intro k P tail hseg hff hlast
    obtain ⟨⟨m, hm⟩, hffpre, hlastpre⟩ := hseg pb (by simp)
    have hP' : FenceFree (P ++ pb.1) := fenceFree_append_last hff hffpre hlast
    have hL' : (P ++ pb.1).getLast? ≠ some '`' := getLast?_append_ne hlast hlastpre
    have hstep : (List.enumFrom k ((pb :: segs).map (·.2))).foldl
        (fun acc ib => replaceFirst acc ib.2 (ph ib.1)) (P ++ segsJoin (pb :: segs) tail)
      = (List.enumFrom (k + 1) (segs.map (·.2))).foldl
          (fun acc ib => replaceFirst acc ib.2 (ph ib.1))
          (replaceFirst (P ++ segsJoin (pb :: segs) tail) pb.2 (ph k)) := rfl
    have hdec : P ++ segsJoin (pb :: segs) tail
        = (P ++ pb.1) ++ ((fence ++ m ++ fence) ++ segsJoin segs tail) := by
      show P ++ (pb.1 ++ pb.2 ++ segsJoin segs tail) = _
      rw [hm]
      simp [List.append_assoc]
    have hrep : replaceFirst (P ++ segsJoin (pb :: segs) tail) pb.2 (ph k)
        = (P ++ pb.1 ++ ph k) ++ segsJoin segs tail := by
      rw [hdec, hm, replaceFirst_block hP' hL']
      simp [List.append_assoc]
    rw [hstep, hrep]
    have hff2 : FenceFree (P ++ pb.1 ++ ph k) := by
      apply fenceFree_append_bt hP'
      exact backtick_not_mem_ph k
    have hlast2 : (P ++ pb.1 ++ ph k).getLast? ≠ some '`' := by
      rw [List.getLast?_append, ph_getLast?]
      show some '_' ≠ some '`'
      decide
    rw [ih (k + 1) (P ++ pb.1 ++ ph k) tail (fun x hx => hseg x (by simp [hx])) hff2 hlast2]
    simp [phJoin, List.append_assoc]

/-- The protected text as first component of `_protect_code_blocks`. -/
theorem protect_fst_eq (text : Str) :
    (protect_code_blocks text).1
      = phJoin 0 (scanFences text).1 (scanFences text).2 := by
  have hff : FenceFree ([] : Str) := by
    intro h
    obtain ⟨u, v, huv⟩ := h
    simp [fence] at huv
  have h0 : (protect_code_blocks text).1
      = (List.enumFrom 0 (((scanFences text).1).map (·.2))).foldl
          (fun acc ib => replaceFirst acc ib.2 (ph ib.1)) text := rfl
  have h1 := protect_fold (scanFences text).1 0 [] (scanFences text).2
    (scanFences_inv text) hff (by simp)
  rw [List.nil_append, List.nil_append, scanFences_decomp] at h1
  rw [h0, h1]

/-- The index-to-block lookup (`ms[j]`, empty past the end). -/
def blkOf : List Str → Nat → Str
  | [], _ => []
  | b :: _, 0 => b
  | _ :: ms, j + 1 => blkOf ms j

theorem blkOf_mem : ∀ (ms : List Str) (k : Nat), k < ms.length → blkOf ms k ∈ ms := by
  intro ms
  induction ms with
  | nil =>
    intro k h
    simp at h
  | cons b ms ih =>
    intro k h
    cases k with
    | zero => exact List.mem_cons_self _ _
    | succ k =>
      exact List.mem_cons_of_mem _ (ih k (by simpa using Nat.lt_of_succ_lt_succ h))

theorem blkOf_map_snd : ∀ (segs : List (Str × Str)) (j : Nat) (h : j < segs.length),
    blkOf (segs.map (·.2)) j = (segs.get ⟨j, h⟩).2 := by
  intro segs
  induction segs with
  | nil =>
    intro j h
    simp at h
  | cons pb segs ih =>
    intro j h
    cases j with
    | zero => rfl
    | succ j => exact ih j (by simpa using Nat.lt_of_succ_lt_succ h)

theorem enumFrom_map_ph :
    ∀ (ms : List Str) (k : Nat),
      (List.enumFrom k ms).map (fun ib => (ph ib.1, ib.2))
        = (List.range' k ms.length).map (fun j => (ph j, blkOf ms (j - k))) := by
  intro ms
  induction ms with
  | nil =>
    intro k
    rfl
  | cons b ms ih =>
    intro k
    show (ph k, b) :: (List.enumFrom (k + 1) ms).map (fun ib => (ph ib.1, ib.2)) = _
    rw [ih (k + 1), show (b :: ms).length = ms.length + 1 from rfl, List.range'_succ,
      List.map_cons]
    congr 1
    · show (ph k, b) = (ph k, blkOf (b :: ms) (k - k))
      rw [Nat.sub_self]
      rfl
    · apply List.map_congr_left
      intro j hj
      have hjk : k + 1 ≤ j := (List.mem_range'_1.mp hj).1
      have hj' : j - k = (j - (k + 1)) + 1 := by omega
      rw [hj']
      rfl

/-- The mix list pairing each placeholder index with the raw text that
follows it in the protected document. -/
def mixOf : Nat → List (Str × Str) → Str → List (Nat × Str)
  | _, [], _ => []
  | k, [_], tail => [(k, tail)]
  | k, _ :: pb2 :: segs, tail => (k, pb2.1) :: mixOf (k + 1) (pb2 :: segs) tail

theorem phJoin_eq_mix :
    ∀ (segs : List (Str × Str)) (pb : Str × Str) (k : Nat) (tail : Str),
      phJoin k (pb :: segs) tail = pb.1 ++ phMix (mixOf k (pb :: segs) tail) := by
  intro segs
  induction segs with
  | nil =>
    intro pb k tail
    show pb.1 ++ ph k ++ tail = pb.1 ++ (ph k ++ (tail ++ phMix []))
    simp [phMix, List.append_assoc]
  | cons pb2 segs ih =>
    intro pb k tail
    show pb.1 ++ ph k ++ phJoin (k + 1) (pb2 :: segs) tail
      = pb.1 ++ (ph k ++ (pb2.1 ++ phMix (mixOf (k + 1) (pb2 :: segs) tail)))
    rw [ih pb2 (k + 1) tail]
    simp [List.append_assoc]

theorem mixOf_map_fst :
    ∀ (segs : List (Str × Str)) (pb : Str × Str) (k : Nat) (tail : Str),
      (mixOf k (pb :: segs) tail).map Prod.fst = List.range' k (segs.length + 1) := by
  intro segs
  induction segs with
  | nil =>
    intro pb k tail
    rfl
  | cons pb2 segs ih =>
    intro pb k tail
    show k :: (mixOf (k + 1) (pb2 :: segs) tail).map Prod.fst = _
    rw [ih pb2 (k + 1) tail, List.range'_succ]
    rfl

theorem mixOf_snd_mem :
    ∀ (segs : List (Str × Str)) (pb : Str × Str) (k : Nat) (tail : Str) (jr : Nat × Str),
      jr ∈ mixOf k (pb :: segs) tail → jr.2 = tail ∨ ∃ pb2 ∈ segs, jr.2 = pb2.1 := by
  intro segs
  induction segs with
  | nil =>
    intro pb k tail jr hjr
    have hjr' : jr ∈ [(k, tail)] := hjr
    simp at hjr'
    subst hjr'
    left
    rfl
  | cons pb2 segs ih =>
    intro pb k tail jr hjr
    have hjr' : jr ∈ (k, pb2.1) :: mixOf (k + 1) (pb2 :: segs) tail := hjr
    rcases List.mem_cons.mp hjr' with h | h
    · right
      exact ⟨pb2, by simp, by rw [h]⟩
    · rcases ih pb2 (k + 1) tail jr h with h1 | ⟨pb3, hmem, he⟩
      · left
        exact h1
      · right
        exact ⟨pb3, by simp [hmem], he⟩

theorem mixOf_join :
    ∀ (segs : List (Str × Str)) (pb : Str × Str) (k : Nat) (tail : Str) (blk : Nat → Str),
      (∀ (j : Nat) (h : j < (pb :: segs).length), blk (k + j) = ((pb :: segs).get ⟨j, h⟩).2) →
      pb.1 ++ ((mixOf k (pb :: segs) tail).map (fun jr => blk jr.1 ++ jr.2)).join
        = segsJoin (pb :: segs) tail := by
  intro segs
  induction segs with
  | nil =>
    intro pb k tail blk hblk
    have h0 : blk k = pb.2 := by simpa using hblk 0 (by simp)
    show pb.1 ++ ((blk k ++ tail) ++ ([] : List Str).join) = pb.1 ++ pb.2 ++ tail
    rw [h0]
    simp [List.append_assoc]
  | cons pb2 segs ih =>
    intro pb k tail blk hblk
    have h0 : blk k = pb.2 := by simpa using hblk 0 (by simp)
    have hshift : ∀ (j : Nat) (h : j < (pb2 :: segs).length),
        blk (k + 1 + j) = ((pb2 :: segs).get ⟨j, h⟩).2 := by
      intro j h
      have h1 := hblk (j + 1) (by simpa using Nat.succ_lt_succ h)
      rw [show k + (j + 1) = k + 1 + j by omega] at h1
      exact h1
    have hrec := ih pb2 (k + 1) tail blk hshift
    show pb.1 ++ ((blk k ++ pb2.1)
        ++ ((mixOf (k + 1) (pb2 :: segs) tail).map (fun jr => blk jr.1 ++ jr.2)).join)
      = pb.1 ++ pb.2 ++ segsJoin (pb2 :: segs) tail
    rw [h0, ← hrec]
    simp [List.append_assoc]

theorem segsJoin_tail_suffix :
    ∀ (segs : List (Str × Str)) (tail : Str), tail <:+ segsJoin segs tail := by
  intro segs
  induction segs with
  | nil =>
    intro tail
    exact List.suffix_refl _
  | cons pb segs ih =>
    intro tail
    show tail <:+ pb.1 ++ pb.2 ++ segsJoin segs tail
    exact (ih tail).trans (List.suffix_append _ _)

theorem segsJoin_mem_inf :
    ∀ (segs : List (Str × Str)) (tail : Str) (pb : Str × Str), pb ∈ segs →
      pb.1 <:+: segsJoin segs tail ∧ pb.2 <:+: segsJoin segs tail := by
  intro segs
  induction segs with
  | nil =>
    intro tail pb h
    cases h
  | cons pb0 segs ih =>
    intro tail pb h
    rcases List.mem_cons.mp h with h | h
    · subst h
      constructor
      · exact ⟨[], pb.2 ++ segsJoin segs tail, by simp [segsJoin, List.append_assoc]⟩
      · exact ⟨pb.1, segsJoin segs tail, by simp [segsJoin, List.append_assoc]⟩
    · obtain ⟨h1, h2⟩ := ih tail pb h
      have hsuf : segsJoin segs tail <:+ segsJoin (pb0 :: segs) tail :=
        List.suffix_append (pb0.1 ++ pb0.2) (segsJoin segs tail)
      exact ⟨h1.trans hsuf.isInfix, h2.trans hsuf.isInfix⟩

/-- Protecting and then immediately restoring reproduces any text that does
not itself contain the substring `CODE_BLOCK`. -/
theorem protect_restore_roundtrip (text : Str) (htext : CBFree text) :
    restore_code_blocks (protect_code_blocks text).1 (protect_code_blocks text).2
      = text := by
  have hdecomp := scanFences_decomp text
  have hinv := scanFences_inv text
  have hfst := protect_fst_eq text
  have hsnd : (protect_code_blocks text).2
      = (List.enumFrom 0 (((scanFences text).1).map (·.2))).map
          (fun ib => (ph ib.1, ib.2)) := rfl
  cases hs : (scanFences text).1 with
  | nil =>
    rw [hs] at hdecomp hfst
    rw [hsnd, hs]
    show (protect_code_blocks text).1 = text
    rw [hfst]
    exact hdecomp
  | cons pb0 segs =>
    rw [hs] at hdecomp hfst hinv
    have hms : (protect_code_blocks text).2
        = (List.range' 0 (segs.length + 1)).map
            (fun j => (ph j, blkOf ((pb0 :: segs).map (·.2)) j)) := by
      rw [hsnd, hs, enumFrom_map_ph]
      simp
    have hblkprops : ∀ k ∈ List.range' 0 (segs.length + 1),
        CBFree (blkOf ((pb0 :: segs).map (·.2)) k) ∧
        (blkOf ((pb0 :: segs).map (·.2)) k)[0]? = some '`' ∧
        (blkOf ((pb0 :: segs).map (·.2)) k).getLast? = some '`' := by
      intro k hk
      have hklt : k < segs.length + 1 := by
        have := (List.mem_range'_1.mp hk).2
        omega
      have hmem : blkOf ((pb0 :: segs).map (·.2)) k ∈ (pb0 :: segs).map (·.2) :=
        blkOf_mem _ k (by simpa using hklt)
      obtain ⟨pb, hpb, hpbe⟩ := List.mem_map.mp hmem
      obtain ⟨⟨m, hm⟩, -, -⟩ := hinv pb hpb
      have hinfix : pb.2 <:+: text := by
        rw [← hdecomp]
        exact (segsJoin_mem_inf _ _ pb hpb).2
      refine ⟨?_, ?_, ?_⟩
      · rw [← hpbe]
        exact CBFree.of_infix htext hinfix
      · rw [← hpbe, hm]
        rfl
      · rw [← hpbe, hm, List.getLast?_append]
        rfl
    have hnodup : (List.range' 0 (segs.length + 1)).Nodup := by
      apply List.nodup_range' <;> norm_num
    have hsub : ((mixOf 0 (pb0 :: segs) ((scanFences text).2)).map Prod.fst).Sublist
        (List.range' 0 (segs.length + 1)) := by
      rw [mixOf_map_fst]
    have hL : ∀ jr ∈ mixOf 0 (pb0 :: segs) ((scanFences text).2), CBFree jr.2 := by
      intro jr hjr
      rcases mixOf_snd_mem segs pb0 0 _ jr hjr with h | ⟨pb2, hmem, he⟩
      · rw [h]
        have h2 : (scanFences text).2
            <:+: segsJoin (pb0 :: segs) ((scanFences text).2) :=
          (segsJoin_tail_suffix _ _).isInfix
        rw [hdecomp] at h2
        exact CBFree.of_infix htext h2
      · rw [he]
        apply CBFree.of_infix htext
        rw [← hdecomp]
        exact (segsJoin_mem_inf _ _ pb2 (List.mem_cons_of_mem _ hmem)).1
    have hraw : CBFree pb0.1 := by
      apply CBFree.of_infix htext
      rw [← hdecomp]
      exact (segsJoin_mem_inf _ _ pb0 (List.mem_cons_self _ _)).1
    have hmain := restore_fold_mix (blkOf ((pb0 :: segs).map (·.2)))
      (List.range' 0 (segs.length + 1)) hnodup hblkprops
      (mixOf 0 (pb0 :: segs) ((scanFences text).2)) hsub hL pb0.1 hraw
    have hblk0 : ∀ (j : Nat) (h : j < (pb0 :: segs).length),
        blkOf ((pb0 :: segs).map (·.2)) (0 + j) = ((pb0 :: segs).get ⟨j, h⟩).2 := by
      intro j h
      rw [Nat.zero_add]
      exact blkOf_map_snd _ j h
    show ((protect_code_blocks text).2).foldl
        (fun acc pb => replaceAll acc pb.1 pb.2) (protect_code_blocks text).1 = text
    rw [hms, hfst, phJoin_eq_mix, hmain, mixOf_join segs pb0 0 _ _ hblk0, hdecomp]

/-- C9 counterexample: on a text that already contains the placeholder literal
`__CODE_BLOCK_0__` together with one fenced block, protecting and then
restoring does not reproduce the text (the literal also gets substituted). -/
theorem code_block_roundtrip_cex :
    restore_code_blocks
        (protect_code_blocks ("__CODE_BLOCK_0__\n```x```".data)).1
        (protect_code_blocks ("__CODE_BLOCK_0__\n```x```".data)).2
      ≠ "__CODE_BLOCK_0__\n```x```".data := by
  decide

/-- C9 amended: for every input text that does not contain the substring
`CODE_BLOCK`, applying `_restore_code_blocks` with the block map produced by
`_protect_code_blocks` to the protected text yields the original text
exactly. -/
theorem code_block_protection_roundtrip (text : Str) (htext : CBFree text) :
    restore_code_blocks (protect_code_blocks text).1 (protect_code_blocks text).2
      = text :=
  protect_restore_roundtrip text htext

/-- Witness for C9 at a concrete document with two fenced blocks. -/
theorem code_block_protection_roundtrip_witness :
    CBFree ("a\n```py\nx = 1\n```\nb\n```\ny\n```\nc".data) ∧
      restore_code_blocks
          (protect_code_blocks ("a\n```py\nx = 1\n```\nb\n```\ny\n```\nc".data)).1
          (protect_code_blocks ("a\n```py\nx = 1\n```\nb\n```\ny\n```\nc".data)).2
        = "a\n```py\nx = 1\n```\nb\n```\ny\n```\nc".data :=
  ⟨show ¬ cb <:+: _ by decide,
   code_block_protection_roundtrip _ (show ¬ cb <:+: _ by decide)⟩

/-- Appending newline-free text preserves absence of the blank-line
separator. -/
theorem sep_append_bt {X Y : Str} (hX : ¬ sepPP <:+: X) (hY : '\n' ∉ Y) :
    ¬ sepPP <:+: X ++ Y := by
  intro h
  rcases infix_append_cases h with hc | hc | ⟨t, ht1, ht2, ht3, ht4⟩
  · exact hX hc
  · exact hY (hc.subset (by simp [sepPP]))
  · have ht2' : t < 2 := by simpa [sepPP] using ht2
    have hne : sepPP.drop t ≠ [] := by
      have hlen : (sepPP.drop t).length = 2 - t := by simp [sepPP]
      intro h0
      rw [h0] at hlen
      simp at hlen
      omega
    obtain ⟨c, hc⟩ := List.exists_mem_of_ne_nil _ hne
    have hcf : c ∈ sepPP := List.drop_subset t sepPP hc
    have hcb : c = '\n' := by simpa [sepPP] using hcf
    exact hY (hcb ▸ ht4.subset hc)

/-- Appending separator-free text after text not ending in a newline
preserves absence of the blank-line separator. -/
theorem sep_append_last {X Y : Str} (hX : ¬ sepPP <:+: X) (hY : ¬ sepPP <:+: Y)
    (hlast : X.getLast? ≠ some '\n') : ¬ sepPP <:+: X ++ Y := by
  intro h
  rcases infix_append_cases h with hc | hc | ⟨t, ht1, ht2, ht3, ht4⟩
  · exact hX hc
  · exact hY hc
  · have ht2' : t < 2 := by simpa [sepPP] using ht2
    apply hlast
    obtain ⟨u, hu⟩ := ht3
    rw [← hu, List.getLast?_append]
    have hgl : (sepPP.take t).getLast? = some '\n' := by
      interval_cases t <;> rfl
    rw [hgl]
    rfl

theorem sep_not_infix_xph {x : Str} (k : Nat) (hx : ¬ sepPP <:+: x) :
    ¬ sepPP <:+: x ++ ph k :=
  sep_append_bt hx (newline_not_mem_ph k)

theorem xph_getLast (x : Str) (k : Nat) : (x ++ ph k).getLast? = some '_' := by
  rw [List.getLast?_append, ph_getLast?]
  rfl

/-- The first separator occurrence inside the left part of an append stays
first in the whole string. -/
theorem firstSplit_append_left {sep x z a r : Str}
    (h : firstSplit sep x = some (a, r)) :
    firstSplit sep (x ++ z) = some (a, r ++ z) := by
  have hs := firstSplit_sound h
  apply firstSplit_eq_of_min
  · rw [hs]
    simp [List.append_assoc]
  · intro a' r' hdec
    by_contra hlt
    push_neg at hlt
    have h1 : a' ++ sep <+: x ++ z := by
      rw [hdec]
      exact ⟨r', by simp [List.append_assoc]⟩
    have h2 : x <+: x ++ z := List.prefix_append _ _
    have hlen : (a' ++ sep).length ≤ x.length := by
      rw [hs]
      simp [List.length_append]
      omega
    have h3 : a' ++ sep <+: x := List.prefix_of_prefix_length_le h1 h2 hlen
    obtain ⟨w, hw⟩ := h3
    have := firstSplit_minimal h a' w (by rw [← hw])
    omega

/-- When the text before a placeholder has no blank-line separator, the first
separator of `x ++ ph k ++ Y` is the first separator of `Y`. -/
theorem firstSplit_append_ph {x Y a r : Str} {k : Nat} (hx : ¬ sepPP <:+: x)
    (h : firstSplit sepPP Y = some (a, r)) :
    firstSplit sepPP (x ++ ph k ++ Y) = some (x ++ ph k ++ a, r) := by
  have hY := firstSplit_sound h
  have hXsep : ¬ sepPP <:+: x ++ ph k := sep_not_infix_xph k hx
  apply firstSplit_eq_of_min
  · rw [hY]
    simp [List.append_assoc]
  · intro a' r' hdec
    by_contra hlt
    push_neg at hlt
    have h1 : a' ++ sepPP <+: x ++ ph k ++ Y := by
      rw [hdec]
      exact ⟨r', by simp [List.append_assoc]⟩
    have h2 : x ++ ph k <+: x ++ ph k ++ Y := List.prefix_append _ _
    rcases le_or_lt (a'.length + 2) (x ++ ph k).length with hle | hgt
    · have h3 : a' ++ sepPP <+: x ++ ph k :=
        List.prefix_of_prefix_length_le h1 h2 (by simpa [sepPP] using hle)
      have hfi : sepPP <:+: a' ++ sepPP := ⟨a', [], by simp⟩
      exact hXsep (List.IsInfix.trans hfi h3.isInfix)
    · rcases le_or_lt (x ++ ph k).length a'.length with hge | hlt2
      · have h1' : a' <+: x ++ ph k ++ Y := by
          rw [hdec]
          exact ⟨sepPP ++ r', by simp [List.append_assoc]⟩
        have h3 : x ++ ph k <+: a' := List.prefix_of_prefix_length_le h2 h1' hge
        obtain ⟨a'', ha''⟩ := h3
        have hYdec : Y = a'' ++ sepPP ++ r' := by
          have he : (x ++ ph k) ++ Y = (x ++ ph k) ++ (a'' ++ sepPP ++ r') := by
            rw [show (x ++ ph k) ++ Y = x ++ ph k ++ Y from rfl, hdec, ← ha'']
            simp [List.append_assoc]
          exact List.append_cancel_left he
        have hmin := firstSplit_minimal h a'' r' hYdec
        have hlen : a'.length = x.length + (ph k).length + a''.length := by
          rw [← ha'']
          simp only [List.length_append]
        simp only [List.length_append] at hlt
        omega
      · have hj : (x ++ ph k).length - 1 = a'.length := by omega
        have e1 : (x ++ ph k ++ Y)[(x ++ ph k).length - 1]?
            = (x ++ ph k)[(x ++ ph k).length - 1]? :=
          prefix_getElem? h2 (by omega)
        have e2 : (x ++ ph k ++ Y)[(x ++ ph k).length - 1]?
            = (a' ++ sepPP)[(x ++ ph k).length - 1]? :=
          prefix_getElem? h1 (by
            have hlen2 : (a' ++ sepPP).length = a'.length + 2 := by simp [sepPP]
            omega)
        have e3 : (a' ++ sepPP)[(x ++ ph k).length - 1]? = some '\n' := by
          rw [hj, List.getElem?_append, if_neg (by omega), Nat.sub_self]
          rfl
        have e4 : (x ++ ph k)[(x ++ ph k).length - 1]? = some '_' := by
          rw [← List.getLast?_eq_getElem?, xph_getLast]
        rw [e4] at e1
        rw [e3] at e2
        rw [e1] at e2
        cases e2

/-- Prepending separator-free text and a placeholder only extends the first
piece of the blank-line split. -/
theorem splitOn_cons_ph {x Y hd : Str} {k : Nat} {tl : List Str}
    (hx : ¬ sepPP <:+: x) (hY : splitOnStr sepPP Y = hd :: tl) :
    splitOnStr sepPP (x ++ ph k ++ Y) = (x ++ ph k ++ hd) :: tl := by
  have hsepne : sepPP ≠ [] := by simp [sepPP]
  cases hfs : firstSplit sepPP Y with
  | none =>
    have h1 : splitOnStr sepPP Y = [Y] := splitOn_atom hfs
    rw [h1] at hY
    injection hY with h2 h3
    have hnone : firstSplit sepPP (x ++ ph k ++ Y) = none := by
      rw [firstSplit_none_iff]
      exact sep_append_last (sep_not_infix_xph k hx) (firstSplit_none_iff.mp hfs)
        (by rw [xph_getLast]; decide)
    rw [splitOn_atom hnone, h2, ← h3]
  | some ar =>
    obtain ⟨a, r⟩ := ar
    have h2 := firstSplit_append_ph (k := k) hx hfs
    rw [splitOn_step hsepne h2]
    rw [splitOn_step hsepne hfs] at hY
    injection hY with h3 h4
    rw [h3, h4]

/-- Every piece of a split is an infix of the original string. -/
theorem splitOn_piece_inf {sep : Str} (hsep : sep ≠ []) :
    ∀ (s p : Str), p ∈ splitOnStr sep s → p <:+: s := by
  suffices h : ∀ n s, s.length ≤ n → ∀ p, p ∈ splitOnStr sep s → p <:+: s from
    fun s p hp => h s.length s le_rfl p hp
  intro n
  induction n with
  | zero =>
    intro s hs p hp
    have hz : s = [] := List.length_eq_zero.mp (Nat.le_zero.mp hs)
    subst hz
    have hnone : firstSplit sep ([] : Str) = none := by
      rw [firstSplit_none_iff]
      intro hinf
      obtain ⟨u, v, huv⟩ := hinf
      simp at huv
      exact hsep huv.2.1
    rw [splitOn_atom hnone] at hp
    simp at hp
    subst hp
    exact List.infix_refl _
  | succ n ih =>
    intro s hs p hp
    cases hfs : firstSplit sep s with
    | none =>
      rw [splitOn_atom hfs] at hp
      simp at hp
      subst hp
      exact List.infix_refl _
    | some ar =>
      obtain ⟨a, r⟩ := ar
      rw [splitOn_step hsep hfs] at hp
      have hsnd := firstSplit_sound hfs
      rcases List.mem_cons.mp hp with h | h
      · subst h
        exact ⟨[], sep ++ r, by rw [hsnd]; simp [List.append_assoc]⟩
      · have hr : r.length ≤ n := by
          have hpos : 0 < sep.length := List.length_pos.mpr hsep
          rw [hsnd] at hs
          simp [List.length_append] at hs
          omega
        have h5 := ih r hr p h
        apply h5.trans
        exact ⟨a ++ sep, [], by rw [hsnd]; simp [List.append_assoc]⟩

/-- Splitting a placeholder-free protected tail: every piece is a raw piece
with no placeholders. -/
theorem split_mix_nil (k : Nat) (tail : Str) (htail : CBFree tail) :
    ∃ P : List (Str × List (Nat × Str)),
      splitOnStr sepPP (phJoin k [] tail) = P.map (fun rl => rl.1 ++ phMix rl.2) ∧
      (∀ rl ∈ P, CBFree rl.1 ∧ ∀ jr ∈ rl.2, CBFree jr.2) ∧
      (P.map (fun rl => rl.2.map Prod.fst)).join = List.range' k 0 := by
  refine ⟨(splitOnStr sepPP tail).map (fun p => (p, [])), ?_, ?_, ?_⟩
  · symm
    rw [List.map_map]
    have h1 : (splitOnStr sepPP tail).map
        ((fun rl : Str × List (Nat × Str) => rl.1 ++ phMix rl.2) ∘ (fun p => (p, [])))
        = (splitOnStr sepPP tail).map id := by
      apply List.map_congr_left
      intro p _
      simp [phMix]
    rw [h1, List.map_id]
    rfl
  · intro rl hrl
    obtain ⟨p, hp, he⟩ := List.mem_map.mp hrl
    rw [← he]
    refine ⟨?_, by simp⟩
    exact CBFree.of_infix htail (splitOn_piece_inf (by simp [sepPP]) tail p hp)
  · rw [List.map_map]
    have h1 : (splitOnStr sepPP tail).map
        ((fun rl : Str × List (Nat × Str) => rl.2.map Prod.fst) ∘ (fun p => (p, [])))
        = (splitOnStr sepPP tail).map (fun _ => ([] : List Nat)) := by
      apply List.map_congr_left
      intro p _
      simp
    rw [h1]
    show _ = ([] : List Nat)
    simp

/-- The blank-line split of a protected document: every piece is a raw text
followed by a placeholder mix, the raw texts are `CODE_BLOCK`-free, and the
placeholder indices across the pieces are exactly `k, k+1, ...` in order. -/
theorem phJoin_split_mix :
    ∀ (n : Nat) (segs : List (Str × Str)) (k : Nat) (tail : Str),
      (phJoin k segs tail).length ≤ n →
      (∀ pb ∈ segs, CBFree pb.1) → CBFree tail →
      ∃ P : List (Str × List (Nat × Str)),
        splitOnStr sepPP (phJoin k segs tail) = P.map (fun rl => rl.1 ++ phMix rl.2) ∧
        (∀ rl ∈ P, CBFree rl.1 ∧ ∀ jr ∈ rl.2, CBFree jr.2) ∧
        (P.map (fun rl => rl.2.map Prod.fst)).join = List.range' k segs.length := by
  intro n
  induction n with
  | zero =>
    intro segs k tail hn hpre htail
    cases segs with
    | nil => exact split_mix_nil k tail htail
    | cons pb segs' =>
      exfalso
      have h1 : (phJoin k (pb :: segs') tail).length
          = pb.1.length + (ph k).length + (phJoin (k + 1) segs' tail).length := by
        show (pb.1 ++ ph k ++ phJoin (k + 1) segs' tail).length = _
        simp only [List.length_append]
      have h2 : 0 < (ph k).length := List.length_pos.mpr (ph_ne_nil k)
      omega
  | succ n ih =>
    intro segs k tail hn hpre htail
    cases segs with
    | nil => exact split_mix_nil k tail htail
    | cons pb segs' =>
      have hlen1 : (phJoin k (pb :: segs') tail).length
          = pb.1.length + (ph k).length + (phJoin (k + 1) segs' tail).length := by
        show (pb.1 ++ ph k ++ phJoin (k + 1) segs' tail).length = _
        simp only [List.length_append]
      have hsepl : sepPP.length = 2 := rfl
      cases hfs : firstSplit sepPP pb.1 with
      | some ar =>
        obtain ⟨a, r⟩ := ar
        have hsound := firstSplit_sound hfs
        have hfs2 : firstSplit sepPP (phJoin k (pb :: segs') tail)
            = some (a, r ++ (ph k ++ phJoin (k + 1) segs' tail)) := by
          show firstSplit sepPP (pb.1 ++ ph k ++ phJoin (k + 1) segs' tail) = _
          rw [List.append_assoc]
          exact firstSplit_append_left hfs
        have hstep := splitOn_step (by simp [sepPP]) hfs2
        have hreq : r ++ (ph k ++ phJoin (k + 1) segs' tail)
            = phJoin k ((r, pb.2) :: segs') tail := by
          show _ = r ++ ph k ++ phJoin (k + 1) segs' tail
          rw [List.append_assoc]
        have hlen2 : (phJoin k ((r, pb.2) :: segs') tail).length ≤ n := by
          have h3 : (phJoin k ((r, pb.2) :: segs') tail).length
              = r.length + (ph k).length + (phJoin (k + 1) segs' tail).length := by
            show (r ++ ph k ++ phJoin (k + 1) segs' tail).length = _
            simp only [List.length_append]
          have h4 : pb.1.length = a.length + sepPP.length + r.length := by
            rw [hsound]
            simp only [List.length_append]
          omega
        have hpre2 : ∀ qb ∈ (r, pb.2) :: segs', CBFree qb.1 := by
          intro qb hqb
          rcases List.mem_cons.mp hqb with h | h
          · rw [h]
            apply CBFree.of_infix (hpre pb (by simp))
            exact ⟨a ++ sepPP, [], by rw [hsound]; simp [List.append_assoc]⟩
          · exact hpre qb (by simp [h])
        obtain ⟨P, hP1, hP2, hP3⟩ := ih ((r, pb.2) :: segs') k tail hlen2 hpre2 htail
        refine ⟨(a, []) :: P, ?_, ?_, ?_⟩
        · rw [hstep, hreq, hP1]
          show _ = (a ++ phMix []) :: _
          rw [show a ++ phMix [] = a by simp [phMix]]
        · intro rl hrl
          rcases List.mem_cons.mp hrl with h | h
          · rw [h]
            refine ⟨?_, by simp⟩
            apply CBFree.of_infix (hpre pb (by simp))
            exact ⟨[], sepPP ++ r, by rw [hsound]; simp [List.append_assoc]⟩
          · exact hP2 rl h
        · show ([] : List Nat) ++ (P.map (fun rl => rl.2.map Prod.fst)).join = _
          rw [List.nil_append, hP3]
          rfl
      | none =>
        have hx : ¬ sepPP <:+: pb.1 := firstSplit_none_iff.mp hfs
        have hphpos : 0 < (ph k).length := List.length_pos.mpr (ph_ne_nil k)
        have hlen2 : (phJoin (k + 1) segs' tail).length ≤ n := by omega
        have hpre2 : ∀ qb ∈ segs', CBFree qb.1 := fun qb h => hpre qb (by simp [h])
        obtain ⟨P, hP1, hP2, hP3⟩ := ih segs' (k + 1) tail hlen2 hpre2 htail
        cases P with
        | nil =>
          exfalso
          exact splitOn_ne_nil sepPP (phJoin (k + 1) segs' tail) (by simpa using hP1)
        | cons rl0 P1 =>
          have hglue := splitOn_cons_ph (k := k) hx hP1
          refine ⟨(pb.1, (k, rl0.1) :: rl0.2) :: P1, ?_, ?_, ?_⟩
          · show splitOnStr sepPP (pb.1 ++ ph k ++ phJoin (k + 1) segs' tail) = _
            rw [hglue]
            show _ = (pb.1 ++ phMix ((k, rl0.1) :: rl0.2)) :: _
            rw [show pb.1 ++ phMix ((k, rl0.1) :: rl0.2)
                = pb.1 ++ ph k ++ (rl0.1 ++ phMix rl0.2) by
              show pb.1 ++ (ph k ++ (rl0.1 ++ phMix rl0.2)) = _
              simp [List.append_assoc]]
          · intro rl hrl
            rcases List.mem_cons.mp hrl with h | h
            · rw [h]
              refine ⟨hpre pb (by simp), ?_⟩
              intro jr hjr
              rcases List.mem_cons.mp hjr with h2 | h2
              · rw [h2]
                exact (hP2 rl0 (by simp)).1
              · exact (hP2 rl0 (by simp)).2 jr h2
            · exact hP2 rl (by simp [h])
          · show (k :: rl0.2.map Prod.fst)
                ++ (P1.map (fun rl => rl.2.map Prod.fst)).join = _
            have hP3' : rl0.2.map Prod.fst
                ++ (P1.map (fun rl => rl.2.map Prod.fst)).join
                = List.range' (k + 1) segs'.length := hP3
            rw [List.cons_append, hP3']
            rw [show (pb :: segs').length = segs'.length + 1 from rfl, List.range'_succ]

theorem infix_appL {x A : Str} (B : Str) (h : x <:+: A) : x <:+: A ++ B :=
  h.trans ⟨[], B, by simp⟩

theorem infix_appR {x B : Str} (A : Str) (h : x <:+: B) : x <:+: A ++ B :=
  h.trans ⟨A, [], by simp⟩

theorem mem_join_inf {l : List Str} {x : Str} (h : x ∈ l) : x <:+: l.join := by
  obtain ⟨A, B, hAB⟩ := List.append_of_mem h
  rw [hAB]
  refine ⟨A.join, B.join, ?_⟩
  simp [List.append_assoc]

/-- The blocks of a `CODE_BLOCK`-free text are themselves `CODE_BLOCK`-free
and fenced on both ends. -/
theorem blkOf_props (text : Str) (htext : CBFree text) :
    ∀ k ∈ List.range' 0 ((scanFences text).1).length,
      CBFree (blkOf (((scanFences text).1).map (·.2)) k) ∧
      (blkOf (((scanFences text).1).map (·.2)) k)[0]? = some '`' ∧
      (blkOf (((scanFences text).1).map (·.2)) k).getLast? = some '`' := by
  intro k hk
  have hklt : k < ((scanFences text).1).length := by
    have := (List.mem_range'_1.mp hk).2
    omega
  have hmem : blkOf (((scanFences text).1).map (·.2)) k
      ∈ ((scanFences text).1).map (·.2) :=
    blkOf_mem _ k (by simpa using hklt)
  obtain ⟨pb, hpb, hpbe⟩ := List.mem_map.mp hmem
  obtain ⟨⟨m, hm⟩, -, -⟩ := scanFences_inv text pb hpb
  have hinfix : pb.2 <:+: text := by
    have h2 := (segsJoin_mem_inf (scanFences text).1 (scanFences text).2 pb hpb).2
    rw [scanFences_decomp] at h2
    exact h2
  refine ⟨?_, ?_, ?_⟩
  · rw [← hpbe]
    exact CBFree.of_infix htext hinfix
  · rw [← hpbe, hm]
    rfl
  · rw [← hpbe, hm, List.getLast?_append]
    rfl

/-- Restoring a mix piece with the full block map reinstates each referenced
block inside the result. -/
theorem restore_piece_contains (text : Str) (htext : CBFree text)
    (raw : Str) (L : List (Nat × Str))
    (hraw : CBFree raw) (hL : ∀ jr ∈ L, CBFree jr.2)
    (hsub : (L.map Prod.fst).Sublist (List.range' 0 ((scanFences text).1).length)) :
    ∀ jr ∈ L,
      blkOf (((scanFences text).1).map (·.2)) jr.1
        <:+: restore_code_blocks (raw ++ phMix L) (protect_code_blocks text).2 := by
  intro jr hjr
  have hms : (protect_code_blocks text).2
      = (List.range' 0 ((scanFences text).1).length).map
          (fun j => (ph j, blkOf (((scanFences text).1).map (·.2)) j)) := by
    show (List.enumFrom 0 (((scanFences text).1).map (·.2))).map
        (fun ib => (ph ib.1, ib.2)) = _
    rw [enumFrom_map_ph]
    simp
  have hnodup : (List.range' 0 ((scanFences text).1).length).Nodup := by
    apply List.nodup_range' <;> norm_num
  have hmain := restore_fold_mix (blkOf (((scanFences text).1).map (·.2)))
    (List.range' 0 ((scanFences text).1).length) hnodup (blkOf_props text htext)
    L hsub hL raw hraw
  show _ <:+: ((protect_code_blocks text).2).foldl
      (fun acc pb => replaceAll acc pb.1 pb.2) (raw ++ phMix L)
  rw [hms, hmain]
  apply infix_appR
  have hmem : blkOf (((scanFences text).1).map (·.2)) jr.1 ++ jr.2
      ∈ L.map (fun jr => blkOf (((scanFences text).1).map (·.2)) jr.1 ++ jr.2) :=
    List.mem_map_of_mem _ hjr
  exact (infix_appL jr.2 (List.infix_refl _)).trans (mem_join_inf hmem)

/-- One step of the paragraph-accumulation loop of `_split_by_paragraph`. -/
def sppStep (cfg : Cfg) (bm : List (Str × Str))
    (st : List Candidate × List Str × Nat) (para : Str) :
    List Candidate × List Str × Nat :=
  let paraR := restore_code_blocks para bm
  let paraSize := paraR.length
  if cfg.chunk_size < (st.2.2 : Int) + paraSize ∧ st.2.1 ≠ [] then
    (st.1 ++ [mkCand st.2.1], [paraR], paraSize)
  else
    (st.1, st.2.1 ++ [paraR], st.2.2 + paraSize)

theorem split_by_paragraph_eq (cfg : Cfg) (text : Str) :
    split_by_paragraph cfg text =
      (fun st : List Candidate × List Str × Nat =>
        if st.2.1 ≠ [] then st.1 ++ [mkCand st.2.1] else st.1)
      ((splitOnStr sepPP (protect_code_blocks text).1).foldl
        (sppStep cfg (protect_code_blocks text).2) ([], [], 0)) := rfl

theorem mem_joinSep_infix :
    ∀ (buf : List Str) (x : Str), x ∈ buf → x <:+: joinSep sepPP buf := by
  intro buf
  induction buf with
  | nil =>
    intro x h
    cases h
  | cons p ps ih =>
    intro x h
    rcases List.mem_cons.mp h with h | h
    · subst h
      cases ps with
      | nil => exact List.infix_refl _
      | cons q qs =>
        show x <:+: x ++ sepPP ++ joinSep sepPP (q :: qs)
        exact infix_appL _ (infix_appL _ (List.infix_refl _))
    · cases ps with
      | nil => cases h
      | cons q qs =>
        show x <:+: p ++ sepPP ++ joinSep sepPP (q :: qs)
        rw [List.append_assoc]
        exact infix_appR _ (infix_appR _ (ih x h))

/-- Every restored paragraph ends up, as an infix, in the content of some
candidate emitted by the paragraph-accumulation loop. -/
theorem spp_fold_cover :
    ∀ (l : List Str) (cfg : Cfg) (bm : List (Str × Str)) (done : List Candidate)
      (buf : List Str) (size : Nat) (x : Str),
      ((∃ c ∈ done, x <:+: c.content) ∨ x ∈ buf ∨
        ∃ p ∈ l, x = restore_code_blocks p bm) →
      ∃ c ∈ (fun st : List Candidate × List Str × Nat =>
          if st.2.1 ≠ [] then st.1 ++ [mkCand st.2.1] else st.1)
          (l.foldl (sppStep cfg bm) (done, buf, size)),
        x <:+: c.content := by
  intro l
  induction l with
  | nil =>
    intro cfg bm done buf size x h
    rcases h with ⟨c, hc, hx⟩ | h | ⟨p, hp, -⟩
    · refine ⟨c, ?_, hx⟩
      show c ∈ if buf ≠ [] then done ++ [mkCand buf] else done
      split
      · exact List.mem_append_left _ hc
      · exact hc
    · have hbne : buf ≠ [] := List.ne_nil_of_mem h
      refine ⟨mkCand buf, ?_, ?_⟩
      · show mkCand buf ∈ if buf ≠ [] then done ++ [mkCand buf] else done
        rw [if_pos hbne]
        exact List.mem_append_right _ (by simp)
      · exact mem_joinSep_infix buf x h
    · cases hp
  | cons p l ih =>
    intro cfg bm done buf size x h
    rw [List.foldl_cons]
    have hstep : sppStep cfg bm (done, buf, size) p
        = if cfg.chunk_size < (size : Int) + (restore_code_blocks p bm).length ∧ buf ≠ []
          then (done ++ [mkCand buf], [restore_code_blocks p bm],
            (restore_code_blocks p bm).length)
          else (done, buf ++ [restore_code_blocks p bm],
            size + (restore_code_blocks p bm).length) := rfl
    rw [hstep]
    by_cases hc : cfg.chunk_size < (size : Int) + (restore_code_blocks p bm).length ∧ buf ≠ []
    · rw [if_pos hc]
      apply ih
      rcases h with ⟨c, hcm, hx⟩ | h | ⟨q, hq, hx⟩
      · exact Or.inl ⟨c, List.mem_append_left _ hcm, hx⟩
      · exact Or.inl ⟨mkCand buf, List.mem_append_right _ (by simp),
          mem_joinSep_infix buf x h⟩
      · rcases List.mem_cons.mp hq with h1 | h1
        · subst h1
          exact Or.inr (Or.inl (by rw [hx]; simp))
        · exact Or.inr (Or.inr ⟨q, h1, hx⟩)
    · rw [if_neg hc]
      apply ih
      rcases h with ⟨c, hcm, hx⟩ | h | ⟨q, hq, hx⟩
      · exact Or.inl ⟨c, hcm, hx⟩
      · exact Or.inr (Or.inl (List.mem_append_left _ h))
      · rcases List.mem_cons.mp hq with h1 | h1
        · subst h1
          exact Or.inr (Or.inl (List.mem_append_right _ (by rw [hx]; simp)))
        · exact Or.inr (Or.inr ⟨q, h1, hx⟩)

/-- One step of the merge loop of `_merge_short_chunks`. -/
def mergeStep (cfg : Cfg) (st : List Candidate × Candidate) (nxt : Candidate) :
    List Candidate × Candidate :=
  if (st.2.content.length : Int) + nxt.content.length ≤ cfg.chunk_size then
    (st.1, ⟨st.2.content ++ sepPP ++ nxt.content, st.2.heading_info⟩)
  else (st.1 ++ [st.2], nxt)

theorem merge_fold_cover :
    ∀ (rest : List Candidate) (cfg : Cfg) (done : List Candidate) (cur : Candidate)
      (x : Str),
      ((∃ c ∈ done, x <:+: c.content) ∨ x <:+: cur.content ∨
        ∃ c ∈ rest, x <:+: c.content) →
      ∃ c ∈ (rest.foldl (mergeStep cfg) (done, cur)).1
          ++ [(rest.foldl (mergeStep cfg) (done, cur)).2],
        x <:+: c.content := by
  intro rest
  induction rest with
  | nil =>
    intro cfg done cur x h
    rcases h with ⟨c, hc, hx⟩ | h | ⟨c, hc, -⟩
    · exact ⟨c, List.mem_append_left _ hc, hx⟩
    · exact ⟨cur, List.mem_append_right _ (by simp), h⟩
    · cases hc
  | cons nxt rest ih =>
    intro cfg done cur x h
    rw [List.foldl_cons]
    have hstep : mergeStep cfg (done, cur) nxt
        = if (cur.content.length : Int) + nxt.content.length ≤ cfg.chunk_size
          then (done, ⟨cur.content ++ sepPP ++ nxt.content, cur.heading_info⟩)
          else (done ++ [cur], nxt) := rfl
    rw [hstep]
    by_cases hc : (cur.content.length : Int) + nxt.content.length ≤ cfg.chunk_size
    · rw [if_pos hc]
      apply ih
      rcases h with ⟨c, hcm, hx⟩ | h | ⟨c, hcm, hx⟩
      · exact Or.inl ⟨c, hcm, hx⟩
      · exact Or.inr (Or.inl (infix_appL _ (infix_appL _ h)))
      · rcases List.mem_cons.mp hcm with h1 | h1
        · refine Or.inr (Or.inl ?_)
          show x <:+: cur.content ++ sepPP ++ nxt.content
          rw [List.append_assoc]
          exact infix_appR _ (infix_appR _ (h1 ▸ hx))
        · exact Or.inr (Or.inr ⟨c, h1, hx⟩)
    · rw [if_neg hc]
      apply ih
      rcases h with ⟨c, hcm, hx⟩ | h | ⟨c, hcm, hx⟩
      · exact Or.inl ⟨c, List.mem_append_left _ hcm, hx⟩
      · exact Or.inl ⟨cur, List.mem_append_right _ (by simp), h⟩
      · rcases List.mem_cons.mp hcm with h1 | h1
        · exact Or.inr (Or.inl (h1 ▸ hx))
        · exact Or.inr (Or.inr ⟨c, h1, hx⟩)

theorem merge_cover (cfg : Cfg) (cands : List Candidate) (x : Str)
    (h : ∃ c ∈ cands, x <:+: c.content) :
    ∃ c ∈ merge_short_chunks cfg cands, x <:+: c.content := by
  cases cands with
  | nil =>
    obtain ⟨c, hc, -⟩ := h
    cases hc
  | cons c0 rest =>
    show ∃ c ∈ (rest.foldl (mergeStep cfg) ([], c0)).1
        ++ [(rest.foldl (mergeStep cfg) ([], c0)).2], x <:+: c.content
    apply merge_fold_cover
    obtain ⟨c, hc, hx⟩ := h
    rcases List.mem_cons.mp hc with h1 | h1
    · exact Or.inr (Or.inl (h1 ▸ hx))
    · exact Or.inr (Or.inr ⟨c, h1, hx⟩)

theorem enumFrom_mem_of_mem {α : Type} :
    ∀ (l : List α) (k : Nat) (c : α), c ∈ l → ∃ i, (i, c) ∈ List.enumFrom k l := by
  intro l
  induction l with
  | nil =>
    intro k c h
    cases h
  | cons a l ih =>
    intro k c h
    rcases List.mem_cons.mp h with h1 | h1
    · exact ⟨k, by rw [h1]; show _ ∈ (k, a) :: _; simp⟩
    · obtain ⟨i, hi⟩ := ih (k + 1) c h1
      exact ⟨i, by show _ ∈ (k, a) :: _; exact List.mem_cons_of_mem _ hi⟩

/-- Overlap injection only extends chunk contents on both sides. -/
theorem overlap_cover (cfg : Cfg) (cs : List Candidate) (c : Candidate) (hc : c ∈ cs) :
    ∃ c2 ∈ apply_overlap cfg cs, c.content <:+: c2.content := by
  unfold apply_overlap
  by_cases hlen : cs.length ≤ 1
  · rw [if_pos hlen]
    exact ⟨c, hc, List.infix_refl _⟩
  · rw [if_neg hlen]
    obtain ⟨i, hi⟩ := enumFrom_mem_of_mem cs 0 c hc
    refine ⟨_, List.mem_map_of_mem _ hi, ?_⟩
    dsimp only
    have hbase : c.content <:+:
        (if 0 < i then
          tailLines cfg.chunk_overlap ((cs.getD (i - 1) default).content)
            ++ sepPP ++ c.content
        else c.content) := by
      split
      · rw [List.append_assoc]
        exact infix_appR _ (infix_appR _ (List.infix_refl _))
      · exact List.infix_refl _
    split
    · exact infix_appL _ (infix_appL _ hbase)
    · exact hbase

/-- The resolver appends one chunk whose content contains the candidate's
content. -/
theorem resolveStep_cover (headings : List Heading) (fn fp : Str)
    (st : Option (List (Nat × Str)) × List Chunk) (ic : Nat × Candidate) (x : Str)
    (h : (∃ ch ∈ st.2, x <:+: ch.content) ∨ x <:+: ic.2.content) :
    ∃ ch ∈ (resolveStep headings fn fp st ic).2, x <:+: ch.content := by
  unfold resolveStep
  dsimp only
  rcases h with ⟨ch, hch, hx⟩ | hx
  · exact ⟨ch, List.mem_append_left _ hch, hx⟩
  · refine ⟨_, List.mem_append_right _ (List.mem_singleton_self _), ?_⟩
    show x <:+: _
    split
    · split
      · exact hx
      · refine hx.trans ⟨"[Context: ".data ++ fn ++ " > ".data
          ++ joinSep " > ".data ((st.1.getD []).map (fun y => y.2)) ++ "]".data ++ sepPP,
          [], ?_⟩
        simp [List.append_assoc]
    · exact hx

theorem resolve_fold_cover :
    ∀ (l : List (Nat × Candidate)) (headings : List Heading) (fn fp : Str)
      (st : Option (List (Nat × Str)) × List Chunk) (x : Str),
      ((∃ ch ∈ st.2, x <:+: ch.content) ∨ ∃ ic ∈ l, x <:+: ic.2.content) →
      ∃ ch ∈ (l.foldl (resolveStep headings fn fp) st).2, x <:+: ch.content := by
  intro l
  induction l with
  | nil =>
    intro headings fn fp st x h
    rcases h with h | ⟨ic, hic, -⟩
    · exact h
    · cases hic
  | cons ic0 l ih =>
    intro headings fn fp st x h
    rw [List.foldl_cons]
    apply ih
    rcases h with ⟨ch, hch, hx⟩ | ⟨ic, hic, hx⟩
    · exact Or.inl (resolveStep_cover headings fn fp st ic0 x (Or.inl ⟨ch, hch, hx⟩))
    · rcases List.mem_cons.mp hic with h1 | h1
      · exact Or.inl (resolveStep_cover headings fn fp st ic0 x (Or.inr (h1 ▸ hx)))
      · exact Or.inr ⟨ic, h1, hx⟩

/-- With an empty heading list (the paragraph path) and a text that does not
contain the substring `CODE_BLOCK`, every fenced code block of the input is an
infix of a single returned chunk. -/
theorem fenced_block_in_single_chunk (cfg : Cfg) (text fn fp : Str)
    (htext : CBFree text) :
    ∀ b ∈ ((scanFences text).1).map Prod.snd,
      ∃ ch ∈ chunk_by_headings cfg text [] fn fp, b <:+: ch.content := by
  intro b hb
  obtain ⟨pb, hpb, hpbe⟩ := List.mem_map.mp hb
  obtain ⟨⟨j, hj⟩, hget⟩ := List.mem_iff_get.mp hpb
  have hbj : blkOf (((scanFences text).1).map (·.2)) j = b := by
    rw [blkOf_map_snd _ j hj, hget]
    exact hpbe
  have hdecomp := scanFences_decomp text
  have hpres : ∀ qb ∈ (scanFences text).1, CBFree qb.1 := by
    intro qb hqb
    apply CBFree.of_infix htext
    have h2 := (segsJoin_mem_inf (scanFences text).1 (scanFences text).2 qb hqb).1
    rw [hdecomp] at h2
    exact h2
  have htl : CBFree (scanFences text).2 := by
    apply CBFree.of_infix htext
    have h2 := (segsJoin_tail_suffix (scanFences text).1 (scanFences text).2).isInfix
    rw [hdecomp] at h2
    exact h2
  obtain ⟨P, hP1, hP2, hP3⟩ := phJoin_split_mix
    (phJoin 0 (scanFences text).1 (scanFences text).2).length
    (scanFences text).1 0 (scanFences text).2 le_rfl hpres htl
  have hjmem : j ∈ (P.map (fun rl => rl.2.map Prod.fst)).join := by
    rw [hP3, List.mem_range'_1]
    omega
  obtain ⟨li, hli, hjli⟩ := List.mem_join.mp hjmem
  obtain ⟨rl, hrl, hrle⟩ := List.mem_map.mp hli
  rw [← hrle] at hjli
  obtain ⟨jr, hjr, hjre⟩ := List.mem_map.mp hjli
  have hsubJ : (rl.2.map Prod.fst).Sublist
      (List.range' 0 ((scanFences text).1).length) := by
    rw [← hP3]
    obtain ⟨A, B, hAB⟩ := List.append_of_mem hrl
    rw [hAB]
    apply List.IsInfix.sublist
    refine ⟨(A.map (fun rl => rl.2.map Prod.fst)).join,
      (B.map (fun rl => rl.2.map Prod.fst)).join, ?_⟩
    simp [List.append_assoc]
  have hcontains := restore_piece_contains text htext rl.1 rl.2
    (hP2 rl hrl).1 (hP2 rl hrl).2 hsubJ jr hjr
  rw [hjre, hbj] at hcontains
  have hpiece : rl.1 ++ phMix rl.2 ∈ splitOnStr sepPP (protect_code_blocks text).1 := by
    rw [protect_fst_eq, hP1]
    exact List.mem_map_of_mem _ hrl
  have hx1 : ∃ c ∈ split_by_paragraph cfg text,
      restore_code_blocks (rl.1 ++ phMix rl.2) (protect_code_blocks text).2
        <:+: c.content := by
    rw [split_by_paragraph_eq]
    apply spp_fold_cover
    exact Or.inr (Or.inr ⟨rl.1 ++ phMix rl.2, hpiece, rfl⟩)
  obtain ⟨c1, hc1, hx1'⟩ := hx1
  have hb1 : b <:+: c1.content := hcontains.trans hx1'
  obtain ⟨c2, hc2, hb2⟩ := merge_cover cfg (split_by_paragraph cfg text) b ⟨c1, hc1, hb1⟩
  have hover : ∃ c3 ∈ (if 0 < cfg.chunk_overlap ∧
        1 < (merge_short_chunks cfg (split_by_paragraph cfg text)).length
      then apply_overlap cfg (merge_short_chunks cfg (split_by_paragraph cfg text))
      else merge_short_chunks cfg (split_by_paragraph cfg text)),
      b <:+: c3.content := by
    split
    · obtain ⟨c3, hc3, hx3⟩ := overlap_cover cfg _ c2 hc2
      exact ⟨c3, hc3, hb2.trans hx3⟩
    · exact ⟨c2, hc2, hb2⟩
  obtain ⟨c3, hc3, hb3⟩ := hover
  obtain ⟨i, hi⟩ := enumFrom_mem_of_mem _ 0 c3 hc3
  have hgoal : chunk_by_headings cfg text [] fn fp
      = ((if 0 < cfg.chunk_overlap ∧
            1 < (merge_short_chunks cfg (split_by_paragraph cfg text)).length
          then apply_overlap cfg (merge_short_chunks cfg (split_by_paragraph cfg text))
          else merge_short_chunks cfg (split_by_paragraph cfg text)).enum.foldl
          (resolveStep [] fn fp) (none, [])).2 := rfl
  rw [hgoal]
  apply resolve_fold_cover
  exact Or.inr ⟨(i, c3), hi, hb3⟩

/-- C2 counterexample: headings inside a fenced block make the heading-based
splitter cut straight through the fence pair: on this input the single fenced
block is contained in no returned chunk. -/
theorem fenced_block_split_cex :
    ∃ b ∈ ((scanFences ("# A\n```\n# B\n```".data)).1).map Prod.snd,
      ∀ ch ∈ chunk_by_headings ⟨7, 0⟩ ("# A\n```\n# B\n```".data)
          [(0, 1, "A".data), (2, 1, "B".data)] ("f".data) ("d.md".data),
        ¬ b <:+: ch.content := by
  decide

/-- C2 amended: when chunking takes the paragraph path (empty heading list)
and the text does not contain the substring `CODE_BLOCK`, no fenced code
block is ever split across chunks: every block matched by the code-fence
scanner lies inside a single returned chunk. -/
theorem fenced_blocks_never_split (cfg : Cfg) (text fn fp : Str)
    (htext : CBFree text) :
    ∀ b ∈ ((scanFences text).1).map Prod.snd,
      ∃ ch ∈ chunk_by_headings cfg text [] fn fp, b <:+: ch.content :=
  fenced_block_in_single_chunk cfg text fn fp htext

/-- Witness for C2 at a concrete document whose fenced block spans a blank
line. -/
theorem fenced_blocks_never_split_witness :
    CBFree ("p1\n\n```\na\n\nb\n```\n\np2".data) ∧
      ∀ b ∈ ((scanFences ("p1\n\n```\na\n\nb\n```\n\np2".data)).1).map Prod.snd,
        ∃ ch ∈ chunk_by_headings ⟨6, 0⟩ ("p1\n\n```\na\n\nb\n```\n\np2".data) []
            ("f".data) ("d.md".data), b <:+: ch.content :=
  ⟨show ¬ cb <:+: _ by decide,
   fenced_blocks_never_split ⟨6, 0⟩ _ _ _ (show ¬ cb <:+: _ by decide)⟩

theorem joinSep_head_append (sep x B : Str) (rest : List Str) :
    joinSep sep ((x ++ B) :: rest) = x ++ joinSep sep (B :: rest) := by
  cases rest with
  | nil => rfl
  | cons y ys =>
    show (x ++ B) ++ sep ++ joinSep sep (y :: ys)
      = x ++ (B ++ sep ++ joinSep sep (y :: ys))
    simp [List.append_assoc]

/-- The splitting of `phJoin_split_mix` together with the reconstruction
equation: substituting the blocks back into the pieces and joining them with
a blank line rebuilds the unprotected document. -/
theorem split_recon_nil (k : Nat) (tail : Str) (blk : Nat → Str)
    (htail : CBFree tail) :
    ∃ P : List (Str × List (Nat × Str)),
      splitOnStr sepPP (phJoin k [] tail) = P.map (fun rl => rl.1 ++ phMix rl.2) ∧
      (∀ rl ∈ P, CBFree rl.1 ∧ ∀ jr ∈ rl.2, CBFree jr.2) ∧
      (P.map (fun rl => rl.2.map Prod.fst)).join = List.range' k 0 ∧
      joinSep sepPP (P.map (fun rl =>
          rl.1 ++ (rl.2.map (fun jr => blk jr.1 ++ jr.2)).join))
        = segsJoin [] tail := by
  refine ⟨(splitOnStr sepPP tail).map (fun p => (p, [])), ?_, ?_, ?_, ?_⟩
  · symm
    rw [List.map_map]
    have h1 : (splitOnStr sepPP tail).map
        ((fun rl : Str × List (Nat × Str) => rl.1 ++ phMix rl.2) ∘ (fun p => (p, [])))
        = (splitOnStr sepPP tail).map id := by
      apply List.map_congr_left
      intro p _
      simp [phMix]
    rw [h1, List.map_id]
    rfl
  · intro rl hrl
    obtain ⟨p, hp, he⟩ := List.mem_map.mp hrl
    rw [← he]
    refine ⟨?_, by simp⟩
    exact CBFree.of_infix htail (splitOn_piece_inf (by simp [sepPP]) tail p hp)
  · rw [List.map_map]
    have h1 : (splitOnStr sepPP tail).map
        ((fun rl : Str × List (Nat × Str) => rl.2.map Prod.fst) ∘ (fun p => (p, [])))
        = (splitOnStr sepPP tail).map (fun _ => ([] : List Nat)) := by
      apply List.map_congr_left
      intro p _
      simp
    rw [h1]
    show _ = ([] : List Nat)
    simp
  · rw [List.map_map]
    have h1 : (splitOnStr sepPP tail).map
        ((fun rl : Str × List (Nat × Str) =>
          rl.1 ++ (rl.2.map (fun jr => blk jr.1 ++ jr.2)).join) ∘ (fun p => (p, [])))
        = (splitOnStr sepPP tail).map id := by
      apply List.map_congr_left
      intro p _
      simp
    rw [h1, List.map_id]
    show joinSep sepPP (splitOnStr sepPP tail) = tail
    exact joinSep_splitOn (by simp [sepPP]) tail

theorem phJoin_split_recon :
    ∀ (n : Nat) (segs : List (Str × Str)) (k : Nat) (tail : Str) (blk : Nat → Str),
      (phJoin k segs tail).length ≤ n →
      (∀ pb ∈ segs, CBFree pb.1) → CBFree tail →
      (∀ (i : Nat) (h : i < segs.length), blk (k + i) = (segs.get ⟨i, h⟩).2) →
      ∃ P : List (Str × List (Nat × Str)),
        splitOnStr sepPP (phJoin k segs tail) = P.map (fun rl => rl.1 ++ phMix rl.2) ∧
        (∀ rl ∈ P, CBFree rl.1 ∧ ∀ jr ∈ rl.2, CBFree jr.2) ∧
        (P.map (fun rl => rl.2.map Prod.fst)).join = List.range' k segs.length ∧
        joinSep sepPP (P.map (fun rl =>
            rl.1 ++ (rl.2.map (fun jr => blk jr.1 ++ jr.2)).join))
          = segsJoin segs tail := by
  intro n
  induction n with
  | zero =>
    intro segs k tail blk hn hpre htail hblk
    cases segs with
    | nil => exact split_recon_nil k tail blk htail
    | cons pb segs' =>
      exfalso
      have h1 : (phJoin k (pb :: segs') tail).length
          = pb.1.length + (ph k).length + (phJoin (k + 1) segs' tail).length := by
        show (pb.1 ++ ph k ++ phJoin (k + 1) segs' tail).length = _
        simp only [List.length_append]
      have h2 : 0 < (ph k).length := List.length_pos.mpr (ph_ne_nil k)
      omega
  | succ n ih =>
    intro segs k tail blk hn hpre htail hblk
    cases segs with
    | nil => exact split_recon_nil k tail blk htail
    | cons pb segs' =>
      have hlen1 : (phJoin k (pb :: segs') tail).length
          = pb.1.length + (ph k).length + (phJoin (k + 1) segs' tail).length := by
        show (pb.1 ++ ph k ++ phJoin (k + 1) segs' tail).length = _
        simp only [List.length_append]
      have hblk0 : blk k = pb.2 := by
        have := hblk 0 (by simp)
        simpa using this
      cases hfs : firstSplit sepPP pb.1 with
      | some ar =>
        obtain ⟨a, r⟩ := ar
        have hsound := firstSplit_sound hfs
        have hfs2 : firstSplit sepPP (phJoin k (pb :: segs') tail)
            = some (a, r ++ (ph k ++ phJoin (k + 1) segs' tail)) := by
          show firstSplit sepPP (pb.1 ++ ph k ++ phJoin (k + 1) segs' tail) = _
          rw [List.append_assoc]
          exact firstSplit_append_left hfs
        have hstep := splitOn_step (by simp [sepPP]) hfs2
        have hreq : r ++ (ph k ++ phJoin (k + 1) segs' tail)
            = phJoin k ((r, pb.2) :: segs') tail := by
          show _ = r ++ ph k ++ phJoin (k + 1) segs' tail
          rw [List.append_assoc]
        have hlen2 : (phJoin k ((r, pb.2) :: segs') tail).length ≤ n := by
          have h3 : (phJoin k ((r, pb.2) :: segs') tail).length
              = r.length + (ph k).length + (phJoin (k + 1) segs' tail).length := by
            show (r ++ ph k ++ phJoin (k + 1) segs' tail).length = _
            simp only [List.length_append]
          have h4 : pb.1.length = a.length + sepPP.length + r.length := by
            rw [hsound]
            simp only [List.length_append]
          have h5 : sepPP.length = 2 := rfl
          omega
        have hpre2 : ∀ qb ∈ (r, pb.2) :: segs', CBFree qb.1 := by
          intro qb hqb
          rcases List.mem_cons.mp hqb with h | h
          · rw [h]
            apply CBFree.of_infix (hpre pb (by simp))
            exact ⟨a ++ sepPP, [], by rw [hsound]; simp [List.append_assoc]⟩
          · exact hpre qb (by simp [h])
        have hblk2 : ∀ (i : Nat) (h : i < ((r, pb.2) :: segs').length),
            blk (k + i) = (((r, pb.2) :: segs').get ⟨i, h⟩).2 := by
          intro i h
          cases i with
          | zero => exact hblk0
          | succ i => exact hblk (i + 1) (by simpa using h)
        obtain ⟨P, hP1, hP2, hP3, hP4⟩ := ih ((r, pb.2) :: segs') k tail blk hlen2
          hpre2 htail hblk2
        have hPne : P ≠ [] := by
          intro h0
          rw [h0] at hP1
          exact splitOn_ne_nil sepPP (phJoin k ((r, pb.2) :: segs') tail)
            (by simpa using hP1)
        refine ⟨(a, []) :: P, ?_, ?_, ?_, ?_⟩
        · rw [hstep, hreq, hP1]
          show _ = (a ++ phMix []) :: _
          rw [show a ++ phMix [] = a by simp [phMix]]
        · intro rl hrl
          rcases List.mem_cons.mp hrl with h | h
          · rw [h]
            refine ⟨?_, by simp⟩
            apply CBFree.of_infix (hpre pb (by simp))
            exact ⟨[], sepPP ++ r, by rw [hsound]; simp [List.append_assoc]⟩
          · exact hP2 rl h
        · show ([] : List Nat) ++ (P.map (fun rl => rl.2.map Prod.fst)).join = _
          rw [List.nil_append, hP3]
          rfl
        · have hmapne : P.map (fun rl =>
              rl.1 ++ (rl.2.map (fun jr => blk jr.1 ++ jr.2)).join) ≠ [] := by
            intro h0
            exact hPne (List.map_eq_nil.mp h0)
          show joinSep sepPP ((a ++ ([] : List Str).join) :: _) = _
          rw [show a ++ ([] : List Str).join = a by simp]
          cases hP : P.map (fun rl =>
              rl.1 ++ (rl.2.map (fun jr => blk jr.1 ++ jr.2)).join) with
          | nil => exact absurd hP hmapne
          | cons q qs =>
            rw [joinSep_cons (by simp)]
            rw [← hP, hP4]
            show _ = pb.1 ++ pb.2 ++ segsJoin segs' tail
            rw [hsound]
            show a ++ sepPP ++ (r ++ pb.2 ++ segsJoin segs' tail) = _
            simp [List.append_assoc]
      | none =>
        have hx : ¬ sepPP <:+: pb.1 := firstSplit_none_iff.mp hfs
        have hphpos : 0 < (ph k).length := List.length_pos.mpr (ph_ne_nil k)
        have hlen2 : (phJoin (k + 1) segs' tail).length ≤ n := by omega
        have hpre2 : ∀ qb ∈ segs', CBFree qb.1 := fun qb h => hpre qb (by simp [h])
        have hblk2 : ∀ (i : Nat) (h : i < segs'.length),
            blk (k + 1 + i) = (segs'.get ⟨i, h⟩).2 := by
          intro i h
          have h1 := hblk (i + 1) (by simpa using Nat.succ_lt_succ h)
          rw [show k + (i + 1) = k + 1 + i by omega] at h1
          exact h1
        obtain ⟨P, hP1, hP2, hP3, hP4⟩ := ih segs' (k + 1) tail blk hlen2 hpre2
          htail hblk2
        cases P with
        | nil =>
          exfalso
          exact splitOn_ne_nil sepPP (phJoin (k + 1) segs' tail) (by simpa using hP1)
        | cons rl0 P1 =>
          have hglue := splitOn_cons_ph (k := k) hx hP1
          refine ⟨(pb.1, (k, rl0.1) :: rl0.2) :: P1, ?_, ?_, ?_, ?_⟩
          · show splitOnStr sepPP (pb.1 ++ ph k ++ phJoin (k + 1) segs' tail) = _
            rw [hglue]
            show _ = (pb.1 ++ phMix ((k, rl0.1) :: rl0.2)) :: _
            rw [show pb.1 ++ phMix ((k, rl0.1) :: rl0.2)
                = pb.1 ++ ph k ++ (rl0.1 ++ phMix rl0.2) by
              show pb.1 ++ (ph k ++ (rl0.1 ++ phMix rl0.2)) = _
              simp [List.append_assoc]]
          · intro rl hrl
            rcases List.mem_cons.mp hrl with h | h
            · rw [h]
              refine ⟨hpre pb (by simp), ?_⟩
              intro jr hjr
              rcases List.mem_cons.mp hjr with h2 | h2
              · rw [h2]
                exact (hP2 rl0 (by simp)).1
              · exact (hP2 rl0 (by simp)).2 jr h2
            · exact hP2 rl (by simp [h])
          · show (k :: rl0.2.map Prod.fst)
                ++ (P1.map (fun rl => rl.2.map Prod.fst)).join = _
            have hP3' : rl0.2.map Prod.fst
                ++ (P1.map (fun rl => rl.2.map Prod.fst)).join
                = List.range' (k + 1) segs'.length := hP3
            rw [List.cons_append, hP3']
            rw [show (pb :: segs').length = segs'.length + 1 from rfl, List.range'_succ]
          · show joinSep sepPP
                ((pb.1 ++ ((blk k ++ rl0.1)
                    ++ (rl0.2.map (fun jr => blk jr.1 ++ jr.2)).join))
                  :: P1.map (fun rl =>
                    rl.1 ++ (rl.2.map (fun jr => blk jr.1 ++ jr.2)).join)) = _
            rw [show pb.1 ++ ((blk k ++ rl0.1)
                  ++ (rl0.2.map (fun jr => blk jr.1 ++ jr.2)).join)
                = (pb.1 ++ blk k)
                  ++ (rl0.1 ++ (rl0.2.map (fun jr => blk jr.1 ++ jr.2)).join) by
              simp [List.append_assoc]]
            rw [joinSep_head_append]
            have hP4' : joinSep sepPP
                ((rl0.1 ++ (rl0.2.map (fun jr => blk jr.1 ++ jr.2)).join)
                  :: P1.map (fun rl =>
                    rl.1 ++ (rl.2.map (fun jr => blk jr.1 ++ jr.2)).join))
                = segsJoin segs' tail := hP4
            rw [hP4', hblk0]
            show pb.1 ++ pb.2 ++ segsJoin segs' tail = _
            simp [segsJoin, List.append_assoc]

theorem piece_sublist {P : List (Str × List (Nat × Str))} {rl : Str × List (Nat × Str)}
    (hrl : rl ∈ P) {k len : Nat}
    (hP3 : (P.map (fun rl => rl.2.map Prod.fst)).join = List.range' k len) :
    (rl.2.map Prod.fst).Sublist (List.range' k len) := by
  rw [← hP3]
  obtain ⟨A, B, hAB⟩ := List.append_of_mem hrl
  rw [hAB]
  apply List.IsInfix.sublist
  refine ⟨(A.map (fun rl => rl.2.map Prod.fst)).join,
    (B.map (fun rl => rl.2.map Prod.fst)).join, ?_⟩
  simp [List.append_assoc]

/-- Restoration of a mix piece with the full block map, as an equation. -/
theorem restore_piece_eq (text : Str) (htext : CBFree text)
    (raw : Str) (L : List (Nat × Str))
    (hraw : CBFree raw) (hL : ∀ jr ∈ L, CBFree jr.2)
    (hsub : (L.map Prod.fst).Sublist (List.range' 0 ((scanFences text).1).length)) :
    restore_code_blocks (raw ++ phMix L) (protect_code_blocks text).2
      = raw ++ (L.map (fun jr =>
          blkOf (((scanFences text).1).map (·.2)) jr.1 ++ jr.2)).join := by
  have hms : (protect_code_blocks text).2
      = (List.range' 0 ((scanFences text).1).length).map
          (fun j => (ph j, blkOf (((scanFences text).1).map (·.2)) j)) := by
    show (List.enumFrom 0 (((scanFences text).1).map (·.2))).map
        (fun ib => (ph ib.1, ib.2)) = _
    rw [enumFrom_map_ph]
    simp
  have hnodup : (List.range' 0 ((scanFences text).1).length).Nodup := by
    apply List.nodup_range' <;> norm_num
  have hmain := restore_fold_mix (blkOf (((scanFences text).1).map (·.2)))
    (List.range' 0 ((scanFences text).1).length) hnodup (blkOf_props text htext)
    L hsub hL raw hraw
  show ((protect_code_blocks text).2).foldl
      (fun acc pb => replaceAll acc pb.1 pb.2) (raw ++ phMix L) = _
  rw [hms, hmain]

/-- Joining the restored paragraphs with a blank line rebuilds the text. -/
theorem paragraphs_restore_join (text : Str) (htext : CBFree text) :
    joinSep sepPP ((splitOnStr sepPP (protect_code_blocks text).1).map
      (fun p => restore_code_blocks p (protect_code_blocks text).2)) = text := by
  have hdecomp := scanFences_decomp text
  have hpres : ∀ qb ∈ (scanFences text).1, CBFree qb.1 := by
    intro qb hqb
    apply CBFree.of_infix htext
    have h2 := (segsJoin_mem_inf (scanFences text).1 (scanFences text).2 qb hqb).1
    rw [hdecomp] at h2
    exact h2
  have htl : CBFree (scanFences text).2 := by
    apply CBFree.of_infix htext
    have h2 := (segsJoin_tail_suffix (scanFences text).1 (scanFences text).2).isInfix
    rw [hdecomp] at h2
    exact h2
  have hblkal : ∀ (i : Nat) (h : i < ((scanFences text).1).length),
      blkOf (((scanFences text).1).map (·.2)) (0 + i)
        = (((scanFences text).1).get ⟨i, h⟩).2 := by
    intro i h
    rw [Nat.zero_add]
    exact blkOf_map_snd _ i h
  obtain ⟨P, hP1, hP2, hP3, hP4⟩ := phJoin_split_recon
    (phJoin 0 (scanFences text).1 (scanFences text).2).length
    (scanFences text).1 0 (scanFences text).2
    (blkOf (((scanFences text).1).map (·.2))) le_rfl hpres htl hblkal
  rw [protect_fst_eq, hP1, List.map_map]
  have hmapeq : P.map ((fun p => restore_code_blocks p (protect_code_blocks text).2)
        ∘ (fun rl => rl.1 ++ phMix rl.2))
      = P.map (fun rl =>
          rl.1 ++ (rl.2.map (fun jr =>
            blkOf (((scanFences text).1).map (·.2)) jr.1 ++ jr.2)).join) := by
    apply List.map_congr_left
    intro rl hrl
    show restore_code_blocks (rl.1 ++ phMix rl.2) (protect_code_blocks text).2 = _
    exact restore_piece_eq text htext rl.1 rl.2 (hP2 rl hrl).1 (hP2 rl hrl).2
      (piece_sublist hrl hP3)
  rw [hmapeq, hP4]
  exact hdecomp

theorem joinSep_append (sep : Str) :
    ∀ (g h : List Str), g ≠ [] → h ≠ [] →
      joinSep sep (g ++ h) = joinSep sep g ++ sep ++ joinSep sep h := by
  intro g
  induction g with
  | nil =>
    intro h hg _
    exact absurd rfl hg
  | cons p g' ih =>
    intro h _ hh
    cases g' with
    | nil =>
      show joinSep sep (p :: h) = p ++ sep ++ joinSep sep h
      exact joinSep_cons hh
    | cons q g'' =>
      have h1 : joinSep sep (p :: (q :: g'' ++ h))
          = p ++ sep ++ joinSep sep (q :: g'' ++ h) := joinSep_cons (by simp)
      have h2 : joinSep sep (p :: q :: g'')
          = p ++ sep ++ joinSep sep (q :: g'') := joinSep_cons (by simp)
      show joinSep sep (p :: (q :: g'' ++ h)) = _
      rw [h1, ih h (by simp) hh, h2]
      simp [List.append_assoc]

theorem joinSep_join (sep : Str) :
    ∀ (gs : List (List Str)), (∀ g ∈ gs, g ≠ []) →
      joinSep sep (gs.map (joinSep sep)) = joinSep sep gs.join := by
  intro gs
  induction gs with
  | nil =>
    intro _
    rfl
  | cons g gs ih
 =>
    intro hne
    cases gs with
    | nil =>
      show joinSep sep [joinSep sep g] = joinSep sep (g ++ [])
      rw [List.append_nil]
      rfl
    | cons g2 gs' =>
      have h1 : joinSep sep (joinSep sep g :: (g2 :: gs').map (joinSep sep))
          = joinSep sep g ++ sep ++ joinSep sep ((g2 :: gs').map (joinSep sep)) :=
        joinSep_cons (by simp)
      show joinSep sep (joinSep sep g :: (g2 :: gs').map (joinSep sep)) = _
      rw [h1, ih (fun x hx => hne x (by simp [hx]))]
      have hgne : g ≠ [] := hne g (by simp)
      have hjne : (g2 :: gs').join ≠ [] := by
        have hg2 : g2 ≠ [] := hne g2 (by simp)
        show g2 ++ gs'.join ≠ []
        intro h0
        rw [List.append_eq_nil] at h0
        exact hg2 h0.1
      rw [show (g :: g2 :: gs').join = g ++ (g2 :: gs').join from rfl,
        joinSep_append sep g ((g2 :: gs').join) hgne hjne]

/-- The paragraph-accumulation loop partitions the restored paragraphs into
consecutive non-empty groups. -/
theorem spp_fold_partition :
    ∀ (l : List Str) (cfg : Cfg) (bm : List (Str × Str)) (done : List Candidate)
      (buf : List Str) (size : Nat),
      ∃ (groups : List (List Str)) (bufE : List Str),
        (l.foldl (sppStep cfg bm) (done, buf, size)).1 = done ++ groups.map mkCand ∧
        (l.foldl (sppStep cfg bm) (done, buf, size)).2.1 = bufE ∧
        (∀ g ∈ groups, g ≠ []) ∧
        groups.join ++ bufE = buf ++ l.map (fun p => restore_code_blocks p bm) ∧
        (bufE = [] → groups = [] ∧ buf = [] ∧ l = []) := by
  intro l
  induction l with
  | nil =>
    intro cfg bm done buf size
    exact ⟨[], buf, by simp, rfl, by simp, by simp, fun h => ⟨rfl, h, rfl⟩⟩
  | cons p l ih =>
    intro cfg bm done buf size
    rw [List.foldl_cons]
    have hstep : sppStep cfg bm (done, buf, size) p
        = if cfg.chunk_size < (size : Int) + (restore_code_blocks p bm).length ∧ buf ≠ []
          then (done ++ [mkCand buf], [restore_code_blocks p bm],
            (restore_code_blocks p bm).length)
          else (done, buf ++ [restore_code_blocks p bm],
            size + (restore_code_blocks p bm).length) := rfl
    rw [hstep]
    by_cases hc : cfg.chunk_size < (size : Int) + (restore_code_blocks p bm).length ∧ buf ≠ []
    · rw [if_pos hc]
      obtain ⟨groups, bufE, h1, h2, h3, h4, h5⟩ :=
        ih cfg bm (done ++ [mkCand buf]) [restore_code_blocks p bm]
          (restore_code_blocks p bm).length
      refine ⟨buf :: groups, bufE, ?_, h2, ?_, ?_, ?_⟩
      · rw [h1]
        simp [List.append_assoc]
      · intro g hg
        rcases List.mem_cons.mp hg with h | h
        · rw [h]
          exact hc.2
        · exact h3 g h
      · show buf ++ groups.join ++ bufE = buf ++ (restore_code_blocks p bm
            :: l.map (fun q => restore_code_blocks q bm))
        rw [List.append_assoc, h4]
        rfl
      · intro h0
        obtain ⟨-, habs, -⟩ := h5 h0
        cases habs
    · rw [if_neg hc]
      obtain ⟨groups, bufE, h1, h2, h3, h4, h5⟩ :=
        ih cfg bm done (buf ++ [restore_code_blocks p bm])
          (size + (restore_code_blocks p bm).length)
      refine ⟨groups, bufE, h1, h2, h3, ?_, ?_⟩
      · rw [h4]
        show (buf ++ [restore_code_blocks p bm])
            ++ l.map (fun q => restore_code_blocks q bm) = _
        simp [List.append_assoc]
      · intro h0
        obtain ⟨-, habs, -⟩ := h5 h0
        rw [List.append_eq_nil] at habs
        cases habs.2

/-- `_split_by_paragraph` output: a non-empty consecutive grouping of the
restored paragraphs. -/
theorem split_by_paragraph_structure (cfg : Cfg) (text : Str) :
    ∃ gs : List (List Str), gs ≠ [] ∧ (∀ g ∈ gs, g ≠ []) ∧
      split_by_paragraph cfg text = gs.map mkCand ∧
      gs.join = (splitOnStr sepPP (protect_code_blocks text).1).map
        (fun p => restore_code_blocks p (protect_code_blocks text).2) := by
  obtain ⟨groups, bufE, h1, h2, h3, h4, h5⟩ :=
    spp_fold_partition (splitOnStr sepPP (protect_code_blocks text).1) cfg
      (protect_code_blocks text).2 [] [] 0
  have hbufE : bufE ≠ [] := by
    intro h0
    obtain ⟨-, -, habs⟩ := h5 h0
    exact splitOn_ne_nil _ _ habs
  refine ⟨groups ++ [bufE], by simp, ?_, ?_, ?_⟩
  · intro g hg
    rcases List.mem_append.mp hg with h | h
    · exact h3 g h
    · rw [List.mem_singleton.mp h]
      exact hbufE
  · rw [split_by_paragraph_eq]
    show (if ((splitOnStr sepPP (protect_code_blocks text).1).foldl
          (sppStep cfg (protect_code_blocks text).2) ([], [], 0)).2.1 ≠ []
        then ((splitOnStr sepPP (protect_code_blocks text).1).foldl
          (sppStep cfg (protect_code_blocks text).2) ([], [], 0)).1
          ++ [mkCand ((splitOnStr sepPP (protect_code_blocks text).1).foldl
            (sppStep cfg (protect_code_blocks text).2) ([], [], 0)).2.1]
        else ((splitOnStr sepPP (protect_code_blocks text).1).foldl
          (sppStep cfg (protect_code_blocks text).2) ([], [], 0)).1)
      = (groups ++ [bufE]).map mkCand
    rw [h2, h1, if_pos hbufE]
    simp
  · have h6 : (groups ++ [bufE]).join = groups.join ++ bufE := by simp
    rw [h6, h4]
    rfl

theorem split_by_paragraph_join (cfg : Cfg) (text : Str) (htext : CBFree text) :
    joinSep sepPP ((split_by_paragraph cfg text).map (fun c => c.content)) = text := by
  obtain ⟨gs, hne, hgne, heq, hjoin⟩ := split_by_paragraph_structure cfg text
  rw [heq, List.map_map]
  have h1 : gs.map ((fun c : Candidate => c.content) ∘ mkCand)
      = gs.map (joinSep sepPP) := by
    apply List.map_congr_left
    intro g _
    rfl
  rw [h1, joinSep_join sepPP gs hgne, hjoin]
  exact paragraphs_restore_join text htext

/-- Joining with a separator absorbs an element that is itself a separated
pair. -/
theorem joinSep_merge_elem (sep : Str) :
    ∀ (A : List Str) (x y : Str) (B : List Str),
      joinSep sep (A ++ (x ++ sep ++ y) :: B) = joinSep sep (A ++ x :: y :: B) := by
  intro A
  induction A with
  | nil =>
    intro x y B
    cases B with
    | nil =>
      show x ++ sep ++ y = joinSep sep (x :: y :: [])
      rw [joinSep_cons (by simp)]
      rfl
    | cons b B' =>
      show joinSep sep ((x ++ sep ++ y) :: b :: B') = _
      rw [joinSep_cons (by simp)]
      have h1 : joinSep sep (x :: y :: b :: B')
          = x ++ sep ++ joinSep sep (y :: b :: B') := joinSep_cons (by simp)
      have h2 : joinSep sep (y :: b :: B')
          = y ++ sep ++ joinSep sep (b :: B') := joinSep_cons (by simp)
      show (x ++ sep ++ y) ++ sep ++ joinSep sep (b :: B')
        = joinSep sep (x :: y :: b :: B')
      rw [h1, h2]
      simp [List.append_assoc]
  | cons a A' ih =>
    intro x y B
    have h1 : joinSep sep (a :: (A' ++ (x ++ sep ++ y) :: B))
        = a ++ sep ++ joinSep sep (A' ++ (x ++ sep ++ y) :: B) :=
      joinSep_cons (by simp)
    have h2 : joinSep sep (a :: (A' ++ x :: y :: B))
        = a ++ sep ++ joinSep sep (A' ++ x :: y :: B) :=
      joinSep_cons (by simp)
    show joinSep sep (a :: (A' ++ (x ++ sep ++ y) :: B)) = _
    rw [h1, ih x y B]
    rw [show (a :: A') ++ x :: y :: B = a :: (A' ++ x :: y :: B) from rfl, h2]

/-- The merge loop preserves the blank-line join of all contents. -/
theorem merge_fold_join :
    ∀ (rest : List Candidate) (cfg : Cfg) (done : List Candidate) (cur : Candidate),
      joinSep sepPP ((((rest.foldl (mergeStep cfg) (done, cur)).1
          ++ [(rest.foldl (mergeStep cfg) (done, cur)).2]).map (fun c => c.content)))
        = joinSep sepPP ((done ++ cur :: rest).map (fun c => c.content)) := by
  intro rest
  induction rest with
  | nil =>
    intro cfg done cur
    rfl
  | cons nxt rest ih =>
    intro cfg done cur
    rw [List.foldl_cons]
    have hstep : mergeStep cfg (done, cur) nxt
        = if (cur.content.length : Int) + nxt.content.length ≤ cfg.chunk_size
          then (done, ⟨cur.content ++ sepPP ++ nxt.content, cur.heading_info⟩)
          else (done ++ [cur], nxt) := rfl
    rw [hstep]
    by_cases hc : (cur.content.length : Int) + nxt.content.length ≤ cfg.chunk_size
    · rw [if_pos hc, ih]
      have h1 : (done ++ (⟨cur.content ++ sepPP ++ nxt.content, cur.heading_info⟩
            : Candidate) :: rest).map (fun c => c.content)
          = done.map (fun c => c.content)
            ++ (cur.content ++ sepPP ++ nxt.content) :: rest.map (fun c => c.content) := by
        simp
      have h2 : (done ++ cur :: nxt :: rest).map (fun c => c.content)
          = done.map (fun c => c.content)
            ++ cur.content :: nxt.content :: rest.map (fun c => c.content) := by
        simp
      rw [h1, h2, joinSep_merge_elem]
    · rw [if_neg hc, ih]
      have h1 : (done ++ [cur]) ++ nxt :: rest = done ++ cur :: nxt :: rest := by
        simp
      rw [h1]

theorem merge_join (cfg : Cfg) (cands : List Candidate) (h : cands ≠ []) :
    joinSep sepPP ((merge_short_chunks cfg cands).map (fun c => c.content))
      = joinSep sepPP (cands.map (fun c => c.content)) := by
  cases cands with
  | nil => exact absurd rfl h
  | cons c0 rest =>
    show joinSep sepPP (((rest.foldl (mergeStep cfg) ([], c0)).1
        ++ [(rest.foldl (mergeStep cfg) ([], c0)).2]).map (fun c => c.content)) = _
    rw [merge_fold_join]
    rfl

theorem singleton_inf_of_mem {c : Char} {p : Str} (h : c ∈ p) : [c] <:+: p := by
  obtain ⟨A, B, hAB⟩ := List.append_of_mem h
  exact ⟨A, B, by rw [hAB]; simp⟩

/-- No piece of a split contains the separator. -/
theorem splitOn_piece_no_sep {sep : Str} (hsep : sep ≠ []) :
    ∀ (s p : Str), p ∈ splitOnStr sep s → ¬ sep <:+: p := by
  suffices h : ∀ n s, s.length ≤ n → ∀ p, p ∈ splitOnStr sep s → ¬ sep <:+: p from
    fun s p hp => h s.length s le_rfl p hp
  intro n
  induction n with
  | zero =>
    intro s hs p hp
    have hz : s = [] := List.length_eq_zero.mp (Nat.le_zero.mp hs)
    subst hz
    have hnone : firstSplit sep ([] : Str) = none := by
      rw [firstSplit_none_iff]
      intro hinf
      obtain ⟨u, v, huv⟩ := hinf
      simp at huv
      exact hsep huv.2.1
    rw [splitOn_atom hnone] at hp
    simp at hp
    subst hp
    exact firstSplit_none_iff.mp hnone
  | succ n ih =>
    intro s hs p hp
    cases hfs : firstSplit sep s with
    | none =>
      rw [splitOn_atom hfs] at hp
      simp at hp
      subst hp
      exact firstSplit_none_iff.mp hfs
    | some ar =>
      obtain ⟨a, r⟩ := ar
      rw [splitOn_step hsep hfs] at hp
      rcases List.mem_cons.mp hp with h | h
      · subst h
        exact firstSplit_no_occ_in_pre hsep hfs
      · have hsnd := firstSplit_sound hfs
        have hr : r.length ≤ n := by
          have hpos : 0 < sep.length := List.length_pos.mpr hsep
          rw [hsnd] at hs
          simp [List.length_append] at hs
          omega
        exact ih r hr p h

theorem splitLines_no_nl {s line : Str} (h : line ∈ splitLines s) : '\n' ∉ line :=
  fun hmem => splitOn_piece_no_sep (by simp) s line h (singleton_inf_of_mem hmem)

theorem pyStrip_subset {s : Str} : ∀ c ∈ pyStrip s, c ∈ s := by
  intro c hc
  unfold pyStrip at hc
  rw [List.mem_reverse] at hc
  have h1 := (List.dropWhile_sublist _).subset hc
  rw [List.mem_reverse] at h1
  exact (List.dropWhile_sublist _).subset h1

theorem matchATX_title_subset {t : Str} {lt : Nat × Str} (h : matchATX t = some lt) :
    ∀ c ∈ lt.2, c ∈ t := by
  intro c hc
  unfold matchATX at h
  dsimp only at h
  split at h
  · split at h
    · cases h
    · split at h
      · split at h
        · injection h with he
          rw [← he] at hc
          simp at hc
        · cases h
      · injection h with he
        rw [← he] at hc
        have h1 := pyStrip_subset _ hc
        have h2 := List.drop_subset _ _ h1
        exact List.drop_subset _ _ h2
  · cases h

theorem extract_heading_nl (c : Str) : '\n' ∉ (extract_heading_from_chunk c).heading := by
  unfold extract_heading_from_chunk
  cases hfind : ((splitLines c).take 5).findSome? (fun line => matchATX (pyStrip line)) with
  | none => simp
  | some lt =>
    show '\n' ∉ (⟨true, lt.2, lt.1⟩ : HeadingInfo).heading
    obtain ⟨line, hline, hm⟩ := List.exists_of_findSome?_eq_some hfind
    intro hmem
    have h1 := matchATX_title_subset hm '\n' hmem
    have h2 := pyStrip_subset _ h1
    exact splitLines_no_nl (List.take_subset _ _ hline) h2

theorem joinSep_mem_subset (sep : Str) :
    ∀ (L : List Str) (c : Char), c ∈ joinSep sep L → c ∈ sep ∨ ∃ x ∈ L, c ∈ x := by
  intro L
  induction L with
  | nil =>
    intro c h
    cases h
  | cons p ps ih =>
    intro c h
    cases ps with
    | nil =>
      right
      exact ⟨p, by simp, h⟩
    | cons q qs =>
      have h' : c ∈ p ++ sep ++ joinSep sep (q :: qs) := h
      rcases List.mem_append.mp h' with h1 | h1
      · rcases List.mem_append.mp h1 with h2 | h2
        · right
          exact ⟨p, by simp, h2⟩
        · left
          exact h2
      · rcases ih c h1 with h2 | ⟨x, hx, hcx⟩
        · left
          exact h2
        · right
          exact ⟨x, by simp [hx], hcx⟩

/-- The blank line right after a newline-free prefix is its first
occurrence. -/
theorem firstSplit_sep_after {m rest : Str} (hm : '\n' ∉ m) :
    firstSplit sepPP (m ++ sepPP ++ rest) = some (m, rest) := by
  apply firstSplit_eq_of_min
  · rfl
  · intro a' r' hdec
    by_contra hlt
    push_neg at hlt
    have h1 : a' ++ sepPP <+: m ++ sepPP ++ rest := by
      rw [hdec]
      exact ⟨r', by simp [List.append_assoc]⟩
    have h2 : m <+: m ++ sepPP ++ rest := by
      rw [List.append_assoc]
      exact List.prefix_append _ _
    have e1 : (m ++ sepPP ++ rest)[a'.length]? = (a' ++ sepPP)[a'.length]? :=
      prefix_getElem? h1 (by
        have hl : (a' ++ sepPP).length = a'.length + 2 := by simp [sepPP]
        omega)
    have e2 : (m ++ sepPP ++ rest)[a'.length]? = m[a'.length]? :=
      prefix_getElem? h2 hlt
    have e3 : (a' ++ sepPP)[a'.length]? = some '\n' := by
      rw [List.getElem?_append, if_neg (by omega), Nat.sub_self]
      rfl
    rw [e3] at e1
    rw [e1] at e2
    obtain ⟨hlt2, he⟩ := List.getElem?_eq_some.mp e2.symm
    exact hm (he ▸ List.getElem_mem hlt2)

/-- Strip a leading injected context-marker line: drop through the first
blank line when the chunk starts with the marker prefix. -/
def stripMarker (s : Str) : Str :=
  if ("[Context:".data).isPrefixOf s then
    match firstSplit sepPP s with
    | none => s
    | some ar => ar.2
  else s

theorem stripMarker_id {s : Str} (h : '[' ∉ s) : stripMarker s = s := by
  unfold stripMarker
  rw [if_neg]
  intro hpre
  rw [List.isPrefixOf_iff_prefix] at hpre
  exact h (hpre.subset (by decide))

theorem stripMarker_marker {m c0 : Str} (hm : '\n' ∉ m)
    (hpre : ("[Context:".data) <+: m) :
    stripMarker (m ++ sepPP ++ c0) = c0 := by
  have hcond : ("[Context:".data).isPrefixOf (m ++ sepPP ++ c0) = true := by
    rw [List.isPrefixOf_iff_prefix]
    refine hpre.trans ?_
    rw [List.append_assoc]
    exact List.prefix_append _ _
  unfold stripMarker
  rw [if_pos hcond, firstSplit_sep_after hm]

/-- Any candidate property preserved by blank-line merging (keeping the
first heading info) holds of all merged candidates. -/
theorem merge_fold_prop (cfg : Cfg) (Q : Candidate → Prop)
    (hmerge : ∀ cur nxt : Candidate, Q cur → Q nxt →
      Q ⟨cur.content ++ sepPP ++ nxt.content, cur.heading_info⟩) :
    ∀ (rest : List Candidate) (done : List Candidate) (cur : Candidate),
      (∀ c ∈ done, Q c) → Q cur → (∀ c ∈ rest, Q c) →
      ∀ c ∈ (rest.foldl (mergeStep cfg) (done, cur)).1
          ++ [(rest.foldl (mergeStep cfg) (done, cur)).2], Q c := by
  intro rest
  induction rest with
  | nil =>
    intro done cur hdone hcur _ c hc
    rcases List.mem_append.mp hc with h | h
    · exact hdone c h
    · rw [List.mem_singleton.mp h]
      exact hcur
  | cons nxt rest ih =>
    intro done cur hdone hcur hrest c hc
    rw [List.foldl_cons] at hc
    have hstep : mergeStep cfg (done, cur) nxt
        = if (cur.content.length : Int) + nxt.content.length ≤ cfg.chunk_size
          then (done, ⟨cur.content ++ sepPP ++ nxt.content, cur.heading_info⟩)
          else (done ++ [cur], nxt) := rfl
    rw [hstep] at hc
    by_cases hcond : (cur.content.length : Int) + nxt.content.length ≤ cfg.chunk_size
    · rw [if_pos hcond] at hc
      exact ih done _ hdone (hmerge cur nxt hcur (hrest nxt (by simp)))
        (fun x h => hrest x (by simp [h])) c hc
    · rw [if_neg hcond] at hc
      refine ih (done ++ [cur]) nxt ?_ (hrest nxt (by simp))
        (fun x h => hrest x (by simp [h])) c hc
      intro x hx
      rcases List.mem_append.mp hx with h | h
      · exact hdone x h
      · rw [List.mem_singleton.mp h]
        exact hcur

theorem merge_prop (cfg : Cfg) (Q : Candidate → Prop)
    (hmerge : ∀ cur nxt : Candidate, Q cur → Q nxt →
      Q ⟨cur.content ++ sepPP ++ nxt.content, cur.heading_info⟩)
    (cands : List Candidate) (hall : ∀ c ∈ cands, Q c) :
    ∀ c ∈ merge_short_chunks cfg cands, Q c := by
  cases cands with
  | nil =>
    intro c hc
    have hc' : c ∈ ([] : List Candidate) := hc
    cases hc'
  | cons c0 rest =>
    intro c hc
    have hc' : c ∈ (rest.foldl (mergeStep cfg) ([], c0)).1
        ++ [(rest.foldl (mergeStep cfg) ([], c0)).2] := hc
    exact merge_fold_prop cfg Q hmerge rest [] c0 (by simp) (hall c0 (by simp))
      (fun x h => hall x (by simp [h])) c hc'

/-- Candidates whose content only uses characters of the text (plus
newlines) and whose stored heading is newline-free. -/
def Hgood (text : Str) (c : Candidate) : Prop :=
  (∀ ch ∈ c.content, ch ∈ text ∨ ch = '\n') ∧
  (∀ hi, c.heading_info = some hi → '\n' ∉ hi.heading)

theorem build_heading_path_nil_nl (hi : HeadingInfo) (h : '\n' ∉ hi.heading) :
    ∀ e ∈ build_heading_path hi [], '\n' ∉ e.2 := by
  intro e he
  unfold build_heading_path at he
  split at he
  · cases he
  · have he' : e ∈ [(hi.level, hi.heading)] := he
    rw [List.mem_singleton.mp he']
    exact h

theorem resolveStep_prev (fn fp : Str) (st : Option (List (Nat × Str)) × List Chunk)
    (ic : Nat × Candidate)
    (hg2 : ∀ hi, ic.2.heading_info = some hi → '\n' ∉ hi.heading)
    (hprev : ∀ e ∈ st.1.getD [], '\n' ∉ e.2) :
    ∀ e ∈ (resolveStep [] fn fp st ic).1.getD [], '\n' ∉ e.2 := by
  have hhi0 : '\n' ∉ (match ic.2.heading_info with
      | some hi => hi
      | none => extract_heading_from_chunk ic.2.content).heading := by
    cases hhi : ic.2.heading_info with
    | some hi =>
      simp only [hhi]
      exact hg2 hi hhi
    | none =>
      simp only [hhi]
      exact extract_heading_nl _
  intro e he
  unfold resolveStep at he
  dsimp only at he
  split at he
  · split at he
    · exact build_heading_path_nil_nl _ hhi0 e he
    · exact hprev e he
  · split at he
    · exact build_heading_path_nil_nl _ hhi0 e he
    · exact hprev e he

theorem resolveStep_strip (text : Str) (hbr : '[' ∉ text) (fn fp : Str)
    (st : Option (List (Nat × Str)) × List Chunk) (ic : Nat × Candidate)
    (hfn : '\n' ∉ fn) (hg : Hgood text ic.2)
    (hprev : ∀ e ∈ st.1.getD [], '\n' ∉ e.2) :
    ((resolveStep [] fn fp st ic).2).map (fun ch => stripMarker ch.content)
      = (st.2).map (fun ch => stripMarker ch.content) ++ [ic.2.content] := by
  have hbrc : '[' ∉ ic.2.content := by
    intro hmem
    rcases hg.1 '[' hmem with h | h
    · exact hbr h
    · cases h
  have hm : '\n' ∉ ("[Context: ".data ++ fn ++ " > ".data
      ++ joinSep " > ".data ((st.1.getD []).map (fun y => y.2)) ++ "]".data) := by
    intro hmem
    rcases List.mem_append.mp hmem with h | h
    · rcases List.mem_append.mp h with h | h
      · rcases List.mem_append.mp h with h | h
        · rcases List.mem_append.mp h with h | h
          · exact absurd h (by decide)
          · exact hfn h
        · exact absurd h (by decide)
      · rcases joinSep_mem_subset _ _ _ h with h | ⟨x, hx, hcx⟩
        · exact absurd h (by decide)
        · obtain ⟨e, he, hee⟩ := List.mem_map.mp hx
          rw [← hee] at hcx
          exact hprev e he hcx
    · exact absurd h (by decide)
  have hpre9 : ("[Context:".data) <+: ("[Context: ".data ++ fn ++ " > ".data
      ++ joinSep " > ".data ((st.1.getD []).map (fun y => y.2)) ++ "]".data) := by
    have h1 : ("[Context:".data) <+: ("[Context: ".data) := by decide
    exact h1.trans ((List.prefix_append _ _).trans ((List.prefix_append _ _).trans
      ((List.prefix_append _ _).trans (List.prefix_append _ _))))
  unfold resolveStep
  dsimp only
  rw [List.map_append, List.map_cons, List.map_nil]
  congr 1
  refine congrArg (fun x : Str => [x]) ?_
  split
  · split
    · exact stripMarker_id hbrc
    · exact stripMarker_marker hm hpre9
  · exact stripMarker_id hbrc

theorem resolve_fold_strip (text : Str) (hbr : '[' ∉ text) :
    ∀ (l : List (Nat × Candidate)) (fn fp : Str)
      (st : Option (List (Nat × Str)) × List Chunk),
      '\n' ∉ fn →
      (∀ ic ∈ l, Hgood text ic.2) →
      (∀ e ∈ st.1.getD [], '\n' ∉ e.2) →
      ((l.foldl (resolveStep [] fn fp) st).2).map (fun ch => stripMarker ch.content)
        = (st.2).map (fun ch => stripMarker ch.content)
          ++ l.map (fun ic => ic.2.content) := by
  intro l
  induction l with
  | nil =>
    intro fn fp st _ _ _
    simp
  | cons ic l ih =>
    intro fn fp st hfn hl hprev
    rw [List.foldl_cons]
    rw [ih fn fp (resolveStep [] fn fp st ic) hfn (fun x hx => hl x (by simp [hx]))
      (resolveStep_prev fn fp st ic (hl ic (by simp)).2 hprev)]
    rw [resolveStep_strip text hbr fn fp st ic hfn (hl ic (by simp)) hprev]
    simp

theorem enumFrom_snd_mem {α : Type} :
    ∀ (l : List α) (k : Nat) (ic : Nat × α), ic ∈ List.enumFrom k l → ic.2 ∈ l := by
  intro l
  induction l with
  | nil =>
    intro k ic h
    cases h
  | cons a l ih =>
    intro k ic h
    have h' : ic ∈ (k, a) :: List.enumFrom (k + 1) l := h
    rcases List.mem_cons.mp h' with h1 | h1
    · rw [h1]
      exact List.mem_cons_self _ _
    · exact List.mem_cons_of_mem _ (ih (k + 1) ic h1)

theorem enumFrom_map_snd {α β : Type} (g : α → β) :
    ∀ (l : List α) (k : Nat),
      (List.enumFrom k l).map (fun ic => g ic.2) = l.map g := by
  intro l
  induction l with
  | nil =>
    intro k
    rfl
  | cons a l ih =>
    intro k
    show g a :: (List.enumFrom (k + 1) l).map (fun ic => g ic.2) = g a :: l.map g
    rw [ih (k + 1)]

theorem split_by_paragraph_ne_nil (cfg : Cfg) (text : Str) :
    split_by_paragraph cfg text ≠ [] := by
  obtain ⟨gs, hne, -, heq, -⟩ := split_by_paragraph_structure cfg text
  rw [heq]
  intro h0
  exact hne (List.map_eq_nil.mp h0)

theorem split_cands_Hgood (cfg : Cfg) (text : Str) (htext : CBFree text) :
    ∀ c ∈ split_by_paragraph cfg text, Hgood text c := by
  obtain ⟨gs, hne, hgne, heq, hjoin⟩ := split_by_paragraph_structure cfg text
  rw [heq]
  intro c hc
  obtain ⟨g, hg, hge⟩ := List.mem_map.mp hc
  rw [← hge]
  constructor
  · intro ch hch
    have hch' : ch ∈ joinSep sepPP g := hch
    rcases joinSep_mem_subset _ _ _ hch' with h | ⟨x, hx, hcx⟩
    · right
      simpa [sepPP] using h
    · left
      have hxj : x ∈ gs.join := List.mem_join.mpr ⟨g, hg, hx⟩
      rw [hjoin] at hxj
      have hinf : x <:+: text := by
        rw [← paragraphs_restore_join text htext]
        exact mem_joinSep_infix _ x hxj
      exact hinf.sublist.subset hcx
  · intro hi hhi
    have hh : (mkCand g).heading_info
        = some (extract_heading_from_chunk (joinSep sepPP g)) := rfl
    rw [hh] at hhi
    rw [← Option.some.inj hhi]
    exact extract_heading_nl _

/-- On the paragraph path with no overlap, stripping the injected context
markers and joining the chunk contents with a blank line rebuilds the text. -/
theorem chunk_concat_core (cfg : Cfg) (text fn fp : Str)
    (hov : cfg.chunk_overlap = 0) (htext : CBFree text)
    (hbr : '[' ∉ text) (hfn : '\n' ∉ fn) :
    joinSep sepPP ((chunk_by_headings cfg text [] fn fp).map
      (fun ch => stripMarker ch.content)) = text := by
  have hpipe : chunk_by_headings cfg text [] fn fp
      = ((if 0 < cfg.chunk_overlap ∧
            1 < (merge_short_chunks cfg (split_by_paragraph cfg text)).length
          then apply_overlap cfg (merge_short_chunks cfg (split_by_paragraph cfg text))
          else merge_short_chunks cfg (split_by_paragraph cfg text)).enum.foldl
          (resolveStep [] fn fp) (none, [])).2 := rfl
  have hskip : (if 0 < cfg.chunk_overlap ∧
        1 < (merge_short_chunks cfg (split_by_paragraph cfg text)).length
      then apply_overlap cfg (merge_short_chunks cfg (split_by_paragraph cfg text))
      else merge_short_chunks cfg (split_by_paragraph cfg text))
      = merge_short_chunks cfg (split_by_paragraph cfg text) := by
    rw [if_neg]
    intro hcond
    rw [hov] at hcond
    exact Nat.lt_irrefl 0 hcond.1
  rw [hpipe, hskip]
  have hHgood : ∀ c ∈ merge_short_chunks cfg (split_by_paragraph cfg text),
      Hgood text c := by
    apply merge_prop cfg (Hgood text) ?_ _ (split_cands_Hgood cfg text htext)
    intro cur nxt hcur hnxt
    constructor
    · intro ch hch
      have hch' : ch ∈ cur.content ++ sepPP ++ nxt.content := hch
      rcases List.mem_append.mp hch' with h | h
      · rcases List.mem_append.mp h with h | h
        · exact hcur.1 ch h
        · right
          simpa [sepPP] using h
      · exact hnxt.1 ch h
    · intro hi hhi
      exact hcur.2 hi hhi
  have hgoodenum : ∀ ic ∈ (merge_short_chunks cfg (split_by_paragraph cfg text)).enum,
      Hgood text ic.2 := by
    intro ic hic
    exact hHgood ic.2 (enumFrom_snd_mem _ 0 ic hic)
  rw [resolve_fold_strip text hbr _ fn fp (none, []) hfn hgoodenum (by simp)]
  have henum : ((merge_short_chunks cfg (split_by_paragraph cfg text)).enum).map
      (fun ic => ic.2.content)
      = (merge_short_chunks cfg (split_by_paragraph cfg text)).map
        (fun c => c.content) :=
    enumFrom_map_snd (fun c : Candidate => c.content) _ 0
  rw [show ((none, ([] : List Chunk))
      : Option (List (Nat × Str)) × List Chunk).2 = [] from rfl]
  rw [List.map_nil, List.nil_append, henum,
    merge_join cfg _ (split_by_paragraph_ne_nil cfg text)]
  exact split_by_paragraph_join cfg text htext

/-- C1 counterexample: with a heading list, text before the first heading is
dropped, so the stripped concatenation does not reproduce the input (here
with no overlap and no injected markers at all). -/
theorem chunk_concat_cex :
    joinSep sepPP ((chunk_by_headings ⟨100, 0⟩ ("intro\n# A\nbody".data)
        [(1, 1, "A".data)] ("f".data) ("d.md".data)).map
      (fun ch => stripMarker ch.content)) ≠ "intro\n# A\nbody".data := by
  decide

/-- C1 amended: on the paragraph path (empty heading list), with no overlap,
for a text free of the substring `CODE_BLOCK` and of the character `[` and a
newline-free file name, stripping the injected `[Context: ...]` markers and
joining the chunk contents in order with a blank line reproduces the original
text exactly. -/
theorem chunk_concat_reconstructs (cfg : Cfg) (text fn fp : Str)
    (hov : cfg.chunk_overlap = 0) (htext : CBFree text)
    (hbr : '[' ∉ text) (hfn : '\n' ∉ fn) :
    joinSep sepPP ((chunk_by_headings cfg text [] fn fp).map
      (fun ch => stripMarker ch.content)) = text :=
  chunk_concat_core cfg text fn fp hov htext hbr hfn

/-- Witness for C1 at a concrete document where the second chunk inherits a
heading and receives a context marker. -/
theorem chunk_concat_reconstructs_witness :
    ((⟨10, 0⟩ : Cfg).chunk_overlap = 0 ∧
      CBFree ("# T\nbody\n\nsecond para here".data) ∧
      '[' ∉ ("# T\nbody\n\nsecond para here".data) ∧
      '\n' ∉ ("f".data)) ∧
    joinSep sepPP ((chunk_by_headings ⟨10, 0⟩ ("# T\nbody\n\nsecond para here".data)
        [] ("f".data) ("d.md".data)).map
      (fun ch => stripMarker ch.content)) = "# T\nbody\n\nsecond para here".data :=
  ⟨⟨rfl, show ¬ cb <:+: _ by decide, by decide, by decide⟩,
   chunk_concat_reconstructs ⟨10, 0⟩ _ _ ("d.md".data) rfl
     (show ¬ cb <:+: _ by decide) (by decide) (by decide)⟩
